import Mathlib

/-!
swift-cache: the eviction store (package `lru`) and the group orchestrator (package `swift`)

A shallow embedding of `swift/lru/lru.go`, `swift/byteview.go`, `swift/cache.go`,
`swift/peers.go` and `swift/swift.go`.

Conventions of the embedding.

* A Go `string` is a Lean `String`; `len(s)` is the number of bytes of its UTF-8 encoding.
* A Go `[]byte` is a `List UInt8` (a nil slice and an empty slice are both `[]`).
* An `int64` is an `Int` from `-2^63` to `2^63 - 1`, and so is an `int` (64-bit platforms).
  Arithmetic on them wraps around: the result of every `+`, `-`, `+=` and `-=` is reduced by
  `int64`. The lengths that `len` and `Len()` return are `int`s. The capacity `maxBytes` is
  only compared, never computed with; what is proved for every integer capacity holds for
  every `int64` capacity.
* A callback is a Go closure: it acts on its own state and can read the store it is
  registered on, so it takes the store as it finds it (`Snapshot`) as an argument.
* A Go `map[K]X` is an association list read with `mapIndex`, written with `mapAssign` and
  `mapDelete`.
* Pointers are addresses (`Nat`) into an explicit table of objects: the nodes of the
  `container/list` recency list are addresses into `Cache.nodes`.
* A method with a pointer receiver is a function from the object's state to its new state.
* The mutexes are not modelled: every function below is one sequential call.
* A `for` loop that the source does not bound takes a `fuel` argument and returns `none`
  when the fuel does not suffice.
-/

/-! Go built-ins -/

/-- The value of an integer as an `int64` (and as an `int`): two's-complement wrap-around
into the range from `-2^63` to `2^63 - 1`. It is the conversion `int64(x)` and the reduction
of the result of an arithmetic operation. -/
def int64 (x : Int) : Int :=
  (x + 9223372036854775808) % 18446744073709551616 - 9223372036854775808

/-- The constant `math.MaxInt64`, `2^63 - 1`. -/
def MaxInt64 : Int := 9223372036854775807

/-- The Go built-in `len` on a string: its number of bytes, an `int`. A Go string has at most
`2^63 - 1` bytes, so the reduction is the identity on every string of a program. -/
def len (s : String) : Int := ((s.utf8ByteSize % 9223372036854775808 : Nat) : Int)

/-- Map read `m[k]` with the comma-ok form: `none` when the key is absent. -/
def mapIndex {K X : Type} [DecidableEq K] : List (K × X) → K → Option X
  | [], _ => none
  | (k1, x) :: m, k => if k1 = k then some x else mapIndex m k

/-- Map deletion `delete(m, k)`. -/
def mapDelete {K X : Type} [DecidableEq K] (m : List (K × X)) (k : K) : List (K × X) :=
  m.filter (fun p => decide (p.1 ≠ k))

/-- Map write `m[k] = x`. -/
def mapAssign {K X : Type} [DecidableEq K] (m : List (K × X)) (k : K) (x : X) : List (K × X) :=
  (k, x) :: mapDelete m k

namespace lru

/-- Value: the interface of the stored values, `Len() int`. -/
class Value (V : Type) where
  /-- Len is the accounted size of the value. -/
  Len : V → Int
  /-- The result of `Len` is an `int`. -/
  Len_int : ∀ v, -9223372036854775808 ≤ Len v ∧ Len v ≤ 9223372036854775807

/-- The list payload `entry`: a key with its value. -/
structure entry (V : Type) where
  key : String
  value : V

/-- What an eviction callback can read of the store it is registered on, at the moment it is
called: the callback is a Go closure and reaches the store through a captured pointer. These
are the data fields of the struct, with the table of the list elements. -/
structure Snapshot (V : Type) where
  maxBytes : Int
  nbytes : Int
  ll : List Nat
  cache : List (String × Nat)
  nodes : List (Nat × entry V)

/-- The type of the eviction callback `func(key string, value Value)`: besides its two
arguments it takes the store as it finds it, and it acts on its own state `W`. -/
abbrev Callback (V W : Type) := String → V → Snapshot V → W → W

/-- Cache: the fields of the Go struct, the table `nodes` of the list elements allocated so
far (address to payload) with the allocator `next`, and the state `world` that the eviction
callback acts on. `ll` lists the addresses of the linked elements, front first; the front
is the most recently used end. -/
structure Cache (V W : Type) where
  maxBytes : Int
  nbytes : Int
  ll : List Nat
  cache : List (String × Nat)
  OnEvicted : Option (Callback V W)
  nodes : List (Nat × entry V)
  next : Nat
  world : W

/-- The store as a callback called now finds it. -/
def Cache.snapshot {V W : Type} (c : Cache V W) : Snapshot V :=
  { maxBytes := c.maxBytes, nbytes := c.nbytes, ll := c.ll, cache := c.cache, nodes := c.nodes }

/-- New: an empty store with the given capacity and callback. -/
def New {V W : Type} (maxBytes : Int) (onEvicted : Option (Callback V W)) (w : W) :
    Cache V W :=
  { maxBytes := maxBytes, nbytes := 0, ll := [], cache := [], OnEvicted := onEvicted,
    nodes := [], next := 0, world := w }

/-- The method `MoveToFront` of `container/list`: no effect on an element that is not linked
in the list, otherwise the element becomes the front. -/
def MoveToFront (l : List Nat) (e : Nat) : List Nat :=
  if e ∈ l then e :: l.erase e else l

/-- Cache.Get: index lookup; on a hit the element moves to the front and its value is
returned (`none` stands for the result `(nil, false)`). -/
def Cache.Get {V W : Type} (c : Cache V W) (key : String) : Option V × Cache V W :=
  match mapIndex c.cache key with
  | some ele =>
    let c1 := { c with ll := MoveToFront c.ll ele }
    match mapIndex c.nodes ele with
    | some kv => (some kv.value, c1)
    | none => (none, c1)
  | none => (none, c)

/-- Cache.RemoveOldest: unlink the back element, delete its key from the index, subtract
its accounted size, then run the callback, if there is one, on the store as it is by then. -/
def Cache.RemoveOldest {V W : Type} [Value V] (c : Cache V W) : Cache V W :=
  match c.ll.getLast? with
  | none => c
  | some ele =>
    let c1 := { c with ll := c.ll.dropLast }
    match mapIndex c.nodes ele with
    | none => c1
    | some kv =>
      let c2 := { c1 with cache := mapDelete c1.cache kv.key }
      let c3 := { c2 with
        nbytes := int64 (c2.nbytes - int64 (int64 (len kv.key) + int64 (Value.Len kv.value))) }
      match c3.OnEvicted with
      | some f => { c3 with world := f kv.key kv.value c3.snapshot c3.world }
      | none => c3

/-- The guard of the `for` loop of `Add`. -/
def Cache.over {V W : Type} (c : Cache V W) : Bool :=
  decide (c.maxBytes ≠ 0) && decide (c.maxBytes < c.nbytes)

/-- The `for` loop of `Add`: `RemoveOldest` while the guard holds. -/
def Cache.AddLoop {V W : Type} [Value V] : Nat → Cache V W → Option (Cache V W)
  | 0, c => if c.over then none else some c
  | fuel + 1, c => if c.over then Cache.AddLoop fuel c.RemoveOldest else some c

/-- The two branches of `Add` before its loop: update of an existing key, or insertion of a
new element at the front. -/
def Cache.AddStep {V W : Type} [Value V] (c : Cache V W) (key : String) (value : V) :
    Cache V W :=
  match mapIndex c.cache key with
  | some ele =>
    let c1 := { c with ll := MoveToFront c.ll ele }
    match mapIndex c1.nodes ele with
    | some kv =>
      { c1 with
        nbytes := int64 (c1.nbytes + int64 (int64 (Value.Len value) - int64 (Value.Len kv.value)))
        nodes := mapAssign c1.nodes ele { kv with value := value } }
    | none => c1
  | none =>
    let ele := c.next
    { c with
      ll := ele :: c.ll
      nodes := mapAssign c.nodes ele { key := key, value := value }
      next := c.next + 1
      cache := mapAssign c.cache key ele
      nbytes := int64 (c.nbytes + int64 (int64 (len key) + int64 (Value.Len value))) }

/-- Cache.Add: insert or update, then evict while over capacity. -/
def Cache.Add {V W : Type} [Value V] (fuel : Nat) (c : Cache V W) (key : String) (value : V) :
    Option (Cache V W) :=
  Cache.AddLoop fuel (c.AddStep key value)

/-- Cache.Len: the number of elements of the list. -/
def Cache.Len {V W : Type} (c : Cache V W) : Int := (c.ll.length : Int)

/-- The live entries in recency order, most recently used first. -/
def Cache.entries {V W : Type} (c : Cache V W) : List (entry V) :=
  c.ll.filterMap (mapIndex c.nodes)

/-- The accounted size of an entry: `len(key) + value.Len()`. -/
def entry.size {V : Type} [Value V] (e : entry V) : Int := len e.key + Value.Len e.value

/-- The sum of the accounted sizes of the live entries. -/
def Cache.liveBytes {V W : Type} [Value V] (c : Cache V W) : Int :=
  (c.entries.map entry.size).sum

/-- The calls of the public methods of a store. -/
inductive Op (V : Type) where
  | Add (key : String) (value : V)
  | Get (key : String)
  | RemoveOldest

/-- One call on a store. -/
def Cache.step {V W : Type} [Value V] (fuel : Nat) (c : Cache V W) : Op V → Option (Cache V W)
  | Op.Add key value => c.Add fuel key value
  | Op.Get key => some (c.Get key).2
  | Op.RemoveOldest => some c.RemoveOldest

/-- A sequence of calls on a store, each `Add` run with the given fuel. -/
def Cache.run {V W : Type} [Value V] (fuel : Nat) : Cache V W → List (Op V) → Option (Cache V W)
  | c, [] => some c
  | c, op :: ops => (c.step fuel op).bind (fun c1 => Cache.run fuel c1 ops)

/-- The live entries other than the one of key `k`, in recency order. -/
def Cache.others {V W : Type} (c : Cache V W) (k : String) : List (entry V) :=
  c.entries.filter (fun x => decide (x.key ≠ k))

/-- The calls `Add(k1, v1), Add(k2, v2), ...` for a list of pairs, in order. -/
def adds {V : Type} (ps : List (String × V)) : List (Op V) :=
  ps.map (fun p => Op.Add p.1 p.2)

/-- The recency list made of the given pairs when they were added in order and are all live:
the last pair first. -/
def recent {V : Type} (ps : List (String × V)) : List (entry V) :=
  (ps.map (fun p => ({ key := p.1, value := p.2 } : entry V))).reverse

/-- A callback that records its calls: the evicted pairs, oldest first. -/
def logEvicted {V : Type} : Callback V (List (String × V)) :=
  fun key value _ w => w ++ [(key, value)]

/-- A callback that records what it finds in the store when it is called: the evicted key,
whether the index still holds that key, the number of linked elements and the total. -/
def logSeen {V : Type} : Callback V (List (String × Bool × Nat × Int)) :=
  fun key _ s w => w ++ [(key, (mapIndex s.cache key).isSome, s.ll.length, s.nbytes)]

/-- Whether a call is `RemoveOldest()`. -/
def Op.isRemoveOldest {V : Type} : Op V → Bool
  | Op.RemoveOldest => true
  | _ => false

/-- The value that the last `Add` of key `k` in a sequence of calls adds; `none` when no call
adds `k`. -/
def lastAdded {V : Type} : List (Op V) → String → Option V
  | [], _ => none
  | op :: ops, k =>
    match lastAdded ops k with
    | some v => some v
    | none =>
      match op with
      | Op.Add k1 v => if k1 = k then some v else none
      | _ => none

/-- The keys that a sequence of calls adds, in call order, with repetitions. -/
def addedKeys {V : Type} (ops : List (Op V)) : List String :=
  ops.filterMap (fun op =>
    match op with
    | Op.Add k _ => some k
    | _ => none)

/-- A value type whose `Len()` is the number it holds, as `type Num int` with
`func (n Num) Len() int { return int(n) }` would be; its `Len()` can be negative and can be
as large as `math.MaxInt64`. -/
structure Num where
  n : Int
deriving DecidableEq

instance : Value Num where
  Len x := int64 x.n
  Len_int x := by show _ ≤ int64 x.n ∧ int64 x.n ≤ _; unfold int64; omega

/-- The store of capacity 10 after `Add("a", x)` for a value `x` with `x.Len() = -100`. -/
def storeNeg : Cache Num Unit := (New 10 none ()).AddStep "a" { n := -100 }

/-- The unbounded store (capacity 0) after `Add("a", x)` for a value `x` with
`x.Len() = 5`. -/
def storeFree : Cache Num Unit := (New 0 none ()).AddStep "a" { n := 5 }

/-- The unbounded store (capacity 0) after `Add("c", x)`, `Add("a", y)`, `Add("b", y)` with
`x.Len() = -2^62` and `y.Len() = 2^62 - 1`: the sizes are `1 - 2^62`, `2^62`, `2^62` and the
total is `2^62 + 1`. -/
def storeMixed : Cache Num Unit :=
  (((New 0 none ()).AddStep "c" { n := -4611686018427387904 }).AddStep "a"
    { n := 4611686018427387903 }).AddStep "b" { n := 4611686018427387903 }

/-- Well-formedness of a store: the list has no repeated element, every element is
allocated, index and list correspond one to one, and `nbytes` is the accounted total as an
`int64`. -/
structure Cache.WF {V W : Type} [Value V] (c : Cache V W) : Prop where
  nodup : c.ll.Nodup
  fresh : ∀ e ∈ c.ll, e < c.next
  keys : (c.cache.map Prod.fst).Nodup
  node : ∀ e ∈ c.ll, ∃ kv, mapIndex c.nodes e = some kv ∧ mapIndex c.cache kv.key = some e
  index : ∀ k e, mapIndex c.cache k = some e →
    e ∈ c.ll ∧ ∃ kv, mapIndex c.nodes e = some kv ∧ kv.key = k
  total : c.nbytes = int64 c.liveBytes

end lru

namespace singleflight

/-- Modelled from the spec: package `singleflight` (the Request Coalescer) is not among the
sources. Its state is the set of keys that have an outstanding call. -/
structure Group where
  m : List String

/-- Modelled from the spec: the method `Do` of the Request Coalescer, which is not among the
sources. With no call outstanding for `key` the caller registers the key, runs `fn`
synchronously, removes the record and returns the result of `fn`. A caller that finds a call
outstanding waits for it; in a sequential run nobody completes that call, so the result is
`none`. `fn` acts on a state `σ`; `none` from `fn` means that `fn` does not return. -/
def Group.Do {σ α : Type} (sf : Group) (key : String) (fn : σ → Option (α × σ)) (s : σ) :
    Option (α × σ × Group) :=
  if key ∈ sf.m then none
  else
    let sf1 : Group := { m := key :: sf.m }
    match fn s with
    | none => none
    | some (r, s1) => some (r, s1, { m := sf1.m.erase key })

end singleflight

namespace swift

/-- The Go interface `error`, by its message. -/
abbrev error := String

/-- ByteView: the immutable view of a byte payload. -/
structure ByteView where
  b : List UInt8
deriving DecidableEq

/-- ByteView.Len: the length `len(v.b)` of the payload, an `int`. A slice has at most
`2^63 - 1` elements, so the reduction is the identity on every slice of a program. -/
def ByteView.Len (v : ByteView) : Int := ((v.b.length % 9223372036854775808 : Nat) : Int)

instance : lru.Value ByteView where
  Len := ByteView.Len
  Len_int v := by show _ ≤ v.Len ∧ v.Len ≤ _; unfold ByteView.Len; omega

/-- The values `v1`, `v2`, `v3` of the scenario of the specification, as payloads. -/
def v1 : ByteView := { b := [118, 49] }

/-- The value `v2`. -/
def v2 : ByteView := { b := [118, 50] }

/-- The value `v3`. -/
def v3 : ByteView := { b := [118, 51] }

/-- The pairs `(k1, v1)`, `(k2, v2)` of the scenario. -/
def pairs12 : List (String × ByteView) := [("k1", v1), ("k2", v2)]

/-- The store of capacity `len("k1") + len("v1") + len("k2") + len("v2") = 8` after adding
`(k1, v1)` and `(k2, v2)`. -/
def store12 : lru.Cache ByteView Unit :=
  ((lru.New 8 none ()).AddStep "k1" v1).AddStep "k2" v2

/-- A copy of a byte slice. -/
def cloneBytes (b : List UInt8) : List UInt8 := b

/-- ByteView.ByteSlice: a copy of the payload. -/
def ByteView.ByteSlice (v : ByteView) : List UInt8 := cloneBytes v.b

/-- Getter: the source loader `Get(key) ([]byte, error)`. -/
abbrev Getter := String → Except error (List UInt8)

/-- PeerGetter: the fetch `Get(group, key) ([]byte, error)` of one peer. -/
abbrev PeerGetter := String → String → Except error (List UInt8)

/-- PeerPicker: `PickPeer(key) (peer, ok)`; `none` stands for `ok = false`. -/
abbrev PeerPicker := String → Option PeerGetter

/-- The struct `cache`: the lazily created store and the configured capacity. -/
structure cache where
  lru : Option (lru.Cache ByteView Unit)
  cacheBytes : Int

/-- The method `add` of `cache`: create the store on first use, then `Add`. -/
def cache.add (fuel : Nat) (c : cache) (key : String) (value : ByteView) : Option cache :=
  let l := match c.lru with
    | none => lru.New c.cacheBytes none ()
    | some l => l
  (l.Add fuel key value).map (fun l1 => { c with lru := some l1 })

/-- The method `get` of `cache`: a miss when the store was never created, else `Get`. -/
def cache.get (c : cache) (key : String) : Option ByteView × cache :=
  match c.lru with
  | none => (none, c)
  | some l =>
    match l.Get key with
    | (some v, l1) => (some v, { c with lru := some l1 })
    | (none, l1) => (none, { c with lru := some l1 })

/-- The calls that a group makes to its collaborators. -/
inductive Call where
  | Do (key : String)
  | PickPeer (key : String)
  | PeerGet (group : String) (key : String)
  | GetterGet (key : String)
deriving DecidableEq

/-- Group: the fields of the Go struct (`peers = none` is the nil picker) and the record
`calls` of the calls made so far to the coalescer, the picker, a peer and the source loader,
oldest first. -/
structure Group where
  name : String
  getter : Getter
  mainCache : cache
  peers : Option PeerPicker
  loader : singleflight.Group
  calls : List Call

/-- The package state: the registry `groups` from names to group addresses, the groups
allocated so far, and the next free address. -/
structure Process where
  groups : List (String × Nat)
  objs : List (Nat × Group)
  next : Nat

/-- NewGroup: `none` is the panic on a nil getter; otherwise a new group is allocated and
registered under `name`, and its address is returned. -/
def NewGroup (p : Process) (name : String) (cacheBytes : Int) (getter : Option Getter) :
    Option (Nat × Process) :=
  match getter with
  | none => none
  | some gt =>
    let g : Group :=
      { name := name, getter := gt, mainCache := { lru := none, cacheBytes := cacheBytes },
        peers := none, loader := { m := [] }, calls := [] }
    let a := p.next
    some (a, { groups := mapAssign p.groups name a, objs := mapAssign p.objs a g,
               next := p.next + 1 })

/-- GetGroup: the registered address, `none` for nil. -/
def GetGroup (p : Process) (name : String) : Option Nat := mapIndex p.groups name

/-- The package state at program start: the empty map `groups`, nothing allocated. -/
def Process.init : Process := { groups := [], objs := [], next := 0 }

/-- The group that `NewGroup(name, cacheBytes, getter)` constructs. -/
def Group.fresh (name : String) (cacheBytes : Int) (getter : Getter) : Group :=
  { name := name, getter := getter, mainCache := { lru := none, cacheBytes := cacheBytes },
    peers := none, loader := { m := [] }, calls := [] }

/-- A sequence of `NewGroup(name, cacheBytes, getter)` calls with non-nil getters: the final
package state and the addresses returned, in call order. -/
def NewGroups : Process → List (String × Int × Getter) → Process × List Nat
  | p, [] => (p, [])
  | p, (name, cacheBytes, getter) :: calls =>
    match NewGroup p name cacheBytes (some getter) with
    | none => (p, [])
    | some (a, p1) => ((NewGroups p1 calls).1, a :: (NewGroups p1 calls).2)

/-- Group.populateCache: add to the main cache. -/
def Group.populateCache (fuel : Nat) (g : Group) (key : String) (value : ByteView) :
    Option Group :=
  (g.mainCache.add fuel key value).map (fun mc => { g with mainCache := mc })

/-- Group.getLocal: call the source loader; on success cache a copy of the bytes. -/
def Group.getLocal (fuel : Nat) (g : Group) (key : String) :
    Option ((ByteView × Option error) × Group) :=
  let g1 := { g with calls := g.calls ++ [Call.GetterGet key] }
  match g1.getter key with
  | Except.error e => some ((ByteView.mk [], some e), g1)
  | Except.ok bytes =>
    let val := ByteView.mk (cloneBytes bytes)
    (g1.populateCache fuel key val).map (fun g2 => ((val, none), g2))

/-- Group.getFromPeer: fetch `(group name, key)` from the peer. -/
def Group.getFromPeer (g : Group) (peer : PeerGetter) (key : String) :
    (ByteView × Option error) × Group :=
  let g1 := { g with calls := g.calls ++ [Call.PeerGet g.name key] }
  match peer g1.name key with
  | Except.error e => ((ByteView.mk [], some e), g1)
  | Except.ok bytes => ((ByteView.mk bytes, none), g1)

/-- The variables that the closure in `load` acts on: the group and the named results
`value` and `err` of `load`. -/
structure loadVars where
  g : Group
  value : ByteView
  err : Option error

/-- The closure that `load` passes to `Do`: try the picked peer, which assigns the named
results of `load`; without a value from a peer, `getLocal`. -/
def Group.loadFn (fuel : Nat) (key : String) (s : loadVars) :
    Option ((ByteView × Option error) × loadVars) :=
  match s.g.peers with
  | some picker =>
    let g1 := { s.g with calls := s.g.calls ++ [Call.PickPeer key] }
    match picker key with
    | some peer =>
      let r := g1.getFromPeer peer key
      let s1 : loadVars := { g := r.2, value := r.1.1, err := r.1.2 }
      match r.1.2 with
      | none => some ((r.1.1, none), s1)
      | some _ => (s1.g.getLocal fuel key).map (fun q => (q.1, { s1 with g := q.2 }))
    | none => (g1.getLocal fuel key).map (fun q => (q.1, { s with g := q.2 }))
  | none => (s.g.getLocal fuel key).map (fun q => (q.1, { s with g := q.2 }))

/-- Group.load: run the closure under the coalescer; a nil error returns the view that `Do`
returned, any other error returns the named results. -/
def Group.load (fuel : Nat) (g : Group) (key : String) :
    Option ((ByteView × Option error) × Group) :=
  let g0 := { g with calls := g.calls ++ [Call.Do key] }
  match g0.loader.Do key (Group.loadFn fuel key) { g := g0, value := ByteView.mk [], err := none } with
  | none => none
  | some (r, s, sf) =>
    let g1 := { s.g with loader := sf }
    match r.2 with
    | none => some ((r.1, none), g1)
    | some e => some ((s.value, some e), g1)

/-- Group.Get: reject the empty key, serve a hit from the main cache, else `load`. -/
def Group.Get (fuel : Nat) (g : Group) (key : String) :
    Option ((ByteView × Option error) × Group) :=
  if key = "" then some ((ByteView.mk [], some "key is required"), g)
  else
    match g.mainCache.get key with
    | (some v, mc) => some ((v, none), { g with mainCache := mc })
    | (none, mc) => Group.load fuel { g with mainCache := mc } key

/-- Group.RegisterPeers: `Except.error g` is the panic `RegisterPeerPicker called more than
once`, raised before any assignment, with the group as the panic leaves it; `Except.ok` is
the group after a normal return. A nil argument is `none`. -/
def Group.RegisterPeers (g : Group) (peers : Option PeerPicker) : Except Group Group :=
  match g.peers with
  | some _ => Except.error g
  | none => Except.ok { g with peers := peers }

/-- Sequential `Get` calls for the given keys: the results in call order and the final
group state. -/
def Group.Gets (fuel : Nat) : Group → List String →
    Option (List (ByteView × Option error) × Group)
  | g, [] => some ([], g)
  | g, key :: keys =>
    (Group.Get fuel g key).bind (fun r =>
      (Group.Gets fuel r.2 keys).map (fun rs => (r.1 :: rs.1, rs.2)))

/-- The number of calls of the source loader for `key` recorded in a group. -/
def Group.loads (g : Group) (key : String) : Nat := g.calls.count (Call.GetterGet key)

/-- The live entries of the main cache, most recently used first. -/
def cache.entries (c : cache) : List (lru.entry ByteView) :=
  match c.lru with
  | none => []
  | some l => l.entries

/-- The peer step of `load` yields no value for `key`: no picker is registered, or the
picker names no peer, or the fetch from the named peer fails. -/
def Group.peerFails (g : Group) (key : String) : Prop :=
  match g.peers with
  | none => True
  | some picker =>
    match picker key with
    | none => True
    | some peer => ∃ e, peer g.name key = Except.error e

/-- The calls that the peer step of `load` makes for `key` when it yields no value. -/
def Group.peerCalls (g : Group) (key : String) : List Call :=
  match g.peers with
  | none => []
  | some picker =>
    match picker key with
    | none => [Call.PickPeer key]
    | some _ => [Call.PickPeer key, Call.PeerGet g.name key]

/-- Every cached entry holds the bytes that the source loader returns for its key. -/
def Group.Coherent (g : Group) : Prop :=
  ∀ x ∈ g.mainCache.entries, g.getter x.key = Except.ok x.value.ByteSlice

/-- The states of a group between two calls: the store, once created, is well formed and
has the configured capacity, and no coalesced call is outstanding. -/
structure Group.Valid (g : Group) : Prop where
  wf : ∀ l, g.mainCache.lru = some l → l.WF ∧ l.maxBytes = g.mainCache.cacheBytes
  idle : g.loader.m = []

/-- The source loader of the test: the table Tom 630, Jack 589, Sam 567, and the error
`<key> not exist` for every other key. -/
def db : Getter := fun key =>
  if key = "Tom" then Except.ok [54, 51, 48]
  else if key = "Jack" then Except.ok [53, 56, 57]
  else if key = "Sam" then Except.ok [53, 54, 55]
  else Except.error (key ++ " not exist")

/-- The group of the test right after `NewGroup("scores", 2<<10, db)`. -/
def scores : Group :=
  { name := "scores", getter := db, mainCache := { lru := none, cacheBytes := 2048 },
    peers := none, loader := { m := [] }, calls := [] }

/-- The group `scores` after one `Get("Tom")`. -/
def scoresTom : Group := ((scores.Get 1 "Tom").map (fun r => r.2)).getD scores

/-- A peer that answers every fetch with the bytes `630`. -/
def peer630 : PeerGetter := fun _ _ => Except.ok [54, 51, 48]

/-- The group `scores` with a picker that names `peer630` for every key. -/
def scoresPeered : Group := { scores with peers := some (fun _ => some peer630) }

/-- The group made by `NewGroup("scores", 1, db)`: capacity one byte. -/
def scoresTiny : Group :=
  { name := "scores", getter := db, mainCache := { lru := none, cacheBytes := 1 },
    peers := none, loader := { m := [] }, calls := [] }

/-- The store of capacity 8 after adding `(k1, v1)` and `(k2, v2)`, with the callback that
records what it finds in the store. -/
def storeLog : lru.Cache ByteView (List (String × Bool × Nat × Int)) :=
  ((lru.New 8 (some lru.logSeen) []).AddStep "k1" v1).AddStep "k2" v2

end swift
/-! Integers of 64 bits -/

theorem int64_range (x : Int) :
    -9223372036854775808 ≤ int64 x ∧ int64 x ≤ 9223372036854775807 := by
  unfold int64; omega

theorem int64_of_range {x : Int} (h1 : -9223372036854775808 ≤ x)
    (h2 : x ≤ 9223372036854775807) : int64 x = x := by
  unfold int64; omega

theorem int64_add_int64 (a b : Int) : int64 (a + int64 b) = int64 (a + b) := by
  unfold int64; omega

theorem int64_sub_int64 (a b : Int) : int64 (a - int64 b) = int64 (a - b) := by
  unfold int64; omega

theorem int64_int64_add (a b : Int) : int64 (int64 a + b) = int64 (a + b) := by
  unfold int64; omega

theorem int64_int64_sub (a b : Int) : int64 (int64 a - b) = int64 (a - b) := by
  unfold int64; omega

theorem int64_le_self {x : Int} (h : -9223372036854775808 ≤ x) : int64 x ≤ x := by
  unfold int64; omega

theorem int64_zero : int64 0 = 0 := by decide

theorem len_int (s : String) : 0 ≤ len s ∧ len s ≤ 9223372036854775807 := by
  unfold len; omega


/-! Maps -/

theorem mapIndex_mapDelete {K X : Type} [DecidableEq K] (m : List (K × X)) (k k1 : K) :
    mapIndex (mapDelete m k) k1 = if k1 = k then none else mapIndex m k1 := by
  induction m with
  | nil => simp [mapDelete, mapIndex]
  | cons p m ih =>
    obtain ⟨a, x⟩ := p
    have hc : mapDelete ((a, x) :: m) k = if a = k then mapDelete m k else (a, x) :: mapDelete m k := by
      by_cases ha : a = k <;> simp [mapDelete, List.filter_cons, ha]
    rw [hc]
    by_cases ha : a = k
    · rw [if_pos ha, ih]
      by_cases h1 : k1 = k
      · simp [h1]
      · have h2 : ¬ a = k1 := fun h => h1 (h.symm.trans ha)
        simp [h1, mapIndex, h2]
    · rw [if_neg ha]
      by_cases h2 : a = k1
      · have h1 : ¬ k1 = k := fun h => ha (h2.trans h)
        simp [mapIndex, h2, h1]
      · simp [mapIndex, h2, ih]

theorem mapIndex_mapAssign {K X : Type} [DecidableEq K] (m : List (K × X)) (k : K) (x : X)
    (k1 : K) : mapIndex (mapAssign m k x) k1 = if k = k1 then some x else mapIndex m k1 := by
  unfold mapAssign
  by_cases h : k = k1
  · simp [mapIndex, h]
  · have h2 : ¬ k1 = k := fun e => h e.symm
    simp [mapIndex, h, mapIndex_mapDelete, h2]

theorem mapDelete_keys_nodup {K X : Type} [DecidableEq K] (m : List (K × X)) (k : K)
    (h : (m.map Prod.fst).Nodup) : ((mapDelete m k).map Prod.fst).Nodup := by
  unfold mapDelete
  exact List.Nodup.sublist (List.Sublist.map _ (List.filter_sublist m)) h

theorem mapDelete_not_mem {K X : Type} [DecidableEq K] (m : List (K × X)) (k : K) :
    k ∉ (mapDelete m k).map Prod.fst := by
  unfold mapDelete
  intro h
  obtain ⟨p, hp, hk⟩ := List.mem_map.1 h
  have := (List.mem_filter.1 hp).2
  simp at this
  exact this hk

theorem mapAssign_keys_nodup {K X : Type} [DecidableEq K] (m : List (K × X)) (k : K) (x : X)
    (h : (m.map Prod.fst).Nodup) : ((mapAssign m k x).map Prod.fst).Nodup := by
  unfold mapAssign
  rw [List.map_cons, List.nodup_cons]
  exact ⟨mapDelete_not_mem m k, mapDelete_keys_nodup m k h⟩

/-! Lists -/


namespace lru

/-! The eviction store: well-formedness -/

theorem mem_entries {V W : Type} (c : Cache V W) (kv : entry V) :
    kv ∈ c.entries ↔ ∃ e ∈ c.ll, mapIndex c.nodes e = some kv := by
  simp [Cache.entries, List.mem_filterMap]

theorem WF_New {V W : Type} [Value V] (maxBytes : Int) (cb : Option (Callback V W)) (w : W) :
    (New maxBytes cb w).WF := by
  constructor <;> simp [New, Cache.liveBytes, Cache.entries, mapIndex, int64_zero]

theorem Cache.WF.elem_of_key {V W : Type} [Value V] {c : Cache V W} (h : c.WF) {e1 e2 : Nat} {kv1 kv2 : entry V}
    (h1 : e1 ∈ c.ll) (h2 : e2 ∈ c.ll) (n1 : mapIndex c.nodes e1 = some kv1)
    (n2 : mapIndex c.nodes e2 = some kv2) (hk : kv1.key = kv2.key) : e1 = e2 := by
  obtain ⟨a, ha, hia⟩ := h.node e1 h1
  obtain ⟨b, hb, hib⟩ := h.node e2 h2
  rw [n1] at ha; rw [n2] at hb
  cases ha; cases hb
  rw [hk, hib] at hia
  exact (Option.some.inj hia).symm

theorem Cache.WF.length_entries {V W : Type} [Value V] {c : Cache V W} (h : c.WF) : c.entries.length = c.ll.length := by
  unfold Cache.entries
  have : ∀ l : List Nat, (∀ e ∈ l, ∃ kv, mapIndex c.nodes e = some kv) →
      (l.filterMap (mapIndex c.nodes)).length = l.length := by
    intro l
    induction l with
    | nil => simp
    | cons a l ih =>
      intro hl
      obtain ⟨kv, hkv⟩ := hl a (List.mem_cons_self a l)
      rw [List.filterMap_cons, hkv]
      simp [ih (fun e he => hl e (List.mem_cons_of_mem a he))]
  exact this c.ll (fun e he => (h.node e he).imp (fun _ hh => hh.1))

/-- The state after `RemoveOldest` when the back element is `e` with payload `kv`. -/
theorem RemoveOldest_eq {V W : Type} [Value V] (c : Cache V W) (l1 : List Nat) (e : Nat) (kv : entry V)
    (hl : c.ll = l1 ++ [e]) (hn : mapIndex c.nodes e = some kv) :
    c.RemoveOldest =
      { c with
        ll := l1
        cache := mapDelete c.cache kv.key
        nbytes := int64 (c.nbytes - kv.size)
        world := match c.OnEvicted with
          | some f => f kv.key kv.value
              { maxBytes := c.maxBytes, nbytes := int64 (c.nbytes - kv.size), ll := l1,
                cache := mapDelete c.cache kv.key, nodes := c.nodes } c.world
          | none => c.world } := by
  have hsz : int64 (c.nbytes - int64 (int64 (len kv.key) + int64 (Value.Len kv.value))) =
      int64 (c.nbytes - kv.size) := by
    unfold entry.size int64; omega
  unfold Cache.RemoveOldest
  rw [hl, List.getLast?_concat]
  simp only [hn, List.dropLast_concat, hsz, Cache.snapshot]
  cases c.OnEvicted <;> rfl

theorem RemoveOldest_nil {V W : Type} [Value V] (c : Cache V W) (hl : c.ll = []) : c.RemoveOldest = c := by
  unfold Cache.RemoveOldest
  rw [hl]; rfl

theorem Cache.WF.entries_concat {V W : Type} [Value V] {c : Cache V W} (h : c.WF) {l1 : List Nat} {e : Nat}
    (hl : c.ll = l1 ++ [e]) :
    ∃ kv, mapIndex c.nodes e = some kv ∧
      c.entries = l1.filterMap (mapIndex c.nodes) ++ [kv] := by
  obtain ⟨kv, hkv, _⟩ := h.node e (by rw [hl]; simp)
  exact ⟨kv, hkv, by simp [Cache.entries, hl, List.filterMap_append, hkv]⟩

theorem WF_RemoveOldest {V W : Type} [Value V] {c : Cache V W} (h : c.WF) : c.RemoveOldest.WF := by
  rcases hlast : c.ll.getLast? with _ | e
  · rw [RemoveOldest_nil c (List.getLast?_eq_none_iff.1 hlast)]; exact h
  · obtain ⟨l1, hl⟩ := List.getLast?_eq_some_iff.1 hlast
    obtain ⟨kv, hkv, hent⟩ := h.entries_concat hl
    have hnd : (l1 ++ [e]).Nodup := hl ▸ h.nodup
    have he1 : e ∉ l1 := by
      intro hmem
      have := (List.nodup_append.1 hnd).2.2 hmem (List.mem_singleton_self e)
      exact this
    have hsub : ∀ x ∈ l1, x ∈ c.ll := fun x hx => by rw [hl]; exact List.mem_append_left _ hx
    have hmem : e ∈ c.ll := by rw [hl]; simp
    rw [RemoveOldest_eq c l1 e kv hl hkv]
    constructor
    · exact (List.nodup_append.1 hnd).1
    · intro x hx; exact h.fresh x (hsub x hx)
    · exact mapDelete_keys_nodup _ _ h.keys
    · intro x hx
      obtain ⟨kx, hkx, hix⟩ := h.node x (hsub x hx)
      refine ⟨kx, hkx, ?_⟩
      show mapIndex (mapDelete c.cache kv.key) kx.key = some x
      rw [mapIndex_mapDelete, if_neg]
      · exact hix
      · intro hk
        have := h.elem_of_key (hsub x hx) hmem hkx hkv hk
        exact he1 (this ▸ hx)
    · intro k x hx
      change mapIndex (mapDelete c.cache kv.key) k = some x at hx
      rw [mapIndex_mapDelete] at hx
      by_cases hk : k = kv.key
      · rw [if_pos hk] at hx; cases hx
      · rw [if_neg hk] at hx
        obtain ⟨hxm, kx, hkx, hkk⟩ := h.index k x hx
        refine ⟨?_, kx, hkx, hkk⟩
        show x ∈ l1
        rw [hl] at hxm
        rcases List.mem_append.1 hxm with h1 | h1
        · exact h1
        · exfalso
          have hxe : x = e := List.mem_singleton.1 h1
          rw [hxe, hkv] at hkx
          cases hkx
          exact hk hkk.symm
    · show int64 (c.nbytes - kv.size) =
        int64 (List.map entry.size (l1.filterMap (mapIndex c.nodes))).sum
      have := h.total
      unfold Cache.liveBytes at this
      rw [hent] at this
      simp only [List.map_append, List.sum_append, List.map_cons, List.map_nil, List.sum_cons,
        List.sum_nil, add_zero] at this
      rw [this, int64_int64_sub]
      congr 1; ring

theorem entries_RemoveOldest {V W : Type} [Value V] {c : Cache V W} (h : c.WF) :
    c.RemoveOldest.entries = c.entries.dropLast := by
  rcases hlast : c.ll.getLast? with _ | e
  · have hnil := List.getLast?_eq_none_iff.1 hlast
    rw [RemoveOldest_nil c hnil]
    simp [Cache.entries, hnil]
  · obtain ⟨l1, hl⟩ := List.getLast?_eq_some_iff.1 hlast
    obtain ⟨kv, hkv, hent⟩ := h.entries_concat hl
    rw [RemoveOldest_eq c l1 e kv hl hkv, hent]
    simp [Cache.entries]

theorem RemoveOldest_ll {V W : Type} [Value V] (c : Cache V W) : c.RemoveOldest.ll = c.ll.dropLast := by
  unfold Cache.RemoveOldest
  rcases hlast : c.ll.getLast? with _ | e
  · simp [List.getLast?_eq_none_iff.1 hlast]
  · simp only
    cases mapIndex c.nodes e with
    | none => rfl
    | some kv => simp only; cases c.OnEvicted <;> rfl

theorem RemoveOldest_maxBytes {V W : Type} [Value V] (c : Cache V W) : c.RemoveOldest.maxBytes = c.maxBytes := by
  unfold Cache.RemoveOldest
  rcases c.ll.getLast? with _ | e
  · rfl
  · simp only
    cases mapIndex c.nodes e with
    | none => rfl
    | some kv => simp only; cases c.OnEvicted <;> rfl

end lru

namespace lru

theorem filterMap_key_filter_id {V : Type} (f : Nat → Option (entry V)) (k : String) (ele : Nat)
    (l : List Nat) (hne : ele ∉ l)
    (hinj : ∀ e ∈ l, ∀ kv, f e = some kv → kv.key = k → e = ele) :
    (l.filterMap f).filter (fun x => decide (x.key ≠ k)) = l.filterMap f := by
  rw [List.filter_eq_self]
  intro x hx
  obtain ⟨e, he, hfe⟩ := List.mem_filterMap.1 hx
  have : x.key ≠ k := fun hk => hne (hinj e he x hfe hk ▸ he)
  simpa using this

theorem filterMap_erase_key {V : Type} (f : Nat → Option (entry V)) (ele : Nat) (kv : entry V)
    (hf : f ele = some kv) (l : List Nat) (hnd : l.Nodup) (hmem : ele ∈ l)
    (hinj : ∀ e ∈ l, ∀ kv1, f e = some kv1 → kv1.key = kv.key → e = ele) :
    (l.erase ele).filterMap f = (l.filterMap f).filter (fun x => decide (x.key ≠ kv.key)) := by
  induction l with
  | nil => simp at hmem
  | cons a l ih =>
    have hnd1 := List.nodup_cons.1 hnd
    by_cases ha : a = ele
    · subst ha
      rw [List.erase_cons_head, List.filterMap_cons, hf, List.filter_cons]
      simp only [ne_eq, not_true_eq_false, decide_False, Bool.false_eq_true, if_false]
      exact (filterMap_key_filter_id f kv.key a l hnd1.1
        (fun e he kv1 h1 h2 => hinj e (List.mem_cons_of_mem a he) kv1 h1 h2)).symm
    · have hmem1 : ele ∈ l := by
        rcases List.mem_cons.1 hmem with h | h
        · exact absurd h.symm ha
        · exact h
      have hbeq : ¬ (a == ele) = true := by simpa using ha
      rw [List.erase_cons_tail hbeq, List.filterMap_cons, List.filterMap_cons]
      have ih1 := ih hnd1.2 hmem1
        (fun e he kv1 h1 h2 => hinj e (List.mem_cons_of_mem a he) kv1 h1 h2)
      cases hfa : f a with
      | none => simpa using ih1
      | some x =>
        have hx : x.key ≠ kv.key := fun hk => ha (hinj a (List.mem_cons_self a l) x hfa hk)
        simp only [List.filter_cons, ne_eq, hx, not_false_eq_true, decide_True, if_true]
        rw [ih1]

theorem Get_miss {V W : Type} (c : Cache V W) (k : String) (h : mapIndex c.cache k = none) :
    c.Get k = (none, c) := by
  unfold Cache.Get; rw [h]

theorem Get_hit {V W : Type} (c : Cache V W) (k : String) (ele : Nat) (kv : entry V)
    (h : mapIndex c.cache k = some ele) (hn : mapIndex c.nodes ele = some kv) :
    c.Get k = (some kv.value, { c with ll := MoveToFront c.ll ele }) := by
  unfold Cache.Get; rw [h]; simp only [hn]

/-- Replacing the list by a permutation of itself keeps a store well formed. -/
theorem Cache.WF.of_perm {V W : Type} [Value V] {c : Cache V W} (h : c.WF) (l : List Nat)
    (hp : l.Perm c.ll) : Cache.WF { c with ll := l } := by
  constructor
  · exact (List.Perm.nodup_iff hp).2 h.nodup
  · intro e he; exact h.fresh e (hp.subset he)
  · exact h.keys
  · intro e he; exact h.node e (hp.subset he)
  · intro k e he
    obtain ⟨h1, h2⟩ := h.index k e he
    exact ⟨hp.symm.subset h1, h2⟩
  · show c.nbytes = int64 (List.map entry.size (l.filterMap (mapIndex c.nodes))).sum
    rw [h.total]
    exact congrArg int64 (List.Perm.sum_eq ((hp.filterMap _).map _)).symm

theorem MoveToFront_perm (l : List Nat) (e : Nat) : (MoveToFront l e).Perm l := by
  unfold MoveToFront
  split
  · rename_i h; exact (List.perm_cons_erase h).symm
  · exact List.Perm.refl l

theorem WF_Get {V W : Type} [Value V] {c : Cache V W} (h : c.WF) (k : String) :
    (c.Get k).2.WF := by
  cases hi : mapIndex c.cache k with
  | none => rw [Get_miss c k hi]; exact h
  | some ele =>
    obtain ⟨_, kv, hkv, _⟩ := h.index k ele hi
    rw [Get_hit c k ele kv hi hkv]
    exact h.of_perm _ (MoveToFront_perm c.ll ele)

/-- No live entry has a key that the index does not hold. -/
theorem Cache.WF.key_absent {V W : Type} [Value V] {c : Cache V W} (h : c.WF) (k : String)
    (hi : mapIndex c.cache k = none) : ∀ x ∈ c.entries, x.key ≠ k := by
  intro x hx hk
  obtain ⟨e, he, hfe⟩ := (mem_entries c x).1 hx
  obtain ⟨kv, hkv, hix⟩ := h.node e he
  rw [hfe] at hkv; cases hkv
  rw [hk, hi] at hix; cases hix

/-- The entries with the element of key `k` moved out: the other entries in their order. -/
theorem Cache.WF.entries_erase {V W : Type} [Value V] {c : Cache V W} (h : c.WF) (k : String)
    (ele : Nat) (hi : mapIndex c.cache k = some ele) :
    (c.ll.erase ele).filterMap (mapIndex c.nodes) =
      c.entries.filter (fun x => decide (x.key ≠ k)) := by
  obtain ⟨hmem, kv, hkv, hk⟩ := h.index k ele hi
  subst hk
  refine filterMap_erase_key _ ele kv hkv c.ll h.nodup hmem ?_
  intro e he kv1 h1 h2
  exact h.elem_of_key he hmem h1 hkv h2

theorem entries_Get_hit {V W : Type} [Value V] {c : Cache V W} (h : c.WF) (k : String)
    (ele : Nat) (hi : mapIndex c.cache k = some ele) :
    ∃ v, c.Get k = (some v, { c with ll := ele :: c.ll.erase ele }) ∧
      (c.Get k).2.entries =
        { key := k, value := v } :: c.entries.filter (fun x => decide (x.key ≠ k)) := by
  obtain ⟨hmem, kv, hkv, hk⟩ := h.index k ele hi
  have hg := Get_hit c k ele kv hi hkv
  have hm : MoveToFront c.ll ele = ele :: c.ll.erase ele := by
    unfold MoveToFront; rw [if_pos hmem]
  rw [hm] at hg
  refine ⟨kv.value, hg, ?_⟩
  rw [hg]
  show (ele :: c.ll.erase ele).filterMap (mapIndex c.nodes) = _
  rw [List.filterMap_cons, hkv]
  simp only
  rw [h.entries_erase k ele hi, ← hk]

theorem Cache.WF.keys_nodup {V W : Type} [Value V] {c : Cache V W} (h : c.WF) :
    (c.entries.map entry.key).Nodup := by
  unfold Cache.entries
  have : ∀ l : List Nat, l.Nodup → (∀ e ∈ l, e ∈ c.ll) →
      ((l.filterMap (mapIndex c.nodes)).map entry.key).Nodup := by
    intro l
    induction l with
    | nil => simp
    | cons a l ih =>
      intro hnd hsub
      have hnd1 := List.nodup_cons.1 hnd
      obtain ⟨kv, hkv, _⟩ := h.node a (hsub a (List.mem_cons_self a l))
      rw [List.filterMap_cons, hkv]
      simp only [List.map_cons, List.nodup_cons]
      refine ⟨?_, ih hnd1.2 (fun e he => hsub e (List.mem_cons_of_mem a he))⟩
      intro hmem
      obtain ⟨x, hx, hxk⟩ := List.mem_map.1 hmem
      obtain ⟨e, he, hfe⟩ := List.mem_filterMap.1 hx
      have := h.elem_of_key (hsub e (List.mem_cons_of_mem a he))
        (hsub a (List.mem_cons_self a l)) hfe hkv hxk
      exact hnd1.1 (this ▸ he)
  exact this c.ll h.nodup (fun e he => he)

/-- A hit of `Get` is exactly a live entry with that key and value. -/
theorem Get_eq_some_iff {V W : Type} [Value V] {c : Cache V W} (h : c.WF) (k : String) (v : V) :
    (c.Get k).1 = some v ↔ { key := k, value := v } ∈ c.entries := by
  cases hi : mapIndex c.cache k with
  | none =>
    rw [Get_miss c k hi]
    constructor
    · intro hh; cases hh
    · intro hh; exact absurd rfl (h.key_absent k hi _ hh)
  | some ele =>
    obtain ⟨hmem, kv, hkv, hk⟩ := h.index k ele hi
    rw [Get_hit c k ele kv hi hkv]
    constructor
    · intro hh
      have hv : kv.value = v := Option.some.inj hh
      refine (mem_entries c _).2 ⟨ele, hmem, ?_⟩
      rw [hkv, ← hk, ← hv]
    · intro hh
      obtain ⟨e, he, hfe⟩ := (mem_entries c _).1 hh
      have : e = ele := h.elem_of_key he hmem hfe hkv hk.symm
      subst this
      rw [hkv] at hfe
      cases hfe; rfl

/-- A miss of `Get` is exactly the absence of the key among the live entries. -/
theorem Get_eq_none_iff {V W : Type} [Value V] {c : Cache V W} (h : c.WF) (k : String) :
    (c.Get k).1 = none ↔ ∀ x ∈ c.entries, x.key ≠ k := by
  cases hi : mapIndex c.cache k with
  | none =>
    rw [Get_miss c k hi]
    exact ⟨fun _ => h.key_absent k hi, fun _ => rfl⟩
  | some ele =>
    obtain ⟨hmem, kv, hkv, hk⟩ := h.index k ele hi
    rw [Get_hit c k ele kv hi hkv]
    constructor
    · intro hh; cases hh
    · intro hh
      exact absurd hk (hh kv ((mem_entries c kv).2 ⟨ele, hmem, hkv⟩))

end lru

namespace lru

theorem filterMap_agree {A B : Type} (f g : A → Option B) (l : List A)
    (h : ∀ x ∈ l, f x = g x) : l.filterMap f = l.filterMap g := by
  induction l with
  | nil => rfl
  | cons a l ih =>
    rw [List.filterMap_cons, List.filterMap_cons, h a (List.mem_cons_self a l),
      ih (fun x hx => h x (List.mem_cons_of_mem a hx))]

theorem AddStep_new {V W : Type} [Value V] (c : Cache V W) (k : String) (v : V)
    (hi : mapIndex c.cache k = none) :
    c.AddStep k v =
      { c with
        ll := c.next :: c.ll
        nodes := mapAssign c.nodes c.next { key := k, value := v }
        next := c.next + 1
        cache := mapAssign c.cache k c.next
        nbytes := int64 (c.nbytes + (len k + Value.Len v)) } := by
  have hsz : int64 (c.nbytes + int64 (int64 (len k) + int64 (Value.Len v))) =
      int64 (c.nbytes + (len k + Value.Len v)) := by
    unfold int64; omega
  unfold Cache.AddStep; rw [hi]; simp only [hsz]

theorem AddStep_old {V W : Type} [Value V] (c : Cache V W) (k : String) (v : V) (ele : Nat)
    (kv : entry V) (hi : mapIndex c.cache k = some ele) (hn : mapIndex c.nodes ele = some kv) :
    c.AddStep k v =
      { c with
        ll := MoveToFront c.ll ele
        nbytes := int64 (c.nbytes + (Value.Len v - Value.Len kv.value))
        nodes := mapAssign c.nodes ele { kv with value := v } } := by
  have hsz : int64 (c.nbytes + int64 (int64 (Value.Len v) - int64 (Value.Len kv.value))) =
      int64 (c.nbytes + (Value.Len v - Value.Len kv.value)) := by
    unfold int64; omega
  unfold Cache.AddStep; rw [hi]; simp only [hn, hsz]

/-- After the insert-or-update step of `Add` the entry `(k, v)` is the most recently used
one and the other entries keep their values and their order. -/
theorem entries_AddStep {V W : Type} [Value V] {c : Cache V W} (h : c.WF) (k : String) (v : V) :
    (c.AddStep k v).entries =
      { key := k, value := v } :: c.entries.filter (fun x => decide (x.key ≠ k)) := by
  cases hi : mapIndex c.cache k with
  | none =>
    rw [AddStep_new c k v hi]
    show (c.next :: c.ll).filterMap (mapIndex (mapAssign c.nodes c.next { key := k, value := v }))
      = _
    rw [List.filterMap_cons, mapIndex_mapAssign, if_pos rfl]
    simp only
    have h1 : c.ll.filterMap (mapIndex (mapAssign c.nodes c.next { key := k, value := v })) =
        c.entries := by
      refine filterMap_agree _ _ _ (fun e he => ?_)
      rw [mapIndex_mapAssign, if_neg]
      exact fun hh => absurd (h.fresh e he) (by omega)
    have h2 : c.entries.filter (fun x => decide (x.key ≠ k)) = c.entries := by
      rw [List.filter_eq_self]
      intro x hx
      simpa using h.key_absent k hi x hx
    rw [h1, h2]
  | some ele =>
    obtain ⟨hmem, kv, hkv, hk⟩ := h.index k ele hi
    rw [AddStep_old c k v ele kv hi hkv]
    have hm : MoveToFront c.ll ele = ele :: c.ll.erase ele := by
      unfold MoveToFront; rw [if_pos hmem]
    show (MoveToFront c.ll ele).filterMap
      (mapIndex (mapAssign c.nodes ele { kv with value := v })) = _
    rw [hm, List.filterMap_cons, mapIndex_mapAssign, if_pos rfl]
    simp only
    have h1 : (c.ll.erase ele).filterMap
        (mapIndex (mapAssign c.nodes ele { kv with value := v })) =
        (c.ll.erase ele).filterMap (mapIndex c.nodes) := by
      refine filterMap_agree _ _ _ (fun e he => ?_)
      rw [mapIndex_mapAssign, if_neg]
      exact fun hh => ((List.Nodup.mem_erase_iff h.nodup).1 he).1 hh.symm
    rw [h1, h.entries_erase k ele hi, hk]

theorem sum_size_filter {V : Type} [Value V] (l : List (entry V)) (k : String) (kv : entry V)
    (hmem : kv ∈ l) (hk : kv.key = k) (hnd : (l.map entry.key).Nodup) :
    (l.map entry.size).sum =
      kv.size + ((l.filter (fun x => decide (x.key ≠ k))).map entry.size).sum := by
  induction l with
  | nil => simp at hmem
  | cons a l ih =>
    rw [List.map_cons, List.nodup_cons] at hnd
    by_cases ha : a = kv
    · subst ha
      have h2 : l.filter (fun x => decide (x.key ≠ k)) = l := by
        rw [List.filter_eq_self]
        intro x hx
        have : x.key ≠ k := fun hxk => hnd.1 (List.mem_map.2 ⟨x, hx, hxk.trans hk.symm⟩)
        simpa using this
      rw [List.filter_cons]
      simp only [ne_eq, hk, not_true_eq_false, decide_False, Bool.false_eq_true, if_false]
      simp only [ne_eq] at h2
      rw [h2]; simp
    · have hmem1 : kv ∈ l := by
        rcases List.mem_cons.1 hmem with h | h
        · exact absurd h.symm ha
        · exact h
      have hak : a.key ≠ k := by
        intro hh
        exact hnd.1 (List.mem_map.2 ⟨kv, hmem1, hk.trans hh.symm⟩)
      simp only [List.filter_cons, ne_eq, hak, not_false_eq_true, decide_True, if_true,
        List.map_cons, List.sum_cons]
      rw [ih hmem1 hnd.2]; ring

theorem WF_AddStep {V W : Type} [Value V] {c : Cache V W} (h : c.WF) (k : String) (v : V) :
    (c.AddStep k v).WF := by
  have hent := entries_AddStep h k v
  cases hi : mapIndex c.cache k with
  | none =>
    rw [AddStep_new c k v hi] at hent ⊢
    have hnext : ∀ e ∈ c.ll, ¬ c.next = e := fun e he hh => absurd (h.fresh e he) (by omega)
    constructor
    · exact List.nodup_cons.2 ⟨fun hm => hnext _ hm rfl, h.nodup⟩
    · intro e he
      show e < c.next + 1
      rcases List.mem_cons.1 he with h1 | h1
      · omega
      · have := h.fresh e h1; omega
    · exact mapAssign_keys_nodup _ _ _ h.keys
    · intro e he
      show ∃ kv, mapIndex (mapAssign c.nodes c.next { key := k, value := v }) e = some kv ∧
        mapIndex (mapAssign c.cache k c.next) kv.key = some e
      rcases List.mem_cons.1 he with h1 | h1
      · subst h1
        refine ⟨{ key := k, value := v }, ?_, ?_⟩
        · rw [mapIndex_mapAssign, if_pos rfl]
        · rw [mapIndex_mapAssign, if_pos rfl]
      · obtain ⟨kv, hkv, hix⟩ := h.node e h1
        refine ⟨kv, ?_, ?_⟩
        · rw [mapIndex_mapAssign, if_neg (hnext e h1)]; exact hkv
        · rw [mapIndex_mapAssign, if_neg]
          · exact hix
          · intro hh; rw [← hh, hi] at hix; cases hix
    · intro k1 e he
      change mapIndex (mapAssign c.cache k c.next) k1 = some e at he
      show e ∈ c.next :: c.ll ∧
        ∃ kv, mapIndex (mapAssign c.nodes c.next { key := k, value := v }) e = some kv ∧
          kv.key = k1
      rw [mapIndex_mapAssign] at he
      by_cases hk : k = k1
      · rw [if_pos hk] at he
        cases he
        refine ⟨List.mem_cons_self _ _, { key := k, value := v }, ?_, hk⟩
        rw [mapIndex_mapAssign, if_pos rfl]
      · rw [if_neg hk] at he
        obtain ⟨hm, kv, hkv, hkk⟩ := h.index k1 e he
        refine ⟨List.mem_cons_of_mem _ hm, kv, ?_, hkk⟩
        rw [mapIndex_mapAssign, if_neg (hnext e hm)]; exact hkv
    · unfold Cache.liveBytes
      rw [hent]
      have h2 : c.entries.filter (fun x => decide (x.key ≠ k)) = c.entries := by
        rw [List.filter_eq_self]
        intro x hx
        simpa using h.key_absent k hi x hx
      rw [h2]
      show int64 (c.nbytes + (len k + Value.Len v)) = _
      rw [h.total, int64_int64_add]
      congr 1
      simp [Cache.liveBytes, entry.size]
      ring
  | some ele =>
    obtain ⟨hmem, kv, hkv, hk⟩ := h.index k ele hi
    rw [AddStep_old c k v ele kv hi hkv] at hent ⊢
    have hp := MoveToFront_perm c.ll ele
    constructor
    · exact (List.Perm.nodup_iff hp).2 h.nodup
    · intro e he; exact h.fresh e (hp.subset he)
    · exact h.keys
    · intro e he
      show ∃ kv1, mapIndex (mapAssign c.nodes ele { kv with value := v }) e = some kv1 ∧
        mapIndex c.cache kv1.key = some e
      have he1 : e ∈ c.ll := hp.subset he
      by_cases hee : ele = e
      · subst hee
        refine ⟨{ kv with value := v }, ?_, ?_⟩
        · rw [mapIndex_mapAssign, if_pos rfl]
        · show mapIndex c.cache kv.key = some ele
          rw [hk]; exact hi
      · obtain ⟨kv1, hkv1, hix⟩ := h.node e he1
        exact ⟨kv1, by rw [mapIndex_mapAssign, if_neg hee]; exact hkv1, hix⟩
    · intro k1 e he
      change mapIndex c.cache k1 = some e at he
      show e ∈ MoveToFront c.ll ele ∧
        ∃ kv1, mapIndex (mapAssign c.nodes ele { kv with value := v }) e = some kv1 ∧
          kv1.key = k1
      obtain ⟨hm, kv1, hkv1, hkk⟩ := h.index k1 e he
      refine ⟨hp.symm.subset hm, ?_⟩
      by_cases hee : ele = e
      · subst hee
        rw [hkv] at hkv1; cases hkv1
        exact ⟨{ kv with value := v }, by rw [mapIndex_mapAssign, if_pos rfl], hkk⟩
      · exact ⟨kv1, by rw [mapIndex_mapAssign, if_neg hee]; exact hkv1, hkk⟩
    · unfold Cache.liveBytes
      rw [hent]
      show int64 (c.nbytes + (Value.Len v - Value.Len kv.value)) = _
      rw [h.total, int64_int64_add]
      congr 1
      unfold Cache.liveBytes
      rw [sum_size_filter c.entries k kv ((mem_entries c kv).2 ⟨ele, hmem, hkv⟩) hk h.keys_nodup]
      simp [entry.size, hk]
      ring

end lru

namespace lru

theorem over_iff {V W : Type} (c : Cache V W) :
    c.over = true ↔ c.maxBytes ≠ 0 ∧ c.maxBytes < c.nbytes := by
  simp [Cache.over]

theorem not_over_iff {V W : Type} (c : Cache V W) :
    c.over = false ↔ c.maxBytes = 0 ∨ c.nbytes ≤ c.maxBytes := by
  rw [← Bool.not_eq_true, over_iff]
  constructor
  · intro h
    by_cases h0 : c.maxBytes = 0
    · exact Or.inl h0
    · exact Or.inr (not_lt.1 (fun hlt => h ⟨h0, hlt⟩))
  · rintro (h | h) ⟨h1, h2⟩
    · exact h1 h
    · exact absurd h2 (not_lt.2 h)

theorem AddLoop_of_not_over {V W : Type} [Value V] (fuel : Nat) (c : Cache V W)
    (h : c.over = false) : Cache.AddLoop fuel c = some c := by
  cases fuel <;> simp [Cache.AddLoop, h]

/-- More fuel does not change a result of the loop. -/
theorem AddLoop_mono {V W : Type} [Value V] {fuel : Nat} {c c1 : Cache V W}
    (h : Cache.AddLoop fuel c = some c1) (fuel1 : Nat) (hle : fuel ≤ fuel1) :
    Cache.AddLoop fuel1 c = some c1 := by
  induction fuel generalizing c fuel1 with
  | zero =>
    cases ho : c.over with
    | true => simp [Cache.AddLoop, ho] at h
    | false =>
      rw [AddLoop_of_not_over 0 c ho] at h
      rw [AddLoop_of_not_over fuel1 c ho]; exact h
  | succ n ih =>
    cases ho : c.over with
    | false =>
      rw [AddLoop_of_not_over (n + 1) c ho] at h
      rw [AddLoop_of_not_over fuel1 c ho]; exact h
    | true =>
      obtain ⟨m, rfl⟩ : ∃ m, fuel1 = m + 1 := ⟨fuel1 - 1, by omega⟩
      simp only [Cache.AddLoop, ho, if_true] at h ⊢
      exact ih h m (by omega)

/-- What a result of the loop is: a well-formed store that is not over capacity and holds
the most recently used entries of the store the loop started from. -/
theorem AddLoop_spec {V W : Type} [Value V] {fuel : Nat} {c c1 : Cache V W} (hwf : c.WF)
    (h : Cache.AddLoop fuel c = some c1) :
    c1.WF ∧ c1.over = false ∧ c1.maxBytes = c.maxBytes ∧
      ∃ j, j ≤ c.entries.length ∧ c1.entries = c.entries.take j := by
  induction fuel generalizing c with
  | zero =>
    cases ho : c.over with
    | true => simp [Cache.AddLoop, ho] at h
    | false =>
      rw [AddLoop_of_not_over 0 c ho] at h
      cases h
      exact ⟨hwf, ho, rfl, _, le_refl _, (List.take_length _).symm⟩
  | succ n ih =>
    cases ho : c.over with
    | false =>
      rw [AddLoop_of_not_over (n + 1) c ho] at h
      cases h
      exact ⟨hwf, ho, rfl, _, le_refl _, (List.take_length _).symm⟩
    | true =>
      simp only [Cache.AddLoop, ho, if_true] at h
      obtain ⟨h1, h2, h3, j, hj, hjt⟩ := ih (WF_RemoveOldest hwf) h
      refine ⟨h1, h2, by rw [h3, RemoveOldest_maxBytes], min j (c.entries.length - 1), ?_, ?_⟩
      · exact le_trans (min_le_left _ _) (le_trans hj (by
          rw [entries_RemoveOldest hwf, List.length_dropLast]; omega))
      · rw [hjt, entries_RemoveOldest hwf, List.dropLast_eq_take, List.take_take]

/-- With a capacity that is not negative the loop of `Add` ends within as many rounds as
the list has elements. -/
theorem AddLoop_terminates {V W : Type} [Value V] {c : Cache V W} (hwf : c.WF)
    (hcap : 0 ≤ c.maxBytes) (fuel : Nat) (hf : c.ll.length ≤ fuel) :
    ∃ c1, Cache.AddLoop fuel c = some c1 := by
  induction fuel generalizing c with
  | zero =>
    have hnil : c.ll = [] := List.length_eq_zero.1 (by omega)
    have ho : c.over = false := by
      rw [not_over_iff]
      right
      rw [hwf.total]
      simp [Cache.liveBytes, Cache.entries, hnil, hcap, int64_zero]
    exact ⟨c, AddLoop_of_not_over 0 c ho⟩
  | succ n ih =>
    cases ho : c.over with
    | false => exact ⟨c, AddLoop_of_not_over (n + 1) c ho⟩
    | true =>
      simp only [Cache.AddLoop, ho, if_true]
      refine ih (WF_RemoveOldest hwf) (by rw [RemoveOldest_maxBytes]; exact hcap) ?_
      rw [RemoveOldest_ll, List.length_dropLast]
      omega

theorem AddStep_maxBytes {V W : Type} [Value V] (c : Cache V W) (k : String) (v : V) :
    (c.AddStep k v).maxBytes = c.maxBytes := by
  unfold Cache.AddStep
  cases mapIndex c.cache k with
  | none => rfl
  | some ele =>
    simp only
    cases mapIndex c.nodes ele <;> rfl

theorem AddStep_length_le {V W : Type} [Value V] {c : Cache V W} (h : c.WF) (k : String)
    (v : V) : (c.AddStep k v).ll.length ≤ c.ll.length + 1 := by
  rw [← (WF_AddStep h k v).length_entries, ← h.length_entries, entries_AddStep h k v,
    List.length_cons]
  exact Nat.succ_le_succ (List.length_filter_le _ _)

theorem Get_maxBytes {V W : Type} (c : Cache V W) (k : String) :
    (c.Get k).2.maxBytes = c.maxBytes := by
  unfold Cache.Get
  cases mapIndex c.cache k with
  | none => rfl
  | some ele =>
    simp only
    cases mapIndex c.nodes ele <;> rfl

theorem Get_length {V W : Type} (c : Cache V W) (k : String) :
    (c.Get k).2.ll.length = c.ll.length := by
  unfold Cache.Get
  cases mapIndex c.cache k with
  | none => rfl
  | some ele =>
    simp only
    have := (MoveToFront_perm c.ll ele).length_eq
    cases mapIndex c.nodes ele <;> exact this

/-- What `Add` returns, when the capacity is not negative and the fuel is at least the
number of entries plus one. -/
theorem Add_spec {V W : Type} [Value V] {c : Cache V W} (hwf : c.WF) (hcap : 0 ≤ c.maxBytes)
    (k : String) (v : V) (fuel : Nat) (hf : c.ll.length + 1 ≤ fuel) :
    ∃ c1, c.Add fuel k v = some c1 ∧ c1.WF ∧ c1.over = false ∧ c1.maxBytes = c.maxBytes ∧
      c1.ll.length ≤ c.ll.length + 1 := by
  have hwf1 := WF_AddStep hwf k v
  have hlen := AddStep_length_le hwf k v
  obtain ⟨c1, hc1⟩ := AddLoop_terminates hwf1 (by rw [AddStep_maxBytes]; exact hcap) fuel
    (le_trans hlen hf)
  obtain ⟨h1, h2, h3, j, hj, hjt⟩ := AddLoop_spec hwf1 hc1
  refine ⟨c1, hc1, h1, h2, by rw [h3, AddStep_maxBytes], ?_⟩
  rw [← h1.length_entries, hjt, List.length_take]
  rw [hwf1.length_entries] at hj
  omega

/-- The states reached from a well-formed store by a sequence of calls. -/
theorem run_spec {V W : Type} [Value V] (ops : List (Op V)) {c : Cache V W} (hwf : c.WF)
    (hcap : 0 ≤ c.maxBytes) (fuel : Nat) (hf : c.ll.length + ops.length ≤ fuel) :
    ∃ c1, Cache.run fuel c ops = some c1 ∧ c1.WF ∧ c1.maxBytes = c.maxBytes ∧
      c1.ll.length ≤ c.ll.length + ops.length := by
  induction ops generalizing c with
  | nil => exact ⟨c, rfl, hwf, rfl, by simp⟩
  | cons op ops ih =>
    rw [List.length_cons] at hf ⊢
    have key : ∃ c2, c.step fuel op = some c2 ∧ c2.WF ∧ c2.maxBytes = c.maxBytes ∧
        c2.ll.length ≤ c.ll.length + 1 := by
      cases op with
      | Add k v =>
        obtain ⟨c2, h1, h2, _, h4, h5⟩ := Add_spec hwf hcap k v fuel (by omega)
        exact ⟨c2, h1, h2, h4, h5⟩
      | Get k =>
        exact ⟨(c.Get k).2, rfl, WF_Get hwf k, Get_maxBytes c k, by rw [Get_length]; omega⟩
      | RemoveOldest =>
        refine ⟨c.RemoveOldest, rfl, WF_RemoveOldest hwf, RemoveOldest_maxBytes c, ?_⟩
        rw [RemoveOldest_ll, List.length_dropLast]; omega
    obtain ⟨c2, h1, h2, h3, h4⟩ := key
    obtain ⟨c3, g1, g2, g3, g4⟩ := ih h2 (by rw [h3]; exact hcap) (by omega)
    refine ⟨c3, ?_, g2, by rw [g3, h3], by omega⟩
    simp [Cache.run, h1, g1]

theorem run_append {V W : Type} [Value V] (fuel : Nat) (c : Cache V W) (ops1 ops2 : List (Op V)) :
    Cache.run fuel c (ops1 ++ ops2) =
      (Cache.run fuel c ops1).bind (fun c1 => Cache.run fuel c1 ops2) := by
  induction ops1 generalizing c with
  | nil => simp [Cache.run]
  | cons op ops1 ih =>
    simp only [List.cons_append, Cache.run]
    cases c.step fuel op with
    | none => rfl
    | some c1 => simp [ih]

end lru


namespace lru

theorem Add_WF {V W : Type} [Value V] {fuel : Nat} {c c1 : Cache V W} (hwf : c.WF) {k : String}
    {v : V} (h : c.Add fuel k v = some c1) : c1.WF :=
  (AddLoop_spec (WF_AddStep hwf k v) h).1

theorem step_WF {V W : Type} [Value V] {fuel : Nat} {c c1 : Cache V W} (hwf : c.WF) {op : Op V}
    (h : c.step fuel op = some c1) : c1.WF := by
  cases op with
  | Add k v => exact Add_WF hwf h
  | Get k =>
    simp only [Cache.step, Option.some.injEq] at h
    exact h ▸ WF_Get hwf k
  | RemoveOldest =>
    simp only [Cache.step, Option.some.injEq] at h
    exact h ▸ WF_RemoveOldest hwf

/-- Every store reached from a well-formed store is well formed. -/
theorem run_WF {V W : Type} [Value V] {fuel : Nat} (ops : List (Op V)) {c c1 : Cache V W}
    (hwf : c.WF) (h : Cache.run fuel c ops = some c1) : c1.WF := by
  induction ops generalizing c with
  | nil =>
    simp only [Cache.run, Option.some.injEq] at h
    exact h ▸ hwf
  | cons op ops ih =>
    simp only [Cache.run] at h
    cases hs : c.step fuel op with
    | none => rw [hs] at h; cases h
    | some c2 =>
      rw [hs] at h
      exact ih (step_WF hwf hs) h

/-- One round of the loop of `Add` is enough when the guard holds once and fails after one
`RemoveOldest`. -/
theorem AddLoop_one {V W : Type} [Value V] (fuel : Nat) (hfuel : 1 ≤ fuel) (c : Cache V W)
    (hover : c.over = true) (hfit : c.RemoveOldest.over = false) :
    Cache.AddLoop fuel c = some c.RemoveOldest := by
  obtain ⟨n, rfl⟩ : ∃ n, fuel = n + 1 := ⟨fuel - 1, by omega⟩
  simp only [Cache.AddLoop, hover, if_true]
  exact AddLoop_of_not_over n _ hfit

theorem recent_append {V : Type} (ps : List (String × V)) (p : String × V) :
    recent (ps ++ [p]) = { key := p.1, value := p.2 } :: recent ps := by
  simp [recent]

theorem mem_recent {V : Type} (ps : List (String × V)) (x : entry V) :
    x ∈ recent ps ↔ ∃ p ∈ ps, x = { key := p.1, value := p.2 } := by
  simp only [recent, List.mem_reverse, List.mem_map]
  constructor
  · rintro ⟨p, hp, rfl⟩; exact ⟨p, hp, rfl⟩
  · rintro ⟨p, hp, rfl⟩; exact ⟨p, hp, rfl⟩

theorem recent_take {V : Type} (ps : List (String × V)) (n : Nat) :
    (recent ps).take n = recent (ps.drop (ps.length - n)) := by
  unfold recent
  rw [List.take_reverse, List.length_map, List.map_drop]

theorem recent_dropLast {V : Type} (ps : List (String × V)) :
    (recent ps).dropLast = recent (ps.drop 1) := by
  rw [List.dropLast_eq_take, recent_take]
  have hl : (recent ps).length = ps.length := by simp [recent]
  rw [hl]
  rcases Nat.eq_zero_or_pos ps.length with h | h
  · rw [List.length_eq_zero.1 h]; rfl
  · have : ps.length - (ps.length - 1) = 1 := by omega
    rw [this]

/-- The live entries after adding pairs with distinct keys to a new store: a final segment
of the pairs, the last added first. -/
theorem run_adds_entries {V W : Type} [Value V] (C : Int) (cb : Option (Callback V W))
    (w : W) (fuel : Nat) (ps : List (String × V)) (hnd : (ps.map Prod.fst).Nodup)
    (c : Cache V W) (h : Cache.run fuel (New C cb w) (adds ps) = some c) :
    ∃ j, j ≤ ps.length ∧ c.entries = recent (ps.drop j) := by
  induction ps using List.reverseRecOn generalizing c with
  | nil =>
    simp only [adds, List.map_nil, Cache.run, Option.some.injEq] at h
    subst h
    exact ⟨0, le_refl _, rfl⟩
  | append_singleton ps p ih =>
    have hadds : adds (ps ++ [p]) = adds ps ++ [Op.Add p.1 p.2] := by simp [adds]
    rw [hadds, run_append] at h
    cases h0 : Cache.run fuel (New C cb w) (adds ps) with
    | none => rw [h0] at h; cases h
    | some c0 =>
      rw [h0] at h
      have hadd : c0.Add fuel p.1 p.2 = some c := by
        simp only [Option.bind_some, Cache.run, Cache.step] at h
        cases h1 : c0.Add fuel p.1 p.2 with
        | none => simp [h1] at h
        | some c2 => simpa [h1] using h
      rw [List.map_append, List.nodup_append] at hnd
      obtain ⟨j, hj, hent⟩ := ih hnd.1 c0 h0
      have hwf0 : c0.WF := run_WF _ (WF_New C cb w) h0
      have hstep := entries_AddStep hwf0 p.1 p.2
      have hfil : c0.entries.filter (fun x => decide (x.key ≠ p.1)) = c0.entries := by
        rw [List.filter_eq_self]
        intro x hx
        rw [hent] at hx
        obtain ⟨q, hq, rfl⟩ := (mem_recent _ x).1 hx
        have : q.1 ≠ p.1 := fun hqp =>
          hnd.2.2 (List.mem_map.2 ⟨q, List.mem_of_mem_drop hq, rfl⟩)
            (by simp [hqp])
        simpa using this
      rw [hfil, hent] at hstep
      obtain ⟨_, _, _, i, hi, hit⟩ := AddLoop_spec (WF_AddStep hwf0 p.1 p.2) hadd
      rw [hstep] at hit
      have hrw : ({ key := p.1, value := p.2 } : entry V) :: recent (ps.drop j) =
          recent ((ps ++ [p]).drop j) := by
        rw [List.drop_append_of_le_length hj, recent_append]
      rw [hrw, recent_take, List.drop_drop] at hit
      refine ⟨j + ((List.drop j (ps ++ [p])).length - i), ?_, hit⟩
      rw [List.length_drop, List.length_append, List.length_singleton]
      omega

end lru

namespace lru

/-- Every round of the loop of `Add` started over capacity: whenever the result holds fewer
than `i` of the entries, the total of the `i` most recently used entries, as an `int64`,
exceeds the capacity. -/
theorem AddLoop_evicted {V W : Type} [Value V] {fuel : Nat} {c c1 : Cache V W} (hwf : c.WF)
    (h : Cache.AddLoop fuel c = some c1) (i : Nat) (hlo : c1.entries.length < i)
    (hhi : i ≤ c.entries.length) :
    c.maxBytes ≠ 0 ∧ c.maxBytes < int64 ((c.entries.take i).map entry.size).sum := by
  induction fuel generalizing c with
  | zero =>
    cases ho : c.over with
    | true => simp [Cache.AddLoop, ho] at h
    | false =>
      rw [AddLoop_of_not_over 0 c ho] at h
      cases h; omega
  | succ n ih =>
    cases ho : c.over with
    | false =>
      rw [AddLoop_of_not_over (n + 1) c ho] at h
      cases h; omega
    | true =>
      simp only [Cache.AddLoop, ho, if_true] at h
      by_cases hi : i = c.entries.length
      · have := (over_iff c).1 ho
        rw [hwf.total] at this
        rw [hi, List.take_length]
        exact this
      · have hlt : i ≤ c.RemoveOldest.entries.length := by
          rw [entries_RemoveOldest hwf, List.length_dropLast]; omega
        have := ih (WF_RemoveOldest hwf) h hlt
        rw [RemoveOldest_maxBytes, entries_RemoveOldest hwf, List.dropLast_eq_take,
          List.take_take, min_eq_left (by omega)] at this
        exact this

/-- An entry that fits is still there after `Add`: the loop never evicts the entry that was
just inserted or updated. -/
theorem Add_keeps_new {V W : Type} [Value V] {fuel : Nat} {c c1 : Cache V W} (hwf : c.WF)
    {k : String} {v : V} (hfit : c.maxBytes = 0 ∨ len k + Value.Len v ≤ c.maxBytes)
    (h : c.Add fuel k v = some c1) :
    ∃ j, 1 ≤ j ∧ c1.entries = (({ key := k, value := v } : entry V) :: c.others k).take j := by
  have hwf1 := WF_AddStep hwf k v
  obtain ⟨_, _, _, j, hj, hjt⟩ := AddLoop_spec hwf1 h
  rw [entries_AddStep hwf k v] at hjt hj
  refine ⟨j, ?_, hjt⟩
  by_contra hcon
  have hj0 : j = 0 := by omega
  have hlen : c1.entries.length < 1 := by rw [hjt, hj0]; simp
  have := AddLoop_evicted hwf1 h 1 hlen (by rw [entries_AddStep hwf k v]; simp)
  rw [AddStep_maxBytes, entries_AddStep hwf k v] at this
  simp only [List.take_succ_cons, List.take_zero, List.map_cons, List.map_nil, List.sum_cons,
    List.sum_nil, add_zero, entry.size] at this
  rcases hfit with h0 | h0
  · exact this.1 h0
  · have h1 := (Value.Len_int v).1
    have h2 := (len_int k).1
    have h3 := @int64_le_self (len k + Value.Len v) (by omega)
    omega

end lru

namespace swift

theorem cache_get_none (c : cache) (key : String) (h : c.lru = none) :
    c.get key = (none, c) := by
  unfold cache.get; rw [h]

theorem cache_get_some (c : cache) (key : String) (l : lru.Cache ByteView Unit)
    (h : c.lru = some l) :
    c.get key = ((l.Get key).1, { c with lru := some (l.Get key).2 }) := by
  unfold cache.get; rw [h]
  simp only
  rcases hg : l.Get key with ⟨_ | v, l1⟩ <;> rfl

/-- A miss of the main cache leaves it unchanged. -/
theorem cache_get_miss {c : cache} (hwf : ∀ l, c.lru = some l → l.WF) {key : String}
    (h : (c.get key).1 = none) : c.get key = (none, c) := by
  cases hl : c.lru with
  | none => exact cache_get_none c key hl
  | some l =>
    rw [cache_get_some c key l hl] at h ⊢
    simp only at h
    cases hi : mapIndex l.cache key with
    | none =>
      rw [lru.Get_miss l key hi]
      cases c; simp_all
    | some ele =>
      obtain ⟨_, kv, hkv, _⟩ := (hwf l hl).index key ele hi
      rw [lru.Get_hit l key ele kv hi hkv] at h
      cases h

theorem cache_entries_some (c : cache) (l : lru.Cache ByteView Unit) (h : c.lru = some l) :
    c.entries = l.entries := by
  unfold cache.entries; rw [h]

/-- A hit of the main cache is a live entry with that key and value. -/
theorem cache_get_eq_some_iff {c : cache} (hwf : ∀ l, c.lru = some l → l.WF) (key : String)
    (v : ByteView) : (c.get key).1 = some v ↔ { key := key, value := v } ∈ c.entries := by
  cases hl : c.lru with
  | none => rw [cache_get_none c key hl]; simp [cache.entries, hl]
  | some l =>
    rw [cache_get_some c key l hl, cache_entries_some c l hl]
    exact lru.Get_eq_some_iff (hwf l hl) key v

end swift

namespace swift

theorem getLocal_error (fuel : Nat) (g : Group) (key : String) (e : error)
    (h : g.getter key = Except.error e) :
    g.getLocal fuel key =
      some ((ByteView.mk [], some e), { g with calls := g.calls ++ [Call.GetterGet key] }) := by
  unfold Group.getLocal
  simp only [h]

theorem getLocal_ok (fuel : Nat) (g : Group) (key : String) (bytes : List UInt8)
    (h : g.getter key = Except.ok bytes) :
    g.getLocal fuel key =
      (g.mainCache.add fuel key (ByteView.mk bytes)).map (fun mc =>
        ((ByteView.mk bytes, none),
          { g with calls := g.calls ++ [Call.GetterGet key], mainCache := mc })) := by
  unfold Group.getLocal
  simp only [h, Group.populateCache, cloneBytes, Option.map_map]
  rfl

/-- Without a value from a peer, `load` is `getLocal` after the calls of the peer step. -/
theorem load_of_peerFails (fuel : Nat) (g : Group) (key : String) (hidle : key ∉ g.loader.m)
    (hp : g.peerFails key) :
    g.load fuel key =
      Group.getLocal fuel { g with calls := g.calls ++ Call.Do key :: g.peerCalls key } key := by
  obtain ⟨name, getter, mainCache, peers, ⟨m⟩, calls⟩ := g
  simp only at hidle
  have herase : (key :: m).erase key = m := List.erase_cons_head key m
  cases peers with
  | none =>
    simp only [Group.load, singleflight.Group.Do, hidle, if_false, Group.loadFn,
      Group.peerCalls, Group.getLocal, herase]
    cases getter key with
    | error e => simp
    | ok bytes =>
      simp only [Group.populateCache]
      cases cache.add fuel mainCache key (ByteView.mk (cloneBytes bytes)) <;> simp
  | some picker =>
    cases hpk : picker key with
    | none =>
      simp only [Group.load, singleflight.Group.Do, hidle, if_false, Group.loadFn,
        Group.peerCalls, Group.getLocal, herase, hpk]
      cases getter key with
      | error e => simp
      | ok bytes =>
        simp only [Group.populateCache]
        cases cache.add fuel mainCache key (ByteView.mk (cloneBytes bytes)) <;> simp
    | some peer =>
      simp only [Group.peerFails, hpk] at hp
      obtain ⟨pe, hpe⟩ := hp
      simp only [Group.load, singleflight.Group.Do, hidle, if_false, Group.loadFn,
        Group.peerCalls, Group.getLocal, herase, hpk, Group.getFromPeer, hpe]
      cases getter key with
      | error e => simp
      | ok bytes =>
        simp only [Group.populateCache]
        cases cache.add fuel mainCache key (ByteView.mk (cloneBytes bytes)) <;> simp

/-- With a value from the picked peer, `load` returns it and calls nothing else. -/
theorem load_of_peer_ok (fuel : Nat) (g : Group) (key : String) (hidle : key ∉ g.loader.m)
    (picker : PeerPicker) (hp : g.peers = some picker) (peer : PeerGetter)
    (hpick : picker key = some peer) (b : List UInt8) (hfetch : peer g.name key = Except.ok b) :
    g.load fuel key =
      some ((ByteView.mk b, none),
        { g with calls := g.calls ++ [Call.Do key, Call.PickPeer key, Call.PeerGet g.name key] }) := by
  obtain ⟨name, getter, mainCache, peers, ⟨m⟩, calls⟩ := g
  simp only at hidle hp hfetch
  subst hp
  have herase : (key :: m).erase key = m := List.erase_cons_head key m
  simp [Group.load, singleflight.Group.Do, hidle, Group.loadFn, herase, hpick,
    Group.getFromPeer, hfetch]

theorem Group_Get_empty (fuel : Nat) (g : Group) :
    g.Get fuel "" = some ((ByteView.mk [], some "key is required"), g) := by
  unfold Group.Get; simp

theorem Group_Get_hit (fuel : Nat) (g : Group) (key : String) (hkey : key ≠ "") (v : ByteView)
    (h : (g.mainCache.get key).1 = some v) :
    g.Get fuel key = some ((v, none), { g with mainCache := (g.mainCache.get key).2 }) := by
  unfold Group.Get
  rw [if_neg hkey]
  rcases hg : g.mainCache.get key with ⟨_ | v1, mc⟩
  · rw [hg] at h; cases h
  · rw [hg] at h
    simp only at h ⊢
    cases h; rfl

theorem Group_Get_miss (fuel : Nat) (g : Group) (key : String) (hkey : key ≠ "")
    (h : g.mainCache.get key = (none, g.mainCache)) : g.Get fuel key = g.load fuel key := by
  unfold Group.Get
  rw [if_neg hkey, h]

end swift

namespace lru

theorem Get_entries_perm {V W : Type} (c : Cache V W) (k : String) :
    (c.Get k).2.entries.Perm c.entries := by
  unfold Cache.Get
  cases mapIndex c.cache k with
  | none => exact List.Perm.refl _
  | some ele =>
    simp only
    have := (MoveToFront_perm c.ll ele).filterMap (mapIndex c.nodes)
    cases mapIndex c.nodes ele <;> exact this

end lru

namespace swift

/-- The store that `add` works on: the one of the cache, or a new one. -/
theorem cache_add_eq (fuel : Nat) (c : cache) (key : String) (v : ByteView) :
    c.add fuel key v =
      ((c.lru.getD (lru.New c.cacheBytes none ())).Add fuel key v).map
        (fun l1 => { c with lru := some l1 }) := by
  unfold cache.add
  cases c.lru <;> rfl

theorem cache_store_WF {c : cache}
    (hwf : ∀ l, c.lru = some l → l.WF ∧ l.maxBytes = c.cacheBytes) :
    (c.lru.getD (lru.New c.cacheBytes none ())).WF ∧
      (c.lru.getD (lru.New c.cacheBytes none ())).maxBytes = c.cacheBytes ∧
      (c.lru.getD (lru.New c.cacheBytes none ())).entries = c.entries := by
  cases hl : c.lru with
  | none => exact ⟨lru.WF_New _ _ _, rfl, by simp [cache.entries, hl, lru.Cache.entries, lru.New]⟩
  | some l => exact ⟨(hwf l hl).1, (hwf l hl).2, by simp [cache.entries, hl]⟩

/-- What `add` returns: a well-formed store of the same capacity that holds the most
recently used entries of the list made of the new entry and the other old entries. -/
theorem cache_add_spec {fuel : Nat} {c mc : cache}
    (hwf : ∀ l, c.lru = some l → l.WF ∧ l.maxBytes = c.cacheBytes) {key : String}
    {v : ByteView} (h : c.add fuel key v = some mc) :
    (∀ l, mc.lru = some l → l.WF ∧ l.maxBytes = mc.cacheBytes) ∧
      mc.cacheBytes = c.cacheBytes ∧
      ∃ j, mc.entries =
        (({ key := key, value := v } : lru.entry ByteView) ::
          c.entries.filter (fun x => decide (x.key ≠ key))).take j ∧
        ((c.cacheBytes = 0 ∨ len key + v.Len ≤ c.cacheBytes) → 1 ≤ j) := by
  obtain ⟨hs1, hs2, hs3⟩ := cache_store_WF hwf
  rw [cache_add_eq] at h
  cases ha : (c.lru.getD (lru.New c.cacheBytes none ())).Add fuel key v with
  | none => rw [ha] at h; cases h
  | some l1 =>
    rw [ha] at h
    simp only [Option.map_some', Option.some.injEq] at h
    subst h
    have hwf1 := lru.WF_AddStep hs1 key v
    obtain ⟨g1, _, g3, j, hj, hjt⟩ := lru.AddLoop_spec hwf1 ha
    rw [lru.AddStep_maxBytes, hs2] at g3
    rw [lru.entries_AddStep hs1 key v, hs3] at hjt
    refine ⟨?_, rfl, ?_⟩
    · intro l hl
      simp only [Option.some.injEq] at hl
      subst hl
      exact ⟨g1, g3⟩
    · by_cases hfit : c.cacheBytes = 0 ∨ len key + v.Len ≤ c.cacheBytes
      · obtain ⟨j1, hj1, hj1t⟩ := lru.Add_keeps_new hs1 (by rw [hs2]; exact hfit) ha
        unfold lru.Cache.others at hj1t
        rw [hs3] at hj1t
        exact ⟨j1, by simp [cache.entries, hj1t], fun _ => hj1⟩
      · exact ⟨j, by simp [cache.entries, hjt], fun hh => absurd hh hfit⟩

/-- With a capacity that is not negative `add` returns, given fuel for one round more than
the cache has entries. -/
theorem cache_add_terminates {c : cache}
    (hwf : ∀ l, c.lru = some l → l.WF ∧ l.maxBytes = c.cacheBytes) (hcap : 0 ≤ c.cacheBytes)
    (key : String) (v : ByteView) (fuel : Nat) (hf : c.entries.length + 1 ≤ fuel) :
    ∃ mc, c.add fuel key v = some mc := by
  obtain ⟨hs1, hs2, hs3⟩ := cache_store_WF hwf
  rw [cache_add_eq]
  rw [← hs3, hs1.length_entries] at hf
  obtain ⟨l1, hl1, _⟩ := lru.Add_spec hs1 (by rw [hs2]; exact hcap) key v fuel hf
  exact ⟨_, by rw [hl1]; rfl⟩

theorem cache_get_entries_perm (c : cache) (key : String) :
    (c.get key).2.entries.Perm c.entries := by
  cases hl : c.lru with
  | none => rw [cache_get_none c key hl]
  | some l =>
    rw [cache_get_some c key l hl]
    simp only [cache.entries, hl]
    exact lru.Get_entries_perm l key

theorem cache_get_valid {c : cache}
    (hwf : ∀ l, c.lru = some l → l.WF ∧ l.maxBytes = c.cacheBytes) (key : String) :
    (∀ l, (c.get key).2.lru = some l → l.WF ∧ l.maxBytes = (c.get key).2.cacheBytes) ∧
      (c.get key).2.cacheBytes = c.cacheBytes := by
  cases hl : c.lru with
  | none =>
    rw [cache_get_none c key hl]
    exact ⟨fun l h => (by rw [hl] at h; cases h), rfl⟩
  | some l =>
    rw [cache_get_some c key l hl]
    refine ⟨?_, rfl⟩
    intro l1 h1
    simp only [Option.some.injEq] at h1
    subst h1
    exact ⟨lru.WF_Get (hwf l hl).1 key, by rw [lru.Get_maxBytes]; exact (hwf l hl).2⟩

end swift

namespace swift

theorem peerFails_of_none (g : Group) (key : String) (h : g.peers = none) :
    g.peerFails key ∧ g.peerCalls key = [] := by
  simp [Group.peerFails, Group.peerCalls, h]

/-- The cases of a `Get` that returns, in a group without a picker. -/
theorem Get_local_cases {fuel : Nat} {g g1 : Group} {key : String}
    {r : ByteView × Option error} (hv : g.Valid) (hp : g.peers = none)
    (h : g.Get fuel key = some (r, g1)) :
    (key = "" ∧ r = (ByteView.mk [], some "key is required") ∧ g1 = g) ∨
    (key ≠ "" ∧ ∃ v, (g.mainCache.get key).1 = some v ∧ r = (v, none) ∧
      g1 = { g with mainCache := (g.mainCache.get key).2 }) ∨
    (key ≠ "" ∧ (g.mainCache.get key).1 = none ∧ ∃ e, g.getter key = Except.error e ∧
      r = (ByteView.mk [], some e) ∧
      g1 = { g with calls := g.calls ++ [Call.Do key, Call.GetterGet key] }) ∨
    (key ≠ "" ∧ (g.mainCache.get key).1 = none ∧ ∃ bytes mc, g.getter key = Except.ok bytes ∧
      g.mainCache.add fuel key (ByteView.mk bytes) = some mc ∧ r = (ByteView.mk bytes, none) ∧
      g1 = { g with calls := g.calls ++ [Call.Do key, Call.GetterGet key], mainCache := mc }) := by
  by_cases hkey : key = ""
  · subst hkey
    rw [Group_Get_empty] at h
    simp only [Option.some.injEq, Prod.mk.injEq] at h
    exact Or.inl ⟨rfl, h.1.symm, h.2.symm⟩
  · right
    have hwf : ∀ l, g.mainCache.lru = some l → l.WF := fun l hl => (hv.wf l hl).1
    cases hg : (g.mainCache.get key).1 with
    | some v =>
      rw [Group_Get_hit fuel g key hkey v hg] at h
      simp only [Option.some.injEq, Prod.mk.injEq] at h
      exact Or.inl ⟨hkey, v, rfl, h.1.symm, h.2.symm⟩
    | none =>
      right
      have hmiss := cache_get_miss hwf hg
      have hidle : key ∉ g.loader.m := by rw [hv.idle]; simp
      obtain ⟨hpf, hpc⟩ := peerFails_of_none g key hp
      rw [Group_Get_miss fuel g key hkey hmiss, load_of_peerFails fuel g key hidle hpf, hpc] at h
      cases hget : g.getter key with
      | error e =>
        rw [getLocal_error fuel { g with calls := g.calls ++ [Call.Do key] } key e hget] at h
        simp only [Option.some.injEq, Prod.mk.injEq] at h
        refine Or.inl ⟨hkey, rfl, e, rfl, h.1.symm, ?_⟩
        rw [← h.2]; simp
      | ok bytes =>
        rw [getLocal_ok fuel { g with calls := g.calls ++ [Call.Do key] } key bytes hget] at h
        cases hadd : g.mainCache.add fuel key (ByteView.mk bytes) with
        | none => simp [hadd] at h
        | some mc =>
          simp only [hadd, Option.map_some', Option.some.injEq, Prod.mk.injEq] at h
          refine Or.inr ⟨hkey, rfl, bytes, mc, rfl, hadd, h.1.symm, ?_⟩
          rw [← h.2]; simp

/-- A `Get` that returns keeps a group without a picker valid, and keeps its loader,
its name and its capacity. -/
theorem Get_local_valid {fuel : Nat} {g g1 : Group} {key : String}
    {r : ByteView × Option error} (hv : g.Valid) (hp : g.peers = none)
    (h : g.Get fuel key = some (r, g1)) :
    g1.Valid ∧ g1.peers = none ∧ g1.getter = g.getter ∧
      g1.mainCache.cacheBytes = g.mainCache.cacheBytes := by
  rcases Get_local_cases hv hp h with ⟨_, _, rfl⟩ | ⟨_, v, hg, _, rfl⟩ | ⟨_, _, e, _, _, rfl⟩ |
      ⟨_, _, bytes, mc, _, hadd, _, rfl⟩
  · exact ⟨hv, hp, rfl, rfl⟩
  · obtain ⟨h1, h2⟩ := cache_get_valid hv.wf key
    exact ⟨⟨h1, hv.idle⟩, hp, rfl, h2⟩
  · exact ⟨⟨hv.wf, hv.idle⟩, hp, rfl, rfl⟩
  · obtain ⟨h1, h2, _⟩ := cache_add_spec hv.wf hadd
    exact ⟨⟨h1, hv.idle⟩, hp, rfl, h2⟩

theorem scores_valid : scores.Valid :=
  ⟨fun l h => by simp [scores] at h, rfl⟩

theorem scoresTiny_valid : scoresTiny.Valid :=
  ⟨fun l h => by simp [scoresTiny] at h, rfl⟩

theorem scoresPeered_valid : scoresPeered.Valid :=
  ⟨fun l h => by simp [scoresPeered, scores] at h, rfl⟩

theorem scoresTom_valid : scoresTom.Valid :=
  (@Get_local_valid 1 scores scoresTom "Tom" (ByteView.mk [54, 51, 48], none) scores_valid rfl
    (by rfl)).1

end swift

namespace swift

/-- Repeated `Get` calls for a cached key are all served from the cache and call nothing. -/
theorem Gets_hits (fuel : Nat) (key : String) (hkey : key ≠ "") (v : ByteView) (n : Nat)
    (g : Group) (hv : g.Valid) (hhit : (g.mainCache.get key).1 = some v) :
    ∃ g1, g.Gets fuel (List.replicate n key) = some (List.replicate n (v, none), g1) ∧
      g1.calls = g.calls := by
  induction n generalizing g with
  | zero => exact ⟨g, rfl, rfl⟩
  | succ n ih =>
    have hwf : ∀ l, g.mainCache.lru = some l → l.WF := fun l hl => (hv.wf l hl).1
    obtain ⟨h1, h2⟩ := cache_get_valid hv.wf key
    have hv1 : Group.Valid { g with mainCache := (g.mainCache.get key).2 } := ⟨h1, hv.idle⟩
    have hhit1 : ((g.mainCache.get key).2.get key).1 = some v := by
      rw [cache_get_eq_some_iff (fun l hl => (h1 l hl).1)]
      exact (cache_get_entries_perm g.mainCache key).symm.subset
        ((cache_get_eq_some_iff hwf key v).1 hhit)
    obtain ⟨g1, hg1, hc1⟩ := ih { g with mainCache := (g.mainCache.get key).2 } hv1 hhit1
    refine ⟨g1, ?_, hc1⟩
    simp only [List.replicate_succ, Group.Gets, Group_Get_hit fuel g key hkey v hhit,
      Option.some_bind, hg1, Option.map_some']

/-- With a capacity that is not negative, `Get` on a group without a picker returns, given
fuel for one round more than the cache has entries. -/
theorem Get_local_terminates {g : Group} (hv : g.Valid) (hp : g.peers = none)
    (hcap : 0 ≤ g.mainCache.cacheBytes) (key : String) (fuel : Nat)
    (hf : g.mainCache.entries.length + 1 ≤ fuel) : ∃ r g1, g.Get fuel key = some (r, g1) := by
  by_cases hkey : key = ""
  · subst hkey; exact ⟨_, _, Group_Get_empty fuel g⟩
  · have hwf : ∀ l, g.mainCache.lru = some l → l.WF := fun l hl => (hv.wf l hl).1
    cases hg : (g.mainCache.get key).1 with
    | some v => exact ⟨_, _, Group_Get_hit fuel g key hkey v hg⟩
    | none =>
      have hmiss := cache_get_miss hwf hg
      have hidle : key ∉ g.loader.m := by rw [hv.idle]; simp
      obtain ⟨hpf, hpc⟩ := peerFails_of_none g key hp
      rw [Group_Get_miss fuel g key hkey hmiss, load_of_peerFails fuel g key hidle hpf, hpc]
      cases hget : g.getter key with
      | error e =>
        rw [getLocal_error fuel { g with calls := g.calls ++ [Call.Do key] } key e hget]
        exact ⟨_, _, rfl⟩
      | ok bytes =>
        rw [getLocal_ok fuel { g with calls := g.calls ++ [Call.Do key] } key bytes hget]
        obtain ⟨mc, hmc⟩ := cache_add_terminates hv.wf hcap key (ByteView.mk bytes) fuel hf
        simp only [hmc, Option.map_some']
        exact ⟨_, _, rfl⟩

/-- One `Get` on a coherent group without a picker: a value returned without error is the
loader's value for the key, the group stays coherent and its cache grows by at most one
entry. -/
theorem Get_local_coherent {fuel : Nat} {g g1 : Group} {key : String}
    {r : ByteView × Option error} (hv : g.Valid) (hco : g.Coherent) (hp : g.peers = none)
    (h : g.Get fuel key = some (r, g1)) :
    g1.Coherent ∧ (r.2 = none → g.getter key = Except.ok r.1.ByteSlice) ∧
      g1.mainCache.entries.length ≤ g.mainCache.entries.length + 1 := by
  have hwf : ∀ l, g.mainCache.lru = some l → l.WF := fun l hl => (hv.wf l hl).1
  rcases Get_local_cases hv hp h with ⟨_, rfl, rfl⟩ | ⟨_, v, hg, rfl, rfl⟩ |
      ⟨_, _, e, _, rfl, rfl⟩ | ⟨_, _, bytes, mc, hget, hadd, rfl, rfl⟩
  · exact ⟨hco, fun h0 => (by cases h0), by omega⟩
  · refine ⟨?_, fun _ => ?_, ?_⟩
    · intro x hx
      exact hco x ((cache_get_entries_perm g.mainCache key).subset hx)
    · exact hco _ ((cache_get_eq_some_iff hwf key v).1 hg)
    · show (g.mainCache.get key).2.entries.length ≤ _
      rw [(cache_get_entries_perm g.mainCache key).length_eq]; omega
  · exact ⟨hco, fun h0 => (by cases h0), (by show g.mainCache.entries.length ≤ _; omega)⟩
  · obtain ⟨_, _, j, hj, _⟩ := cache_add_spec hv.wf hadd
    refine ⟨?_, fun _ => hget, ?_⟩
    · intro x hx
      change x ∈ mc.entries at hx
      rw [hj] at hx
      rcases List.mem_cons.1 (List.mem_of_mem_take hx) with h1 | h1
      · subst h1; exact hget
      · exact hco x (List.mem_filter.1 h1).1
    · show mc.entries.length ≤ _
      rw [hj, List.length_take]
      refine le_trans (min_le_right _ _) ?_
      rw [List.length_cons]
      exact Nat.succ_le_succ (List.length_filter_le _ _)

/-- A sequence of `Get` calls on a valid, coherent group without a picker: each value
returned without error is the loader's value for its key, and the final state is valid and
coherent. -/
theorem Gets_local_sound {fuel : Nat} (keys : List String) {g g1 : Group}
    {rs : List (ByteView × Option error)} (hv : g.Valid) (hco : g.Coherent)
    (hp : g.peers = none) (h : g.Gets fuel keys = some (rs, g1)) :
    rs.length = keys.length ∧
      (∀ p ∈ keys.zip rs, p.2.2 = none → g.getter p.1 = Except.ok p.2.1.ByteSlice) ∧
      g1.Valid ∧ g1.Coherent ∧ g1.peers = none ∧ g1.getter = g.getter := by
  induction keys generalizing g rs with
  | nil =>
    simp only [Group.Gets, Option.some.injEq, Prod.mk.injEq] at h
    obtain ⟨rfl, rfl⟩ := h
    exact ⟨rfl, by simp, hv, hco, hp, rfl⟩
  | cons key keys ih =>
    simp only [Group.Gets] at h
    cases hget : g.Get fuel key with
    | none => simp [hget] at h
    | some q =>
      obtain ⟨r, g2⟩ := q
      simp only [hget, Option.some_bind] at h
      cases hrest : g2.Gets fuel keys with
      | none => simp [hrest] at h
      | some q2 =>
        obtain ⟨rs2, g3⟩ := q2
        simp only [hrest, Option.map_some', Option.some.injEq, Prod.mk.injEq] at h
        obtain ⟨rfl, rfl⟩ := h
        obtain ⟨hv2, hp2, hgt2, _⟩ := Get_local_valid hv hp hget
        obtain ⟨hco2, hr, _⟩ := Get_local_coherent hv hco hp hget
        obtain ⟨i1, i2, i3, i4, i5, i6⟩ := ih hv2 hco2 hp2 hrest
        refine ⟨by simp [i1], ?_, i3, i4, i5, i6.trans hgt2⟩
        intro p hp0
        rw [List.zip_cons_cons] at hp0
        rcases List.mem_cons.1 hp0 with h1 | h1
        · subst h1; exact hr
        · intro hn
          rw [← hgt2]
          exact i2 p h1 hn

/-- With a capacity that is not negative a sequence of `Get` calls on a group without a
picker returns, given fuel for as many rounds as the cache has entries plus the number of
calls. -/
theorem Gets_local_terminates (keys : List String) {g : Group} (hv : g.Valid)
    (hco : g.Coherent) (hp : g.peers = none) (hcap : 0 ≤ g.mainCache.cacheBytes) (fuel : Nat)
    (hf : g.mainCache.entries.length + keys.length + 1 ≤ fuel) :
    ∃ rs g1, g.Gets fuel keys = some (rs, g1) := by
  induction keys generalizing g with
  | nil => exact ⟨[], g, rfl⟩
  | cons key keys ih =>
    rw [List.length_cons] at hf
    obtain ⟨r, g2, hget⟩ := Get_local_terminates hv hp hcap key fuel (by omega)
    obtain ⟨hv2, hp2, _, hcb⟩ := Get_local_valid hv hp hget
    obtain ⟨hco2, _, hlen⟩ := Get_local_coherent hv hco hp hget
    obtain ⟨rs, g3, hrest⟩ := ih hv2 hco2 hp2 (by rw [hcb]; exact hcap) (by omega)
    exact ⟨r :: rs, g3, by simp [Group.Gets, hget, hrest]⟩

theorem scores_coherent : scores.Coherent := by
  intro x hx
  simp [scores, cache.entries] at hx

end swift

namespace swift

/-- The group that `NewGroup` allocates: no store yet, no picker, nothing outstanding, no
call made. -/
theorem NewGroup_obj {p p1 : Process} {name : String} {cacheBytes : Int} {getter : Getter}
    {a : Nat} {g : Group} (hnew : NewGroup p name cacheBytes (some getter) = some (a, p1))
    (hg : mapIndex p1.objs a = some g) :
    g = { name := name, getter := getter,
          mainCache := { lru := none, cacheBytes := cacheBytes },
          peers := none, loader := { m := [] }, calls := [] } := by
  simp only [NewGroup, Option.some.injEq, Prod.mk.injEq] at hnew
  obtain ⟨rfl, rfl⟩ := hnew
  simp only at hg
  rw [mapIndex_mapAssign, if_pos rfl] at hg
  exact (Option.some.inj hg).symm

theorem len_nonneg (s : String) : 0 ≤ len s := by
  unfold len; exact Int.ofNat_nonneg _

theorem ByteView_Len_nonneg (v : ByteView) : 0 ≤ v.Len := by
  unfold ByteView.Len; exact Int.ofNat_nonneg _

end swift


namespace swift

/-- An entry that fits into the capacity is a hit right after `add`. -/
theorem cache_add_hit {fuel : Nat} {c mc : cache}
    (hwf : ∀ l, c.lru = some l → l.WF ∧ l.maxBytes = c.cacheBytes) {key : String}
    {v : ByteView} (hfit : c.cacheBytes = 0 ∨ len key + v.Len ≤ c.cacheBytes)
    (h : c.add fuel key v = some mc) : (mc.get key).1 = some v := by
  obtain ⟨h1, _, j, hj, hj1⟩ := cache_add_spec hwf h
  rw [cache_get_eq_some_iff (fun l hl => (h1 l hl).1), hj]
  have hpos := hj1 hfit
  rw [List.take_cons (by omega)]
  exact List.mem_cons_self _ _

end swift

namespace swift

/-- The two outcomes of the peer step of `load`: a value from the picked peer, or none. -/
theorem peer_step_cases (g : Group) (key : String) :
    (∃ picker peer b, g.peers = some picker ∧ picker key = some peer ∧
      peer g.name key = Except.ok b) ∨ g.peerFails key := by
  unfold Group.peerFails
  cases hp : g.peers with
  | none => exact Or.inr trivial
  | some picker =>
    cases hk : picker key with
    | none => right; simp only [hk]
    | some peer =>
      cases hf : peer g.name key with
      | error e => right; simp only [hk]; exact ⟨e, hf⟩
      | ok b => exact Or.inl ⟨picker, peer, b, rfl, hk, hf⟩

/-- Every `Get` that returns keeps a group valid, with or without a picker. -/
theorem Get_valid {fuel : Nat} {g g1 : Group} {key : String} {r : ByteView × Option error}
    (hv : g.Valid) (h : g.Get fuel key = some (r, g1)) : g1.Valid := by
  by_cases hkey : key = ""
  · subst hkey
    rw [Group_Get_empty] at h
    simp only [Option.some.injEq, Prod.mk.injEq] at h
    exact h.2 ▸ hv
  · have hwf : ∀ l, g.mainCache.lru = some l → l.WF := fun l hl => (hv.wf l hl).1
    cases hg : (g.mainCache.get key).1 with
    | some v =>
      rw [Group_Get_hit fuel g key hkey v hg] at h
      simp only [Option.some.injEq, Prod.mk.injEq] at h
      rw [← h.2]
      exact ⟨(cache_get_valid hv.wf key).1, hv.idle⟩
    | none =>
      have hmiss := cache_get_miss hwf hg
      have hidle : key ∉ g.loader.m := by rw [hv.idle]; simp
      rw [Group_Get_miss fuel g key hkey hmiss] at h
      rcases peer_step_cases g key with ⟨picker, peer, b, hp, hk, hf⟩ | hpf
      · rw [load_of_peer_ok fuel g key hidle picker hp peer hk b hf] at h
        simp only [Option.some.injEq, Prod.mk.injEq] at h
        rw [← h.2]
        exact ⟨hv.wf, hv.idle⟩
      · rw [load_of_peerFails fuel g key hidle hpf] at h
        cases hget : g.getter key with
        | error e =>
          rw [getLocal_error fuel
            { g with calls := g.calls ++ Call.Do key :: g.peerCalls key } key e hget] at h
          simp only [Option.some.injEq, Prod.mk.injEq] at h
          rw [← h.2]
          exact ⟨hv.wf, hv.idle⟩
        | ok bytes =>
          rw [getLocal_ok fuel
            { g with calls := g.calls ++ Call.Do key :: g.peerCalls key } key bytes hget] at h
          cases hadd : g.mainCache.add fuel key (ByteView.mk bytes) with
          | none => simp [hadd] at h
          | some mc =>
            simp only [hadd, Option.map_some', Option.some.injEq, Prod.mk.injEq] at h
            rw [← h.2]
            exact ⟨(cache_add_spec hv.wf hadd).1, hv.idle⟩

/-- A group is valid when `NewGroup` has made it. -/
theorem NewGroup_valid {p p1 : Process} {name : String} {cacheBytes : Int} {getter : Getter}
    {a : Nat} {g : Group} (hnew : NewGroup p name cacheBytes (some getter) = some (a, p1))
    (hg : mapIndex p1.objs a = some g) : g.Valid := by
  rw [NewGroup_obj hnew hg]
  exact ⟨fun l h => by simp at h, rfl⟩

/-- Registering a picker keeps a group valid. -/
theorem RegisterPeers_valid {g g1 : Group} {peers : Option PeerPicker} (hv : g.Valid)
    (h : g.RegisterPeers peers = Except.ok g1) : g1.Valid := by
  unfold Group.RegisterPeers at h
  cases hp : g.peers with
  | some _ => simp [hp] at h
  | none =>
    simp only [hp, Except.ok.injEq] at h
    rw [← h]
    exact ⟨hv.wf, hv.idle⟩

end swift

/-! Maps: keys -/

theorem mem_keys_iff_mapIndex {K X : Type} [DecidableEq K] (m : List (K × X)) (k : K) :
    k ∈ m.map Prod.fst ↔ ∃ x, mapIndex m k = some x := by
  induction m with
  | nil => simp [mapIndex]
  | cons p m ih =>
    obtain ⟨a, x⟩ := p
    by_cases h : a = k
    · subst h; simp [mapIndex]
    · have h1 : ¬ k = a := fun e => h e.symm
      simp [mapIndex, h, h1, ih]

namespace lru

/-- The keys of the index are the keys of the live entries. -/
theorem Cache.WF.mem_index_iff {V W : Type} [Value V] {c : Cache V W} (h : c.WF) (k : String) :
    k ∈ c.cache.map Prod.fst ↔ k ∈ c.entries.map entry.key := by
  rw [mem_keys_iff_mapIndex]
  constructor
  · rintro ⟨e, he⟩
    obtain ⟨hm, kv, hkv, hk⟩ := h.index k e he
    exact List.mem_map.2 ⟨kv, (mem_entries c kv).2 ⟨e, hm, hkv⟩, hk⟩
  · intro hk
    obtain ⟨kv, hkv, rfl⟩ := List.mem_map.1 hk
    obtain ⟨e, he, hn⟩ := (mem_entries c kv).1 hkv
    obtain ⟨kv1, h1, h2⟩ := h.node e he
    rw [hn] at h1; cases h1
    exact ⟨e, h2⟩

/-- The index has as many keys as the list has elements. -/
theorem Cache.WF.length_index {V W : Type} [Value V] {c : Cache V W} (h : c.WF) :
    c.cache.length = c.ll.length := by
  have hp : (c.cache.map Prod.fst).Perm (c.entries.map entry.key) :=
    (List.perm_ext_iff_of_nodup h.keys h.keys_nodup).2 (fun k => h.mem_index_iff k)
  have := hp.length_eq
  rw [List.length_map, List.length_map, h.length_entries] at this
  exact this

end lru

namespace lru

/-- Two well-formed stores with the same live entries for a key answer `Get` alike. -/
theorem Get_congr {V W : Type} [Value V] {c c1 : Cache V W} (h : c.WF) (h1 : c1.WF)
    (k : String)
    (hmem : ∀ x : V, ({ key := k, value := x } : entry V) ∈ c1.entries ↔
      ({ key := k, value := x } : entry V) ∈ c.entries) :
    (c1.Get k).1 = (c.Get k).1 := by
  cases hc : (c.Get k).1 with
  | some y =>
    exact (Get_eq_some_iff h1 k y).2 ((hmem y).2 ((Get_eq_some_iff h k y).1 hc))
  | none =>
    cases hc1 : (c1.Get k).1 with
    | none => rfl
    | some y =>
      have := (Get_eq_some_iff h k y).2 ((hmem y).1 ((Get_eq_some_iff h1 k y).1 hc1))
      rw [hc] at this; cases this

/-- A hit of `Get` names the element that the index holds for the key. -/
theorem Get_hit_elem {V W : Type} [Value V] {c : Cache V W} (h : c.WF) {k : String} {old : V}
    (hold : (c.Get k).1 = some old) :
    ∃ ele kv, mapIndex c.cache k = some ele ∧ ele ∈ c.ll ∧ mapIndex c.nodes ele = some kv ∧
      kv.key = k ∧ kv.value = old := by
  cases hi : mapIndex c.cache k with
  | none => rw [Get_miss c k hi] at hold; cases hold
  | some ele =>
    obtain ⟨hmem, kv, hkv, hk⟩ := h.index k ele hi
    rw [Get_hit c k ele kv hi hkv] at hold
    exact ⟨ele, kv, rfl, hmem, hkv, hk, Option.some.inj hold⟩

theorem mem_others {V W : Type} (c : Cache V W) (k : String) (x : entry V) :
    x ∈ c.others k ↔ x ∈ c.entries ∧ x.key ≠ k := by
  unfold Cache.others
  rw [List.mem_filter]
  simp

end lru

namespace lru

/-- What the loop of `Add` does: it calls `RemoveOldest` `n` times, where `n` is the first
number of calls after which the guard fails; `n` is at most the fuel. -/
theorem AddLoop_iterate {V W : Type} [Value V] {fuel : Nat} {c c1 : Cache V W}
    (h : Cache.AddLoop fuel c = some c1) :
    ∃ n, n ≤ fuel ∧ c1 = Nat.iterate Cache.RemoveOldest n c ∧
      (∀ m, m < n → (Nat.iterate Cache.RemoveOldest m c).over = true) ∧ c1.over = false := by
  induction fuel generalizing c with
  | zero =>
    cases ho : c.over with
    | true => simp [Cache.AddLoop, ho] at h
    | false =>
      rw [AddLoop_of_not_over 0 c ho] at h
      cases h
      exact ⟨0, le_refl _, rfl, fun m hm => absurd hm (Nat.not_lt_zero m), ho⟩
  | succ n ih =>
    cases ho : c.over with
    | false =>
      rw [AddLoop_of_not_over (n + 1) c ho] at h
      cases h
      exact ⟨0, Nat.zero_le _, rfl, fun m hm => absurd hm (Nat.not_lt_zero m), ho⟩
    | true =>
      simp only [Cache.AddLoop, ho, if_true] at h
      obtain ⟨n1, hn1, hc1, hov, hend⟩ := ih h
      refine ⟨n1 + 1, by omega, ?_, ?_, hend⟩
      · rw [Function.iterate_succ_apply]; exact hc1
      · intro m hm
        cases m with
        | zero => exact ho
        | succ m1 =>
          rw [Function.iterate_succ_apply]
          exact hov m1 (by omega)

theorem entry_size_nonneg {V : Type} [Value V] (x : entry V) (h : 0 ≤ Value.Len x.value) :
    0 ≤ x.size := by
  unfold entry.size
  have := (len_int x.key).1
  omega

/-- Among entries whose values have lengths that are not negative, the total of a sublist
is not negative and at most the total of the list. -/
theorem sum_size_sublist {V : Type} [Value V] {l1 l2 : List (entry V)} (hs : l1.Sublist l2)
    (hpos : ∀ x ∈ l2, 0 ≤ Value.Len x.value) :
    0 ≤ (l1.map entry.size).sum ∧ (l1.map entry.size).sum ≤ (l2.map entry.size).sum := by
  constructor
  · refine List.sum_nonneg ?_
    intro y hy
    obtain ⟨x, hx, rfl⟩ := List.mem_map.1 hy
    exact entry_size_nonneg x (hpos x (hs.subset hx))
  · refine List.Sublist.sum_le_sum (hs.map _) ?_
    intro y hy
    obtain ⟨x, hx, rfl⟩ := List.mem_map.1 hy
    exact entry_size_nonneg x (hpos x hx)

/-- Without overflow the running total is the sum of the sizes of the live entries: when the
values have lengths that are not negative and the sum is at most `math.MaxInt64`. -/
theorem Cache.WF.nbytes_exact {V W : Type} [Value V] {c : Cache V W} (h : c.WF)
    (hpos : ∀ x ∈ c.entries, 0 ≤ Value.Len x.value)
    (hsum : c.liveBytes ≤ 9223372036854775807) : c.nbytes = c.liveBytes ∧ 0 ≤ c.liveBytes := by
  have h0 : 0 ≤ c.liveBytes := (sum_size_sublist (List.Sublist.refl c.entries) hpos).1
  exact ⟨by rw [h.total]; exact int64_of_range (by omega) hsum, h0⟩

/-- With a negative capacity, entries of sizes that are not negative and a sum of sizes of at
most `math.MaxInt64`, the loop of `Add` does not end, whatever the fuel. -/
theorem AddLoop_diverges {V W : Type} [Value V] {c : Cache V W} (hwf : c.WF)
    (hcap : c.maxBytes < 0) (hpos : ∀ x ∈ c.entries, 0 ≤ Value.Len x.value)
    (hsum : c.liveBytes ≤ 9223372036854775807) (fuel : Nat) :
    Cache.AddLoop fuel c = none := by
  induction fuel generalizing c with
  | zero =>
    have ho : c.over = true := by
      obtain ⟨h1, h2⟩ := hwf.nbytes_exact hpos hsum
      rw [over_iff, h1]
      exact ⟨by omega, by omega⟩
    simp [Cache.AddLoop, ho]
  | succ n ih =>
    have ho : c.over = true := by
      obtain ⟨h1, h2⟩ := hwf.nbytes_exact hpos hsum
      rw [over_iff, h1]
      exact ⟨by omega, by omega⟩
    simp only [Cache.AddLoop, ho, if_true]
    refine ih (WF_RemoveOldest hwf) (by rw [RemoveOldest_maxBytes]; exact hcap) ?_ ?_
    · intro x hx
      rw [entries_RemoveOldest hwf] at hx
      exact hpos x (List.dropLast_subset _ hx)
    · unfold Cache.liveBytes
      rw [entries_RemoveOldest hwf]
      exact le_trans (sum_size_sublist (List.dropLast_sublist _) hpos).2 hsum

/-- A store without live entries has an empty list, an empty index and the total 0. -/
theorem Cache.WF.empty_of_entries {V W : Type} [Value V] {c : Cache V W} (h : c.WF)
    (he : c.entries = []) : c.ll = [] ∧ c.cache = [] ∧ c.nbytes = 0 := by
  have h1 : c.ll.length = 0 := by rw [← h.length_entries, he]; rfl
  have h2 : c.cache.length = 0 := by rw [h.length_index, h1]
  refine ⟨List.length_eq_zero.1 h1, List.length_eq_zero.1 h2, ?_⟩
  rw [h.total]
  simp [Cache.liveBytes, he, int64_zero]

/-- The entries that `Add(k, v)` leaves are a prefix of `(k, v)` followed by the other
entries; with lengths that are not negative, their total is not negative and at most the
total before the call plus the size of `(k, v)`. -/
theorem Add_liveBytes_le {V W : Type} [Value V] {fuel : Nat} {c c1 : Cache V W} (hwf : c.WF)
    (hpos : ∀ x ∈ c.entries, 0 ≤ Value.Len x.value) {k : String} {v : V}
    (hv : 0 ≤ Value.Len v) (h : c.Add fuel k v = some c1) :
    0 ≤ c1.liveBytes ∧ c1.liveBytes ≤ c.liveBytes + (len k + Value.Len v) ∧
      ∀ x ∈ c1.entries, 0 ≤ Value.Len x.value := by
  have hwf1 := WF_AddStep hwf k v
  obtain ⟨_, _, _, j, _, hjt⟩ := AddLoop_spec hwf1 h
  rw [entries_AddStep hwf k v] at hjt
  have hsub : c1.entries.Sublist
      (({ key := k, value := v } : entry V) :: c.entries) := by
    rw [hjt]
    exact (List.take_sublist _ _).trans ((List.filter_sublist _).cons₂ _)
  have hpos1 : ∀ x ∈ ({ key := k, value := v } : entry V) :: c.entries,
      0 ≤ Value.Len x.value := by
    intro x hx
    rcases List.mem_cons.1 hx with h1 | h1
    · rw [h1]; exact hv
    · exact hpos x h1
  obtain ⟨h1, h2⟩ := sum_size_sublist hsub hpos1
  rw [List.map_cons, List.sum_cons] at h2
  have hsz : ({ key := k, value := v } : entry V).size = len k + Value.Len v := rfl
  refine ⟨h1, ?_, fun x hx => hpos1 x (hsub.subset hx)⟩
  unfold Cache.liveBytes
  omega

/-- Without overflow the total after `Add` is the sum of the sizes of the live entries. -/
theorem Add_exact {V W : Type} [Value V] {fuel : Nat} {c c1 : Cache V W} (hwf : c.WF)
    (hpos : ∀ x ∈ c.entries, 0 ≤ Value.Len x.value) {k : String} {v : V}
    (hv : 0 ≤ Value.Len v) (hsum : c.liveBytes + (len k + Value.Len v) ≤ 9223372036854775807)
    (h : c.Add fuel k v = some c1) : c1.nbytes = c1.liveBytes := by
  obtain ⟨h1, h2, h3⟩ := Add_liveBytes_le hwf hpos hv h
  have hwf1 : c1.WF := (AddLoop_spec (WF_AddStep hwf k v) h).1
  exact (hwf1.nbytes_exact h3 (by omega)).1

/-- An entry larger than a positive capacity leaves nothing in a store whose values have
lengths that are not negative, when the sum of the sizes of the live entries and of the new
entry is at most `math.MaxInt64`. -/
theorem Add_oversized {V W : Type} [Value V] {fuel : Nat} {c c1 : Cache V W} (hwf : c.WF)
    (hcap : 0 < c.maxBytes) (hpos : ∀ x ∈ c.entries, 0 ≤ Value.Len x.value) {k : String}
    {v : V} (hsum : c.liveBytes + (len k + Value.Len v) ≤ 9223372036854775807)
    (hbig : c.maxBytes < len k + Value.Len v) (h : c.Add fuel k v = some c1) :
    c1.WF ∧ c1.entries = [] := by
  have hwf1 := WF_AddStep hwf k v
  obtain ⟨hw, hno, hmax, j, _, hjt⟩ := AddLoop_spec hwf1 h
  rw [entries_AddStep hwf k v] at hjt
  rw [AddStep_maxBytes] at hmax
  refine ⟨hw, ?_⟩
  cases j with
  | zero => rw [hjt]; rfl
  | succ j1 =>
    exfalso
    rw [List.take_succ_cons] at hjt
    have htot := hw.total
    unfold Cache.liveBytes at htot
    rw [hjt, List.map_cons, List.sum_cons] at htot
    have hsl : (List.take j1 (List.filter (fun x => decide (x.key ≠ k)) c.entries)).Sublist
        c.entries := (List.take_sublist j1 _).trans (List.filter_sublist _)
    obtain ⟨hrest, hrest2⟩ := sum_size_sublist hsl hpos
    have hsz : ({ key := k, value := v } : entry V).size = len k + Value.Len v := rfl
    have hlive : c.liveBytes = (c.entries.map entry.size).sum := rfl
    rw [int64_of_range (by omega) (by omega)] at htot
    rcases (not_over_iff c1).1 hno with h0 | h0
    · rw [hmax] at h0; omega
    · rw [hmax] at h0; omega

end lru

namespace lru

/-- The entries after a `Get` are entries of the store before it. -/
theorem mem_entries_Get {V W : Type} [Value V] {c : Cache V W} (h : c.WF) (k : String)
    (x : entry V) (hx : x ∈ (c.Get k).2.entries) : x ∈ c.entries := by
  cases hi : mapIndex c.cache k with
  | none => rw [Get_miss c k hi] at hx; exact hx
  | some ele =>
    obtain ⟨v0, hg, he⟩ := entries_Get_hit h k ele hi
    rw [he] at hx
    rcases List.mem_cons.1 hx with h1 | h1
    · rw [h1]
      exact (Get_eq_some_iff h k v0).1 (by rw [hg])
    · exact (List.mem_filter.1 h1).1

/-- The entries after `Add(k, v)` are `(k, v)` or entries of the store before it. -/
theorem mem_entries_Add {V W : Type} [Value V] {fuel : Nat} {c c1 : Cache V W} (h : c.WF)
    {k : String} {v : V} (ha : c.Add fuel k v = some c1) (x : entry V) (hx : x ∈ c1.entries) :
    x = { key := k, value := v } ∨ x ∈ c.entries := by
  obtain ⟨_, _, _, j, _, hjt⟩ := AddLoop_spec (WF_AddStep h k v) ha
  rw [hjt, entries_AddStep h k v] at hx
  rcases List.mem_cons.1 (List.mem_of_mem_take hx) with h1 | h1
  · exact Or.inl h1
  · exact Or.inr (List.mem_filter.1 h1).1

/-- A property of values that holds for the values of the live entries and for every added
value holds for the values of the live entries of every store reached. -/
theorem run_entries_forall {V W : Type} [Value V] (Q : V → Prop) {fuel : Nat}
    (ops : List (Op V)) {c c1 : Cache V W} (hwf : c.WF) (h0 : ∀ x ∈ c.entries, Q x.value)
    (hops : ∀ k v, Op.Add k v ∈ ops → Q v) (h : Cache.run fuel c ops = some c1) :
    ∀ x ∈ c1.entries, Q x.value := by
  induction ops generalizing c with
  | nil =>
    simp only [Cache.run, Option.some.injEq] at h
    exact h ▸ h0
  | cons op ops ih =>
    simp only [Cache.run] at h
    cases hs : c.step fuel op with
    | none => rw [hs] at h; cases h
    | some c2 =>
      rw [hs] at h
      refine ih (step_WF hwf hs) ?_ (fun k v hm => hops k v (List.mem_cons_of_mem _ hm)) h
      intro x hx
      cases op with
      | Add k v =>
        rcases mem_entries_Add hwf hs x hx with h1 | h1
        · rw [h1]; exact hops k v (List.mem_cons_self _ _)
        · exact h0 x h1
      | Get k =>
        simp only [Cache.step, Option.some.injEq] at hs
        rw [← hs] at hx
        exact h0 x (mem_entries_Get hwf k x hx)
      | RemoveOldest =>
        simp only [Cache.step, Option.some.injEq] at hs
        rw [← hs, entries_RemoveOldest hwf] at hx
        exact h0 x (List.dropLast_subset _ hx)

end lru

/-- Counterexample to C1 as stated: on the store of capacity 10, after `Add("a", x)` with
`x.Len() = 5`, the call `Add("b", y)` with `y.Len() = math.MaxInt64` returns; both values
have `Len() ≥ 0`, the running total has wrapped around to `-9223372036854775802`, nothing
is evicted, and the sum of `len(key) + value.Len()` over the two live entries is
`9223372036854775814`, more than the capacity. -/
theorem C1_counterexample :
    ∃ c : lru.Cache lru.Num Unit,
      lru.Cache.run 0 (lru.New 10 none ())
        ([lru.Op.Add "a" { n := 5 }] ++ [lru.Op.Add "b" { n := MaxInt64 }]) = some c ∧
      0 ≤ lru.Value.Len ({ n := 5 } : lru.Num) ∧
      0 ≤ lru.Value.Len ({ n := MaxInt64 } : lru.Num) ∧
      c.nbytes = -9223372036854775802 ∧
      c.Len = 2 ∧
      c.liveBytes = 9223372036854775814 ∧
      ¬ c.liveBytes ≤ 10 :=
  ⟨_, by rfl, by decide, by decide, by decide, by decide, by decide, by decide⟩

/-- Claim C1, amended: for every capacity `C > 0`, callback and sequence of `Add`, `Get` and
`RemoveOldest` calls on the store made by `New C`, with values of `Len() ≥ 0`, the calls
and a further `Add` return (with fuel at least the number of calls) and leave the running
total `nbytes` at most `C`; and the sum of `len(key) + value.Len()` over the live entries is
at most `C` as well, provided that this sum over the entries that are live before the `Add`,
plus the size of the added entry, is at most `math.MaxInt64`, so that the `int64` total does
not wrap around. -/
theorem C1_total_le_capacity_after_Add {V W : Type} [lru.Value V] (C : Int) (hC : 0 < C)
    (cb : Option (lru.Callback V W)) (w : W) (ops : List (lru.Op V)) (k : String) (v : V)
    (hpos : ∀ k1 v1, lru.Op.Add k1 v1 ∈ ops → 0 ≤ lru.Value.Len v1)
    (hv : 0 ≤ lru.Value.Len v) (fuel : Nat) (hfuel : ops.length + 1 ≤ fuel) :
    ∃ c0 c, lru.Cache.run fuel (lru.New C cb w) ops = some c0 ∧
      c0.Add fuel k v = some c ∧
      lru.Cache.run fuel (lru.New C cb w) (ops ++ [lru.Op.Add k v]) = some c ∧
      c.nbytes ≤ C ∧
      (c0.liveBytes + (len k + lru.Value.Len v) ≤ MaxInt64 → c.liveBytes ≤ C) := by
  have hwf0 : (lru.New C cb w).WF := lru.WF_New C cb w
  have hcap0 : 0 ≤ (lru.New C cb w).maxBytes := le_of_lt hC
  obtain ⟨c1, h1, h2, h3, h4⟩ := lru.run_spec ops hwf0 hcap0 fuel (by
    show 0 + ops.length ≤ fuel
    omega)
  have h4a : c1.ll.length ≤ ops.length := by
    have : (lru.New C cb w).ll.length = 0 := rfl
    omega
  obtain ⟨c2, g1, g2, g3, g4, _⟩ := lru.Add_spec h2 (by rw [h3]; exact hcap0) k v fuel
    (by omega)
  have hmax : c2.maxBytes = C := by rw [g4, h3]; rfl
  have hle : c2.nbytes ≤ C := by
    rcases (lru.not_over_iff c2).1 g3 with h0 | h0
    · rw [hmax] at h0; omega
    · rw [hmax] at h0; exact h0
  have hpos1 : ∀ x ∈ c1.entries, 0 ≤ lru.Value.Len x.value :=
    lru.run_entries_forall (fun v1 => 0 ≤ lru.Value.Len v1) ops hwf0
      (fun x hx => by cases hx) hpos h1
  refine ⟨c1, c2, h1, g1, ?_, hle, fun hsum => ?_⟩
  · rw [lru.run_append, h1]
    simp [lru.Cache.run, lru.Cache.step, g1]
  · rw [← lru.Add_exact h2 hpos1 hv hsum g1]
    exact hle

/-- Witness of C1: capacity 8, the calls `Add(k1, v1)`, `Add(k2, v2)`, then `Add(k3, v3)`. -/
theorem C1_witness :
    ∃ (c0 c : lru.Cache swift.ByteView Unit),
      lru.Cache.run 3 (lru.New 8 none ())
        [lru.Op.Add "k1" swift.v1, lru.Op.Add "k2" swift.v2] = some c0 ∧
      c0.Add 3 "k3" swift.v3 = some c ∧
      lru.Cache.run 3 (lru.New 8 none ())
        ([lru.Op.Add "k1" swift.v1, lru.Op.Add "k2" swift.v2] ++ [lru.Op.Add "k3" swift.v3]) =
          some c ∧
      c.nbytes ≤ 8 ∧
      (c0.liveBytes + (len "k3" + lru.Value.Len swift.v3) ≤ MaxInt64 → c.liveBytes ≤ 8) :=
  C1_total_le_capacity_after_Add 8 (by decide) none ()
    [lru.Op.Add "k1" swift.v1, lru.Op.Add "k2" swift.v2] "k3" swift.v3
    (fun _ v1 _ => swift.ByteView_Len_nonneg v1) (by decide) 3 (by decide)

/-- Claim C2: eviction is strict least-recently-used. Take the store reached from `New` by
adding pairs `ps` with pairwise distinct keys (no `Get` in between) that has at least one
live entry, and a new key `D` whose `Add` forces exactly one eviction (the loop guard holds
after the insertion and fails after one `RemoveOldest`). Then the `Add` returns; the live
entries before it were the pairs from some position `j` on, so `ps[j]` is the earliest-added
live entry `A`; afterwards `A` (like every pair before it) is a miss, every pair after `A`
is a hit with its value, and `D` is a hit with `v`. -/
theorem C2_strict_lru_eviction {V W : Type} [lru.Value V] (C : Int)
    (cb : Option (lru.Callback V W)) (w : W) (ps : List (String × V))
    (hnd : (ps.map Prod.fst).Nodup) (D : String) (v : V) (hD : D ∉ ps.map Prod.fst)
    (fuel0 : Nat) (c : lru.Cache V W)
    (hc : lru.Cache.run fuel0 (lru.New C cb w) (lru.adds ps) = some c)
    (hlive : 0 < c.Len)
    (hover : (c.AddStep D v).over = true)
    (hfit : (c.AddStep D v).RemoveOldest.over = false)
    (fuel : Nat) (hfuel : 1 ≤ fuel) :
    ∃ (j : Nat) (c1 : lru.Cache V W), j < ps.length ∧ c.Add fuel D v = some c1 ∧
      c.entries = lru.recent (ps.drop j) ∧
      (∀ p ∈ ps.drop j, (c.Get p.1).1 = some p.2) ∧
      c1.entries = { key := D, value := v } :: lru.recent (ps.drop (j + 1)) ∧
      (∀ p ∈ ps.take (j + 1), (c1.Get p.1).1 = none) ∧
      (∀ p ∈ ps.drop (j + 1), (c1.Get p.1).1 = some p.2) ∧
      (c1.Get D).1 = some v := by
  have hwf : c.WF := lru.run_WF _ (lru.WF_New C cb w) hc
  obtain ⟨j, hj, hent⟩ := lru.run_adds_entries C cb w fuel0 ps hnd c hc
  have hlen : c.entries.length = c.ll.length := hwf.length_entries
  have hjlt : j < ps.length := by
    have h1 : 0 < c.ll.length := by
      have := hlive
      unfold lru.Cache.Len at this
      exact_mod_cast this
    rw [← hlen, hent] at h1
    simp [lru.recent] at h1
    omega
  have hwf1 := lru.WF_AddStep hwf D v
  have hwf2 := lru.WF_RemoveOldest hwf1
  have hadd : c.Add fuel D v = some (c.AddStep D v).RemoveOldest :=
    lru.AddLoop_one fuel hfuel _ hover hfit
  have hfil : c.entries.filter (fun x => decide (x.key ≠ D)) = c.entries := by
    rw [List.filter_eq_self]
    intro x hx
    rw [hent] at hx
    obtain ⟨q, hq, rfl⟩ := (lru.mem_recent _ x).1 hx
    have : q.1 ≠ D := fun hqD => hD (List.mem_map.2 ⟨q, List.mem_of_mem_drop hq, hqD⟩)
    simpa using this
  have hne : lru.recent (ps.drop j) ≠ [] := by
    intro h0
    have := congrArg List.length h0
    simp [lru.recent] at this
    omega
  have hent2 : (c.AddStep D v).RemoveOldest.entries =
      { key := D, value := v } :: lru.recent (ps.drop (j + 1)) := by
    rw [lru.entries_RemoveOldest hwf1, lru.entries_AddStep hwf D v, hfil, hent,
      List.dropLast_cons_of_ne_nil hne, lru.recent_dropLast, List.drop_drop]
  have hsplit : ps.take (j + 1) ++ ps.drop (j + 1) = ps := List.take_append_drop _ _
  have hdisj : ∀ p ∈ ps.take (j + 1), ∀ q ∈ ps.drop (j + 1), q.1 ≠ p.1 := by
    intro p hp q hq hqp
    rw [← hsplit, List.map_append, List.nodup_append] at hnd
    exact hnd.2.2 (List.mem_map.2 ⟨p, hp, rfl⟩) (List.mem_map.2 ⟨q, hq, hqp⟩)
  refine ⟨j, _, hjlt, hadd, hent, ?_, hent2, ?_, ?_, ?_⟩
  · intro p hp
    rw [lru.Get_eq_some_iff hwf, hent]
    exact (lru.mem_recent _ _).2 ⟨p, hp, rfl⟩
  · intro p hp
    rw [lru.Get_eq_none_iff hwf2, hent2]
    intro x hx
    rcases List.mem_cons.1 hx with h1 | h1
    · subst h1
      exact fun hDp => hD (List.mem_map.2 ⟨p, List.mem_of_mem_take hp, hDp.symm⟩)
    · obtain ⟨q, hq, rfl⟩ := (lru.mem_recent _ x).1 h1
      exact hdisj p hp q hq
  · intro p hp
    rw [lru.Get_eq_some_iff hwf2, hent2]
    exact List.mem_cons_of_mem _ ((lru.mem_recent _ _).2 ⟨p, hp, rfl⟩)
  · rw [lru.Get_eq_some_iff hwf2, hent2]
    exact List.mem_cons_self _ _

/-- Claim C3: a successful `Get(k)` makes `k` the most recently used entry. Take a store
reached from `New` that holds at least two entries, a hit `Get(k)`, and a new key `D` whose
`Add` right after forces exactly one eviction. The `Get` puts `k` first and leaves the other
entries in their order; the `Add` returns, evicts the least recently used of the other
entries `u` and keeps `k` and every other entry retrievable. -/
theorem C3_get_makes_most_recent {V W : Type} [lru.Value V] (C : Int)
    (cb : Option (lru.Callback V W)) (w : W) (ops : List (lru.Op V)) (fuel0 : Nat)
    (c : lru.Cache V W) (hc : lru.Cache.run fuel0 (lru.New C cb w) ops = some c)
    (htwo : 2 ≤ c.Len) (k : String) (vk : V) (hhit : (c.Get k).1 = some vk)
    (D : String) (v : V) (hD : (c.Get D).1 = none)
    (hover : ((c.Get k).2.AddStep D v).over = true)
    (hfit : ((c.Get k).2.AddStep D v).RemoveOldest.over = false)
    (fuel : Nat) (hfuel : 1 ≤ fuel) :
    (c.Get k).2.entries = { key := k, value := vk } :: c.others k ∧
    ∃ (c2 : lru.Cache V W) (u : lru.entry V),
      (c.Get k).2.Add fuel D v = some c2 ∧
      (c.others k).getLast? = some u ∧
      c2.entries = { key := D, value := v } :: { key := k, value := vk } :: (c.others k).dropLast ∧
      (c2.Get k).1 = some vk ∧
      (c2.Get u.key).1 = none ∧
      (c2.Get D).1 = some v ∧
      ∀ x ∈ (c.others k).dropLast, (c2.Get x.key).1 = some x.value := by
  have hwf : c.WF := lru.run_WF _ (lru.WF_New C cb w) hc
  have hwf1 : (c.Get k).2.WF := lru.WF_Get hwf k
  have hkmem : ({ key := k, value := vk } : lru.entry V) ∈ c.entries :=
    (lru.Get_eq_some_iff hwf k vk).1 hhit
  have hDabs : ∀ x ∈ c.entries, x.key ≠ D := (lru.Get_eq_none_iff hwf D).1 hD
  -- the entries after the `Get`
  have hent1 : (c.Get k).2.entries = { key := k, value := vk } :: c.others k := by
    cases hi : mapIndex c.cache k with
    | none => rw [lru.Get_miss c k hi] at hhit; cases hhit
    | some ele =>
      obtain ⟨v0, hg, he⟩ := lru.entries_Get_hit hwf k ele hi
      rw [hg] at hhit
      have : v0 = vk := Option.some.inj hhit
      subst this
      exact he
  have hosub : ∀ x ∈ c.others k, x ∈ c.entries ∧ x.key ≠ k := by
    intro x hx
    have := List.mem_filter.1 hx
    exact ⟨this.1, by simpa using this.2⟩
  -- the other entries are not empty
  have hone : 1 ≤ (c.others k).length := by
    have h1 : (c.Get k).2.entries.length = c.ll.length := by
      rw [hwf1.length_entries, lru.Get_length]
    rw [hent1, List.length_cons] at h1
    have h2 : (2 : Int) ≤ (c.ll.length : Int) := htwo
    omega
  obtain ⟨u, hu⟩ : ∃ u, (c.others k).getLast? = some u := by
    cases hl : (c.others k).getLast? with
    | none =>
      rw [List.getLast?_eq_none_iff] at hl
      rw [hl] at hone; simp at hone
    | some u => exact ⟨u, rfl⟩
  obtain ⟨ys, hys⟩ := List.getLast?_eq_some_iff.1 hu
  have hdl : (c.others k).dropLast = ys := by rw [hys, List.dropLast_concat]
  -- the insertion of `D`
  have hwf2 := lru.WF_AddStep hwf1 D v
  have hwf3 := lru.WF_RemoveOldest hwf2
  have hfil : (c.Get k).2.entries.filter (fun x => decide (x.key ≠ D)) = (c.Get k).2.entries := by
    rw [List.filter_eq_self]
    intro x hx
    rw [hent1] at hx
    have : x.key ≠ D := by
      rcases List.mem_cons.1 hx with h1 | h1
      · subst h1; exact hDabs _ hkmem
      · exact hDabs x (hosub x h1).1
    simpa using this
  have hent3 : ((c.Get k).2.AddStep D v).RemoveOldest.entries =
      { key := D, value := v } :: { key := k, value := vk } :: (c.others k).dropLast := by
    rw [lru.entries_RemoveOldest hwf2, lru.entries_AddStep hwf1 D v, hfil, hent1,
      List.dropLast_cons_of_ne_nil (List.cons_ne_nil _ _),
      List.dropLast_cons_of_ne_nil (by intro h0; rw [h0] at hone; simp at hone)]
  have hnd : ((c.others k).map lru.entry.key).Nodup :=
    List.Nodup.sublist (List.Sublist.map _ (List.filter_sublist _)) hwf.keys_nodup
  refine ⟨hent1, _, u, lru.AddLoop_one fuel hfuel _ hover hfit, hu, hent3, ?_, ?_, ?_, ?_⟩
  · rw [lru.Get_eq_some_iff hwf3, hent3]
    exact List.mem_cons_of_mem _ (List.mem_cons_self _ _)
  · rw [lru.Get_eq_none_iff hwf3, hent3]
    have humem : u ∈ c.others k := by rw [hys]; simp
    intro x hx
    rcases List.mem_cons.1 hx with h1 | h1
    · subst h1; exact fun h => hDabs u (hosub u humem).1 h.symm
    · rcases List.mem_cons.1 h1 with h2 | h2
      · subst h2; exact fun h => (hosub u humem).2 h.symm
      · rw [hdl] at h2
        rw [hys, List.map_append, List.nodup_append] at hnd
        exact fun h => hnd.2.2 (List.mem_map.2 ⟨x, h2, rfl⟩) (by simp [h])
  · rw [lru.Get_eq_some_iff hwf3, hent3]
    exact List.mem_cons_self _ _
  · intro x hx
    rw [lru.Get_eq_some_iff hwf3, hent3]
    exact List.mem_cons_of_mem _ (List.mem_cons_of_mem _ hx)

/-- Witness of C2, the scenario of the specification: with capacity 8, adding `(k1, v1)`,
`(k2, v2)`, `(k3, v3)` leaves `Get(k1)` a miss and `Get(k2)`, `Get(k3)` hits with `v2`,
`v3`; and the theorem at the store holding `k1`, `k2` and the new key `k3`. -/
theorem C2_witness :
    ((lru.Cache.run 1 (lru.New 8 none () : lru.Cache swift.ByteView Unit)
        (lru.adds [("k1", swift.v1), ("k2", swift.v2), ("k3", swift.v3)])).map
      (fun c => ((c.Get "k1").1, (c.Get "k2").1, (c.Get "k3").1)) =
        some (none, some swift.v2, some swift.v3)) ∧
    ∃ (j : Nat) (c1 : lru.Cache swift.ByteView Unit), j < swift.pairs12.length ∧
      swift.store12.Add 1 "k3" swift.v3 = some c1 ∧
      swift.store12.entries = lru.recent (swift.pairs12.drop j) ∧
      (∀ p ∈ swift.pairs12.drop j, (swift.store12.Get p.1).1 = some p.2) ∧
      c1.entries = { key := "k3", value := swift.v3 } :: lru.recent (swift.pairs12.drop (j + 1)) ∧
      (∀ p ∈ swift.pairs12.take (j + 1), (c1.Get p.1).1 = none) ∧
      (∀ p ∈ swift.pairs12.drop (j + 1), (c1.Get p.1).1 = some p.2) ∧
      (c1.Get "k3").1 = some swift.v3 :=
  ⟨by decide,
    C2_strict_lru_eviction 8 none () swift.pairs12 (by decide) "k3" swift.v3 (by decide) 0
      swift.store12 (by rfl) (by decide) (by decide) (by decide) 1 (by decide)⟩

/-- Witness of C3: in the store holding `k1`, `k2` (capacity 8) the call `Get(k1)` hits, and
the following `Add(k3, v3)` evicts `k2` and keeps `k1`. -/
theorem C3_witness :
    (((swift.store12.Get "k1").2.Add 1 "k3" swift.v3).map
      (fun c => ((c.Get "k1").1, (c.Get "k2").1, (c.Get "k3").1)) =
        some (some swift.v1, none, some swift.v3)) ∧
    ((swift.store12.Get "k1").2.entries =
        { key := "k1", value := swift.v1 } :: swift.store12.others "k1" ∧
      ∃ (c2 : lru.Cache swift.ByteView Unit) (u : lru.entry swift.ByteView),
        (swift.store12.Get "k1").2.Add 1 "k3" swift.v3 = some c2 ∧
        (swift.store12.others "k1").getLast? = some u ∧
        c2.entries = { key := "k3", value := swift.v3 } :: { key := "k1", value := swift.v1 } ::
          (swift.store12.others "k1").dropLast ∧
        (c2.Get "k1").1 = some swift.v1 ∧
        (c2.Get u.key).1 = none ∧
        (c2.Get "k3").1 = some swift.v3 ∧
        ∀ x ∈ (swift.store12.others "k1").dropLast, (c2.Get x.key).1 = some x.value) :=
  ⟨by decide,
    C3_get_makes_most_recent 8 none () (lru.adds swift.pairs12) 0 swift.store12 (by rfl) (by decide)
      "k1" swift.v1 (by decide) "k3" swift.v3 (by decide) (by decide) (by decide) 1
      (by decide)⟩

/-- Counterexample to C4 as stated: the group made by `NewGroup("scores", 1, db)` has no
picker and its loader succeeds for `Tom`, yet two sequential `Get("Tom")` calls call the
loader for `Tom` twice, because the value does not fit into the capacity of one byte and
is evicted by the `Add` that inserts it. -/
theorem C4_counterexample :
    (∃ p1, swift.NewGroup { groups := [], objs := [], next := 0 } "scores" 1 (some swift.db) =
        some (0, p1) ∧ mapIndex p1.objs 0 = some swift.scoresTiny) ∧
      swift.scoresTiny.peers = none ∧
      swift.scoresTiny.getter "Tom" = Except.ok [54, 51, 48] ∧
      (swift.scoresTiny.Gets 2 ["Tom", "Tom"]).map (fun r => (r.1, r.2.loads "Tom")) =
        some ([(swift.ByteView.mk [54, 51, 48], none), (swift.ByteView.mk [54, 51, 48], none)],
          2) :=
  ⟨⟨_, rfl, rfl⟩, rfl, by rfl, by decide⟩

/-- Claim C4, amended: for a valid group without a picker whose capacity is zero or at least
`len(key) + len(bytes)`, a non-empty key that is not cached and for which the source loader
returns `bytes`, `N ≥ 1` sequential `Get(key)` calls all return `bytes` without error and
call the source loader for `key` exactly once. -/
theorem C4_loader_called_once_when_value_fits (g : swift.Group) (hv : g.Valid)
    (hp : g.peers = none) (key : String) (hkey : key ≠ "") (bytes : List UInt8)
    (hload : g.getter key = Except.ok bytes) (hmiss : (g.mainCache.get key).1 = none)
    (hfit : g.mainCache.cacheBytes = 0 ∨
      len key + (swift.ByteView.mk bytes).Len ≤ g.mainCache.cacheBytes)
    (N : Nat) (hN : 1 ≤ N) :
    ∃ fuel0, ∀ fuel, fuel0 ≤ fuel →
      ∃ g1, g.Gets fuel (List.replicate N key) =
          some (List.replicate N (swift.ByteView.mk bytes, none), g1) ∧
        g1.loads key = g.loads key + 1 := by
  refine ⟨g.mainCache.entries.length + 1, fun fuel hfuel => ?_⟩
  obtain ⟨n, rfl⟩ : ∃ n, N = n + 1 := ⟨N - 1, by omega⟩
  have hwf : ∀ l, g.mainCache.lru = some l → l.WF := fun l hl => (hv.wf l hl).1
  have hcap : 0 ≤ g.mainCache.cacheBytes := by
    rcases hfit with h | h
    · omega
    · have h1 := swift.len_nonneg key
      have h2 := swift.ByteView_Len_nonneg (swift.ByteView.mk bytes)
      omega
  have hm := swift.cache_get_miss hwf hmiss
  have hidle : key ∉ g.loader.m := by rw [hv.idle]; simp
  obtain ⟨hpf, hpc⟩ := swift.peerFails_of_none g key hp
  obtain ⟨mc, hmc⟩ := swift.cache_add_terminates hv.wf hcap key (swift.ByteView.mk bytes) fuel
    hfuel
  have hget : g.Get fuel key = some ((swift.ByteView.mk bytes, none),
      { g with calls := g.calls ++ [swift.Call.Do key, swift.Call.GetterGet key],
               mainCache := mc }) := by
    rw [swift.Group_Get_miss fuel g key hkey hm, swift.load_of_peerFails fuel g key hidle hpf, hpc,
      swift.getLocal_ok fuel { g with calls := g.calls ++ [swift.Call.Do key] } key bytes hload]
    simp [hmc]
  have hv1 : swift.Group.Valid
      { g with calls := g.calls ++ [swift.Call.Do key, swift.Call.GetterGet key],
               mainCache := mc } := ⟨(swift.cache_add_spec hv.wf hmc).1, hv.idle⟩
  have hhit : (mc.get key).1 = some (swift.ByteView.mk bytes) :=
    swift.cache_add_hit hv.wf hfit hmc
  obtain ⟨g2, hg2, hc2⟩ := swift.Gets_hits fuel key hkey (swift.ByteView.mk bytes) n _ hv1 hhit
  refine ⟨g2, ?_, ?_⟩
  · simp only [List.replicate_succ, swift.Group.Gets, hget, Option.some_bind, hg2,
      Option.map_some']
  · simp [swift.Group.loads, hc2, List.count_append]

/-- Witness of C4, the scenario of the test: `NewGroup("scores", 2<<10, db)` makes the group
`scores`, and two `Get("Tom")` calls leave the load count of `Tom` at 1. -/
theorem C4_witness :
    (∃ p1, swift.NewGroup { groups := [], objs := [], next := 0 } "scores" 2048 (some swift.db) =
        some (0, p1) ∧ mapIndex p1.objs 0 = some swift.scores) ∧
      ((swift.scores.Gets 1 ["Tom", "Tom"]).map (fun r => (r.1, r.2.loads "Tom")) =
        some ([(swift.ByteView.mk [54, 51, 48], none), (swift.ByteView.mk [54, 51, 48], none)],
          1)) ∧
      ∃ fuel0, ∀ fuel, fuel0 ≤ fuel →
        ∃ g1, swift.scores.Gets fuel (List.replicate 2 "Tom") =
            some (List.replicate 2 (swift.ByteView.mk [54, 51, 48], none), g1) ∧
          g1.loads "Tom" = swift.scores.loads "Tom" + 1 :=
  ⟨⟨_, rfl, rfl⟩, by decide,
    C4_loader_called_once_when_value_fits swift.scores swift.scores_valid rfl "Tom" (by decide)
      [54, 51, 48] (by rfl) (by rfl) (Or.inr (by decide)) 2 (by decide)⟩

/-- Claim C5: take the group that `NewGroup` makes for any name, capacity and source loader
(a function of the key) and any sequence of `Get` calls on it, no picker being registered.
Whenever the calls return, every call that returns without error returns a value whose
bytes are the bytes the loader returns for its key, whether it was loaded or served from
the cache, and every entry of the cache holds the loader's bytes for its key. With a
capacity that is not negative the calls do return, given enough fuel. -/
theorem C5_values_equal_loader_bytes (p p1 : swift.Process) (name : String) (cacheBytes : Int)
    (getter : swift.Getter) (a : Nat) (g : swift.Group)
    (hnew : swift.NewGroup p name cacheBytes (some getter) = some (a, p1))
    (hg : mapIndex p1.objs a = some g) (keys : List String) :
    (∀ fuel rs g1, g.Gets fuel keys = some (rs, g1) →
      rs.length = keys.length ∧
      (∀ q ∈ keys.zip rs, q.2.2 = none → getter q.1 = Except.ok q.2.1.ByteSlice) ∧
      ∀ x ∈ g1.mainCache.entries, getter x.key = Except.ok x.value.ByteSlice) ∧
    (0 ≤ cacheBytes → ∃ fuel0, ∀ fuel, fuel0 ≤ fuel → ∃ rs g1, g.Gets fuel keys = some (rs, g1)) := by
  have hobj := swift.NewGroup_obj hnew hg
  have hv : g.Valid := by
    rw [hobj]; exact ⟨fun l h => by simp at h, rfl⟩
  have hco : g.Coherent := by
    rw [hobj]; intro x hx; simp [swift.cache.entries] at hx
  have hp : g.peers = none := by rw [hobj]
  have hgt : g.getter = getter := by rw [hobj]
  have hcb : g.mainCache.cacheBytes = cacheBytes := by rw [hobj]
  constructor
  · intro fuel rs g1 h
    obtain ⟨i1, i2, _, i4, _, i6⟩ := swift.Gets_local_sound keys hv hco hp h
    refine ⟨i1, fun q hq hn => hgt ▸ i2 q hq hn, fun x hx => ?_⟩
    have := i4 x hx
    rw [i6, hgt] at this
    exact this
  · intro hcap
    exact ⟨g.mainCache.entries.length + keys.length + 1, fun fuel hf =>
      swift.Gets_local_terminates keys hv hco hp (by rw [hcb]; exact hcap) fuel hf⟩

/-- Witness of C5: the group of the test and the calls `Get("Tom")`, `Get("Tom")`,
`Get("unknown")`, `Get("Sam")`. -/
theorem C5_witness :
    ((swift.scores.Gets 1 ["Tom", "Tom", "unknown", "Sam"]).map (fun r => r.1) =
      some [(swift.ByteView.mk [54, 51, 48], none), (swift.ByteView.mk [54, 51, 48], none),
        (swift.ByteView.mk [], some "unknown not exist"),
        (swift.ByteView.mk [53, 54, 55], none)]) ∧
    (∀ fuel rs g1, swift.scores.Gets fuel ["Tom", "Tom", "unknown", "Sam"] = some (rs, g1) →
      rs.length = ["Tom", "Tom", "unknown", "Sam"].length ∧
      (∀ q ∈ ["Tom", "Tom", "unknown", "Sam"].zip rs, q.2.2 = none →
        swift.db q.1 = Except.ok q.2.1.ByteSlice) ∧
      ∀ x ∈ g1.mainCache.entries, swift.db x.key = Except.ok x.value.ByteSlice) ∧
    ((0 : Int) ≤ 2048 → ∃ fuel0, ∀ fuel, fuel0 ≤ fuel →
      ∃ rs g1, swift.scores.Gets fuel ["Tom", "Tom", "unknown", "Sam"] = some (rs, g1)) :=
  ⟨by decide,
    C5_values_equal_loader_bytes { groups := [], objs := [], next := 0 }
      { groups := [("scores", 0)], objs := [(0, swift.scores)], next := 1 } "scores" 2048 swift.db 0
      swift.scores (by rfl) (by rfl) ["Tom", "Tom", "unknown", "Sam"]⟩

/-- Claim C6: in every group state `Get("")` returns an error (`key is required`) with the
empty value and leaves the whole group state as it was: the cache with its entries, order and byte total,
the coalescer, and the record of calls, so that neither the source loader, the picker nor the
coalescer was called. -/
theorem C6_empty_key_rejected (fuel : Nat) (g : swift.Group) :
    g.Get fuel "" = some ((swift.ByteView.mk [], some "key is required"), g) :=
  swift.Group_Get_empty fuel g

/-- Claim C7: for a valid group, a non-empty key that misses the cache, and a peer step that
yields no value (no picker, no peer named, or a failed fetch), a source loader that returns
the error `e` makes `Get(key)` return exactly `e` with the empty value, and the cache is
left unchanged, so `key` still misses. -/
theorem C7_loader_error_returned (g : swift.Group) (hv : g.Valid) (key : String)
    (hkey : key ≠ "") (hmiss : (g.mainCache.get key).1 = none)
    (hpeer : g.peers = none ∨ ∃ picker, g.peers = some picker ∧
      (picker key = none ∨
        ∃ peer perr, picker key = some peer ∧ peer g.name key = Except.error perr))
    (e : swift.error) (hload : g.getter key = Except.error e) (fuel : Nat) :
    ∃ g1, g.Get fuel key = some ((swift.ByteView.mk [], some e), g1) ∧
      g1.mainCache = g.mainCache ∧ (g1.mainCache.get key).1 = none := by
  have hwf : ∀ l, g.mainCache.lru = some l → l.WF := fun l hl => (hv.wf l hl).1
  have hm := swift.cache_get_miss hwf hmiss
  have hidle : key ∉ g.loader.m := by rw [hv.idle]; simp
  have hpf : g.peerFails key := by
    unfold swift.Group.peerFails
    rcases hpeer with h | ⟨picker, h, h1 | ⟨peer, perr, h1, h2⟩⟩
    · simp [h]
    · simp [h, h1]
    · simp only [h, h1]; exact ⟨perr, h2⟩
  rw [swift.Group_Get_miss fuel g key hkey hm, swift.load_of_peerFails fuel g key hidle hpf,
    swift.getLocal_error fuel { g with calls := g.calls ++ swift.Call.Do key :: g.peerCalls key }
      key e hload]
  exact ⟨_, rfl, rfl, hmiss⟩

/-- Witness of C7: `Get("unknown")` on the group of the test returns the error
`unknown not exist`. -/
theorem C7_witness :
    ∃ g1, swift.scores.Get 1 "unknown" =
        some ((swift.ByteView.mk [], some "unknown not exist"), g1) ∧
      g1.mainCache = swift.scores.mainCache ∧ (g1.mainCache.get "unknown").1 = none :=
  C7_loader_error_returned swift.scores swift.scores_valid "unknown" (by decide) (by rfl)
    (Or.inl rfl) "unknown not exist" (by rfl) 1

/-- Claim C8: for a valid group with a picker, a non-empty key that misses the cache, a peer
named for the key and a fetch of `(group name, key)` that returns the bytes `b`: `Get(key)`
returns the value `b` without error, calls the coalescer, the picker and the peer and not
the source loader, and leaves the cache unchanged; a second `Get(key)` right after misses
again and makes the same three calls. -/
theorem C8_peer_value_not_cached (g : swift.Group) (hv : g.Valid) (key : String)
    (hkey : key ≠ "") (hmiss : (g.mainCache.get key).1 = none) (picker : swift.PeerPicker)
    (hp : g.peers = some picker) (peer : swift.PeerGetter) (hpick : picker key = some peer)
    (b : List UInt8) (hfetch : peer g.name key = Except.ok b) (fuel : Nat) :
    ∃ g1 g2, g.Get fuel key = some ((swift.ByteView.mk b, none), g1) ∧
      g1.mainCache = g.mainCache ∧
      g1.calls = g.calls ++
        [swift.Call.Do key, swift.Call.PickPeer key, swift.Call.PeerGet g.name key] ∧
      (∀ k, g1.loads k = g.loads k) ∧
      (g1.mainCache.get key).1 = none ∧
      g1.Get fuel key = some ((swift.ByteView.mk b, none), g2) ∧
      g2.mainCache = g.mainCache ∧
      g2.calls = g1.calls ++
        [swift.Call.Do key, swift.Call.PickPeer key, swift.Call.PeerGet g.name key] := by
  have hwf : ∀ l, g.mainCache.lru = some l → l.WF := fun l hl => (hv.wf l hl).1
  have hm := swift.cache_get_miss hwf hmiss
  have hidle : key ∉ g.loader.m := by rw [hv.idle]; simp
  have hstep : ∀ g0 : swift.Group, g0.mainCache = g.mainCache → g0.loader = g.loader →
      g0.peers = g.peers → g0.name = g.name →
      g0.Get fuel key = some ((swift.ByteView.mk b, none),
        { g0 with calls := g0.calls ++
          [swift.Call.Do key, swift.Call.PickPeer key, swift.Call.PeerGet g.name key] }) := by
    intro g0 e1 e2 e3 e4
    rw [swift.Group_Get_miss fuel g0 key hkey (by rw [e1]; exact hm),
      swift.load_of_peer_ok fuel g0 key (by rw [e2]; exact hidle) picker (by rw [e3]; exact hp)
        peer hpick b (by rw [e4]; exact hfetch), e4]
  refine ⟨{ g with calls := g.calls ++
      [swift.Call.Do key, swift.Call.PickPeer key, swift.Call.PeerGet g.name key] },
    { g with calls := (g.calls ++
      [swift.Call.Do key, swift.Call.PickPeer key, swift.Call.PeerGet g.name key]) ++
      [swift.Call.Do key, swift.Call.PickPeer key, swift.Call.PeerGet g.name key] },
    hstep g rfl rfl rfl rfl, rfl, rfl, ?_, hmiss, ?_, rfl, rfl⟩
  · intro k
    simp [swift.Group.loads, List.count_append]
  · exact hstep _ rfl rfl rfl rfl

/-- Witness of C8: the group of the test with a picker that names a peer answering `630`;
`Get("Tom")` twice. -/
theorem C8_witness :
    ∃ g1 g2, swift.scoresPeered.Get 1 "Tom" = some ((swift.ByteView.mk [54, 51, 48], none), g1) ∧
      g1.mainCache = swift.scoresPeered.mainCache ∧
      g1.calls = swift.scoresPeered.calls ++
        [swift.Call.Do "Tom", swift.Call.PickPeer "Tom",
          swift.Call.PeerGet swift.scoresPeered.name "Tom"] ∧
      (∀ k, g1.loads k = swift.scoresPeered.loads k) ∧
      (g1.mainCache.get "Tom").1 = none ∧
      g1.Get 1 "Tom" = some ((swift.ByteView.mk [54, 51, 48], none), g2) ∧
      g2.mainCache = swift.scoresPeered.mainCache ∧
      g2.calls = g1.calls ++
        [swift.Call.Do "Tom", swift.Call.PickPeer "Tom",
          swift.Call.PeerGet swift.scoresPeered.name "Tom"] :=
  C8_peer_value_not_cached swift.scoresPeered swift.scoresPeered_valid "Tom" (by decide)
    (by rfl) (fun _ => some swift.peer630) rfl swift.peer630 rfl [54, 51, 48] rfl 1

/-- Claim C10: for a valid group whose cache holds the non-empty key with value `v`,
`Get(key)` returns `(v, nil)` and the new group state differs from the old one only in the
recency list of the store, where the element of `key` has moved to the front: the record of
calls, the coalescer, the index, the values and the byte total are the old ones, the entry of
`key` is the most recently used one and the other entries keep their order. -/
theorem C10_cache_hit (g : swift.Group) (hv : g.Valid) (key : String) (hkey : key ≠ "")
    (v : swift.ByteView) (hhit : (g.mainCache.get key).1 = some v) (fuel : Nat) :
    ∃ (l : lru.Cache swift.ByteView Unit) (ele : Nat),
      g.mainCache.lru = some l ∧ mapIndex l.cache key = some ele ∧
      g.Get fuel key = some ((v, none),
        { g with mainCache :=
            { g.mainCache with lru := some { l with ll := lru.MoveToFront l.ll ele } } }) ∧
      ({ l with ll := lru.MoveToFront l.ll ele } : lru.Cache swift.ByteView Unit).entries =
        { key := key, value := v } :: l.others key ∧
      ({ l with ll := lru.MoveToFront l.ll ele } : lru.Cache swift.ByteView Unit).entries.Perm
        l.entries := by
  cases hl : g.mainCache.lru with
  | none => rw [swift.cache_get_none _ key hl] at hhit; cases hhit
  | some l =>
    have hwf := (hv.wf l hl).1
    have hget := swift.cache_get_some g.mainCache key l hl
    have hhit1 : (l.Get key).1 = some v := by rw [hget] at hhit; exact hhit
    cases hi : mapIndex l.cache key with
    | none => rw [lru.Get_miss l key hi] at hhit1; cases hhit1
    | some ele =>
      obtain ⟨hmem, kv, hkv, hk⟩ := hwf.index key ele hi
      have hg := lru.Get_hit l key ele kv hi hkv
      have hv0 : kv.value = v := by rw [hg] at hhit1; exact Option.some.inj hhit1
      obtain ⟨v0, hg0, he0⟩ := lru.entries_Get_hit hwf key ele hi
      have hv1 : v0 = v := by rw [hg0] at hhit1; exact Option.some.inj hhit1
      rw [hg] at he0
      simp only at he0
      refine ⟨l, ele, rfl, hi, ?_, ?_, ?_⟩
      · rw [swift.Group_Get_hit fuel g key hkey v hhit, hget, hg]
      · rw [he0, hv1]; rfl
      · exact (lru.MoveToFront_perm l.ll ele).filterMap _

/-- Witness of C10: the group of the test after one `Get("Tom")`; the next `Get("Tom")` is
served from the cache. -/
theorem C10_witness :
    ∃ (l : lru.Cache swift.ByteView Unit) (ele : Nat),
      swift.scoresTom.mainCache.lru = some l ∧ mapIndex l.cache "Tom" = some ele ∧
      swift.scoresTom.Get 1 "Tom" = some ((swift.ByteView.mk [54, 51, 48], none),
        { swift.scoresTom with mainCache :=
            { swift.scoresTom.mainCache with
              lru := some { l with ll := lru.MoveToFront l.ll ele } } }) ∧
      ({ l with ll := lru.MoveToFront l.ll ele } : lru.Cache swift.ByteView Unit).entries =
        { key := "Tom", value := swift.ByteView.mk [54, 51, 48] } :: l.others "Tom" ∧
      ({ l with ll := lru.MoveToFront l.ll ele } : lru.Cache swift.ByteView Unit).entries.Perm
        l.entries :=
  C10_cache_hit swift.scoresTom swift.scoresTom_valid "Tom" (by decide)
    (swift.ByteView.mk [54, 51, 48]) (by rfl) 1

/-- Counterexample to C11 as stated: on the group of the test, which has no picker, the first
call `RegisterPeers(nil)` returns and leaves the picker nil, and the second call
`RegisterPeers(p2)` with a picker `p2` returns without a panic and sets the picker. -/
theorem C11_counterexample :
    ∃ g1 g2 : swift.Group, swift.scores.peers = none ∧
      swift.scores.RegisterPeers none = Except.ok g1 ∧ g1.peers = none ∧
      g1.RegisterPeers (some (fun _ => some swift.peer630)) = Except.ok g2 ∧
      g2.peers.isSome = true :=
  ⟨_, _, rfl, rfl, rfl, rfl, rfl⟩

/-- Claim C11, amended: for every group without a picker, every picker `p1` that is not nil
and every argument `p2`, nil or not, the first call `RegisterPeers(p1)` returns with the
picker set to `p1` and nothing else changed, and a second call `RegisterPeers(p2)` is the
panic, which leaves the group as it was, with the picker `p1`. More generally the call is
the panic, and changes nothing, on every group that has a picker. -/
theorem C11_second_registration_panics (g : swift.Group) (hg : g.peers = none)
    (p1 : swift.PeerPicker) (p2 : Option swift.PeerPicker) :
    (∃ g1, g.RegisterPeers (some p1) = Except.ok g1 ∧ g1 = { g with peers := some p1 } ∧
      g1.peers = some p1 ∧ g1.RegisterPeers p2 = Except.error g1) ∧
    (∀ (g0 : swift.Group) (p0 : swift.PeerPicker), g0.peers = some p0 →
      g0.RegisterPeers p2 = Except.error g0) := by
  refine ⟨⟨{ g with peers := some p1 }, ?_, rfl, rfl, rfl⟩, fun g0 p0 h0 => ?_⟩
  · unfold swift.Group.RegisterPeers
    rw [hg]
  · unfold swift.Group.RegisterPeers
    rw [h0]

/-- Witness of C11: the group of the test, a first picker that names `peer630` and a second
one that names no peer. -/
theorem C11_witness :
    (∃ g1, swift.scores.RegisterPeers (some (fun _ => some swift.peer630)) = Except.ok g1 ∧
      g1 = { swift.scores with peers := some (fun _ => some swift.peer630) } ∧
      g1.peers = some (fun _ => some swift.peer630) ∧
      g1.RegisterPeers (some (fun _ => none)) = Except.error g1) ∧
    (∀ (g0 : swift.Group) (p0 : swift.PeerPicker), g0.peers = some p0 →
      g0.RegisterPeers (some (fun _ => none)) = Except.error g0) :=
  C11_second_registration_panics swift.scores rfl (fun _ => some swift.peer630)
    (some (fun _ => none))

namespace swift

theorem NewGroup_step (p : Process) (name : String) (cacheBytes : Int) (getter : Getter) :
    ∃ p1, NewGroup p name cacheBytes (some getter) = some (p.next, p1) ∧
      p1.groups = mapAssign p.groups name p.next ∧
      p1.objs = mapAssign p.objs p.next (Group.fresh name cacheBytes getter) ∧
      p1.next = p.next + 1 :=
  ⟨_, rfl, rfl, rfl, rfl⟩

theorem NewGroups_cons {p p1 : Process} {name : String} {cacheBytes : Int} {getter : Getter}
    {a : Nat} (h : NewGroup p name cacheBytes (some getter) = some (a, p1))
    (calls : List (String × Int × Getter)) :
    NewGroups p ((name, cacheBytes, getter) :: calls) =
      ((NewGroups p1 calls).1, a :: (NewGroups p1 calls).2) := by
  simp only [NewGroups, h]

/-- A sequence of `NewGroup` calls: one address per call, all of them new; the registry holds
for a name the address of the last call with that name and otherwise what it held before;
every new address holds the group constructed by its call, and the groups allocated before
are untouched. -/
theorem NewGroups_spec (calls : List (String × Int × Getter)) (p : Process) :
    (NewGroups p calls).2.length = calls.length ∧
    (NewGroups p calls).1.next = p.next + calls.length ∧
    (∀ name, GetGroup (NewGroups p calls).1 name =
      match ((calls.zip (NewGroups p calls).2).filter
          (fun x => decide (x.1.1 = name))).getLast? with
      | some x => some x.2
      | none => GetGroup p name) ∧
    (∀ x ∈ calls.zip (NewGroups p calls).2, p.next ≤ x.2 ∧
      mapIndex (NewGroups p calls).1.objs x.2 = some (Group.fresh x.1.1 x.1.2.1 x.1.2.2)) ∧
    (∀ b, b < p.next → mapIndex (NewGroups p calls).1.objs b = mapIndex p.objs b) := by
  induction calls generalizing p with
  | nil => simp [NewGroups]
  | cons c calls ih =>
    obtain ⟨name, cacheBytes, getter⟩ := c
    obtain ⟨p1, hnew, hgroups, hobjs, hnext⟩ := NewGroup_step p name cacheBytes getter
    obtain ⟨i1, i2, i3, i4, i5⟩ := ih p1
    rw [NewGroups_cons hnew calls]
    refine ⟨by simp [i1], by simp only [i2, hnext, List.length_cons]; omega, ?_, ?_, ?_⟩
    · intro n
      simp only [List.zip_cons_cons]
      rw [i3 n]
      have hget : GetGroup p1 n = if name = n then some p.next else GetGroup p n := by
        unfold GetGroup
        rw [hgroups, mapIndex_mapAssign]
      by_cases hn : name = n
      · subst hn
        rw [List.filter_cons_of_pos (by simp)]
        cases hl : (List.filter (fun x => decide (x.1.1 = name))
            (calls.zip (NewGroups p1 calls).2)).getLast? with
        | some x =>
          obtain ⟨ys, hys⟩ := List.getLast?_eq_some_iff.1 hl
          rw [hys, ← List.cons_append, List.getLast?_concat]
        | none =>
          rw [List.getLast?_eq_none_iff.1 hl, hget, if_pos rfl]
          rfl
      · rw [List.filter_cons_of_neg (by simpa using hn)]
        cases hl : (List.filter (fun x => decide (x.1.1 = n))
            (calls.zip (NewGroups p1 calls).2)).getLast? with
        | some x => rfl
        | none => simp only [hget, if_neg hn]
    · intro x hx
      simp only [List.zip_cons_cons] at hx
      rcases List.mem_cons.1 hx with h | h
      · subst h
        refine ⟨le_refl _, ?_⟩
        rw [i5 p.next (by omega), hobjs, mapIndex_mapAssign, if_pos rfl]
      · obtain ⟨h1, h2⟩ := i4 x h
        exact ⟨by omega, h2⟩
    · intro b hb
      rw [i5 b (by omega), hobjs, mapIndex_mapAssign, if_neg (by omega)]

end swift

/-- Claim C12: take any sequence of `NewGroup` calls with non-nil loaders, made from the
initial package state, and the addresses they return. `GetGroup(name)` then returns the
address returned by the last call for `name`, and nil for a name that no call registered;
it is a function of the package state and returns nothing but the address. Each returned
address holds the group constructed by its call, which carries the given name, capacity
and loader, no store, hence no cached entry, and no picker. In every package state a
`NewGroup(name, ...)` call returns an address that `GetGroup(name)` returns afterwards, and
leaves `GetGroup` of every other name as it was. -/
theorem C12_registry_last_registration_wins (calls : List (String × Int × swift.Getter)) :
    (swift.NewGroups swift.Process.init calls).2.length = calls.length ∧
    (∀ name, swift.GetGroup (swift.NewGroups swift.Process.init calls).1 name =
      (((calls.zip (swift.NewGroups swift.Process.init calls).2).filter
        (fun x => decide (x.1.1 = name))).getLast?).map Prod.snd) ∧
    (∀ name, name ∉ calls.map Prod.fst →
      swift.GetGroup (swift.NewGroups swift.Process.init calls).1 name = none) ∧
    (∀ x ∈ calls.zip (swift.NewGroups swift.Process.init calls).2,
      mapIndex (swift.NewGroups swift.Process.init calls).1.objs x.2 =
        some (swift.Group.fresh x.1.1 x.1.2.1 x.1.2.2)) ∧
    (∀ (name : String) (cacheBytes : Int) (getter : swift.Getter),
      (swift.Group.fresh name cacheBytes getter).name = name ∧
      (swift.Group.fresh name cacheBytes getter).mainCache.cacheBytes = cacheBytes ∧
      (swift.Group.fresh name cacheBytes getter).getter = getter ∧
      (swift.Group.fresh name cacheBytes getter).mainCache.lru = none ∧
      (swift.Group.fresh name cacheBytes getter).mainCache.entries = [] ∧
      (swift.Group.fresh name cacheBytes getter).peers = none) ∧
    (∀ (p : swift.Process) (name : String) (cacheBytes : Int) (getter : swift.Getter),
      ∃ a p1, swift.NewGroup p name cacheBytes (some getter) = some (a, p1) ∧
        swift.GetGroup p1 name = some a ∧
        mapIndex p1.objs a = some (swift.Group.fresh name cacheBytes getter) ∧
        ∀ other, other ≠ name → swift.GetGroup p1 other = swift.GetGroup p other) := by
  obtain ⟨i1, _, i3, i4, _⟩ := swift.NewGroups_spec calls swift.Process.init
  have hget : ∀ name, swift.GetGroup (swift.NewGroups swift.Process.init calls).1 name =
      (((calls.zip (swift.NewGroups swift.Process.init calls).2).filter
        (fun x => decide (x.1.1 = name))).getLast?).map Prod.snd := by
    intro name
    rw [i3 name]
    cases ((calls.zip (swift.NewGroups swift.Process.init calls).2).filter
      (fun x => decide (x.1.1 = name))).getLast? <;> rfl
  refine ⟨i1, hget, ?_, fun x hx => (i4 x hx).2, fun _ _ _ => ⟨rfl, rfl, rfl, rfl, rfl, rfl⟩,
    ?_⟩
  · intro name hname
    rw [hget name]
    have hnil : (calls.zip (swift.NewGroups swift.Process.init calls).2).filter
        (fun x => decide (x.1.1 = name)) = [] := by
      rw [List.filter_eq_nil_iff]
      intro x hx hxn
      exact hname (List.mem_map.2 ⟨x.1, (List.of_mem_zip hx).1, by simpa using hxn⟩)
    rw [hnil]; rfl
  · intro p name cacheBytes getter
    obtain ⟨p1, hnew, hgroups, hobjs, _⟩ := swift.NewGroup_step p name cacheBytes getter
    refine ⟨p.next, p1, hnew, ?_, ?_, ?_⟩
    · unfold swift.GetGroup
      rw [hgroups, mapIndex_mapAssign, if_pos rfl]
    · rw [hobjs, mapIndex_mapAssign, if_pos rfl]
    · intro other hother
      unfold swift.GetGroup
      rw [hgroups, mapIndex_mapAssign, if_neg (fun e => hother e.symm)]

/-- Witness of C12: the calls `NewGroup("a", 1, db)`, `NewGroup("b", 2, db)`,
`NewGroup("a", 3, db)` return the addresses 0, 1, 2; afterwards `GetGroup("a")` is 2,
`GetGroup("b")` is 1 and `GetGroup("c")` is nil. -/
theorem C12_witness :
    ((swift.NewGroups swift.Process.init
        [("a", 1, swift.db), ("b", 2, swift.db), ("a", 3, swift.db)]).2 = [0, 1, 2] ∧
      swift.GetGroup (swift.NewGroups swift.Process.init
        [("a", 1, swift.db), ("b", 2, swift.db), ("a", 3, swift.db)]).1 "a" = some 2 ∧
      swift.GetGroup (swift.NewGroups swift.Process.init
        [("a", 1, swift.db), ("b", 2, swift.db), ("a", 3, swift.db)]).1 "b" = some 1 ∧
      swift.GetGroup (swift.NewGroups swift.Process.init
        [("a", 1, swift.db), ("b", 2, swift.db), ("a", 3, swift.db)]).1 "c" = none) ∧
    (swift.NewGroups swift.Process.init
      [("a", 1, swift.db), ("b", 2, swift.db), ("a", 3, swift.db)]).2.length =
        [("a", (1 : Int), swift.db), ("b", 2, swift.db), ("a", 3, swift.db)].length :=
  ⟨by decide,
    (C12_registry_last_registration_wins
      [("a", 1, swift.db), ("b", 2, swift.db), ("a", 3, swift.db)]).1⟩

namespace lru

theorem AddStep_world {V W : Type} [Value V] (c : Cache V W) (k : String) (v : V) :
    (c.AddStep k v).world = c.world := by
  unfold Cache.AddStep
  cases mapIndex c.cache k with
  | none => rfl
  | some ele =>
    simp only
    cases mapIndex c.nodes ele <;> rfl

theorem Get_world {V W : Type} (c : Cache V W) (k : String) :
    (c.Get k).2.world = c.world := by
  unfold Cache.Get
  cases mapIndex c.cache k with
  | none => rfl
  | some ele =>
    simp only
    cases mapIndex c.nodes ele <;> rfl

/-- With capacity 0 the loop of `Add` makes no round: `Add` is its insert-or-update step. -/
theorem Add_unbounded {V W : Type} [Value V] (c : Cache V W) (k : String) (v : V) (fuel : Nat)
    (h0 : c.maxBytes = 0) : c.Add fuel k v = some (c.AddStep k v) :=
  AddLoop_of_not_over fuel _ ((not_over_iff _).2 (Or.inl (by rw [AddStep_maxBytes]; exact h0)))

theorem mem_entries_AddStep {V W : Type} [Value V] {c : Cache V W} (h : c.WF) (k1 : String)
    (v1 : V) (k : String) (v : V) :
    ({ key := k, value := v } : entry V) ∈ (c.AddStep k1 v1).entries ↔
      (k = k1 ∧ v = v1) ∨ (k ≠ k1 ∧ ({ key := k, value := v } : entry V) ∈ c.entries) := by
  have hent : (c.AddStep k1 v1).entries = { key := k1, value := v1 } :: c.others k1 :=
    entries_AddStep h k1 v1
  rw [hent, List.mem_cons, mem_others]
  constructor
  · rintro (h0 | ⟨hx, hk⟩)
    · injection h0 with e1 e2
      exact Or.inl ⟨e1, e2⟩
    · exact Or.inr ⟨hk, hx⟩
  · rintro (⟨rfl, rfl⟩ | ⟨hk, hx⟩)
    · exact Or.inl rfl
    · exact Or.inr ⟨hx, hk⟩

theorem lastAdded_isSome_iff {V : Type} (ops : List (Op V)) (k : String) :
    (∃ v, lastAdded ops k = some v) ↔ k ∈ addedKeys ops := by
  induction ops with
  | nil => simp [lastAdded, addedKeys]
  | cons op ops ih =>
    have hk : addedKeys (op :: ops) =
        (match op with
          | Op.Add k1 _ => [k1]
          | _ => []) ++ addedKeys ops := by
      cases op <;> simp [addedKeys, List.filterMap_cons]
    rw [hk, List.mem_append, ← ih]
    cases hl : lastAdded ops k with
    | some x =>
      simp [lastAdded, hl]
    | none =>
      cases op with
      | Add k1 v1 =>
        by_cases hkk : k1 = k
        · simp [lastAdded, hl, hkk]
        · have hkk1 : ¬ k = k1 := fun e => hkk e.symm
          simp [lastAdded, hl, hkk, hkk1]
      | Get k1 => simp [lastAdded, hl]
      | RemoveOldest => simp [lastAdded, hl]

/-- A run of `Add` and `Get` calls on a well-formed store of capacity 0: it returns for
every fuel, the callback is not run, and the live entries are the last added pair of every
added key and the old entries of the keys that were not added. -/
theorem run_unbounded {V W : Type} [Value V] (ops : List (Op V))
    (hops : ∀ op ∈ ops, op.isRemoveOldest = false) (fuel : Nat) (c : Cache V W) (hwf : c.WF)
    (h0 : c.maxBytes = 0) :
    ∃ c1, Cache.run fuel c ops = some c1 ∧ c1.WF ∧ c1.maxBytes = 0 ∧ c1.world = c.world ∧
      ∀ k v, ({ key := k, value := v } : entry V) ∈ c1.entries ↔
        (lastAdded ops k = some v ∨
          (lastAdded ops k = none ∧ ({ key := k, value := v } : entry V) ∈ c.entries)) := by
  induction ops generalizing c with
  | nil =>
    refine ⟨c, rfl, hwf, h0, rfl, fun k v => ?_⟩
    simp [lastAdded]
  | cons op ops ih =>
    have hops1 : ∀ op1 ∈ ops, op1.isRemoveOldest = false :=
      fun op1 h1 => hops op1 (List.mem_cons_of_mem _ h1)
    cases op with
    | Add k1 v1 =>
      obtain ⟨c1, hrun, hw1, hm1, hwo1, hmem1⟩ := ih hops1 (c.AddStep k1 v1)
        (WF_AddStep hwf k1 v1) (by rw [AddStep_maxBytes]; exact h0)
      refine ⟨c1, ?_, hw1, hm1, by rw [hwo1, AddStep_world], fun k v => ?_⟩
      · simp only [Cache.run, Cache.step, Add_unbounded c k1 v1 fuel h0, Option.some_bind]
        exact hrun
      · rw [hmem1 k v, mem_entries_AddStep hwf]
        cases hl : lastAdded ops k with
        | some x => simp [lastAdded, hl]
        | none =>
          have hla : lastAdded (Op.Add k1 v1 :: ops) k = if k1 = k then some v1 else none := by
            simp only [lastAdded, hl]
          rw [hla]
          by_cases hkk : k1 = k
          · subst hkk
            rw [if_pos rfl]
            constructor
            · rintro (h | ⟨_, h | h⟩)
              · cases h
              · exact Or.inl (by rw [h.2])
              · exact absurd rfl h.1
            · rintro (h | ⟨h, _⟩)
              · exact Or.inr ⟨rfl, Or.inl ⟨rfl, (Option.some.inj h).symm⟩⟩
              · cases h
          · have hkk1 : k ≠ k1 := fun e => hkk e.symm
            rw [if_neg hkk]
            constructor
            · rintro (h | ⟨_, h | h⟩)
              · cases h
              · exact absurd h.1 hkk1
              · exact Or.inr ⟨rfl, h.2⟩
            · rintro (h | ⟨_, h⟩)
              · cases h
              · exact Or.inr ⟨rfl, Or.inr ⟨hkk1, h⟩⟩
    | Get k1 =>
      obtain ⟨c1, hrun, hw1, hm1, hwo1, hmem1⟩ := ih hops1 (c.Get k1).2 (WF_Get hwf k1)
        (by rw [Get_maxBytes]; exact h0)
      refine ⟨c1, ?_, hw1, hm1, by rw [hwo1, Get_world], fun k v => ?_⟩
      · simp only [Cache.run, Cache.step, Option.some_bind]
        exact hrun
      · rw [hmem1 k v, (Get_entries_perm c k1).mem_iff]
        cases hl : lastAdded ops k with
        | some x => simp [lastAdded, hl]
        | none => simp [lastAdded, hl]
    | RemoveOldest =>
      have := hops Op.RemoveOldest (List.mem_cons_self _ _)
      simp [Op.isRemoveOldest] at this

end lru

/-- Claim C13: a capacity of zero means unbounded. For the store made by `New(0, cb)` and
every sequence of `Add` and `Get` calls: the calls return for every fuel; an `Add` on a
store of capacity 0 is its insert-or-update step, without any `RemoveOldest`; the state that
the callback acts on is the initial one, whatever the callback, so the callback is never
run; `Get(k)` returns the value of the last `Add` of `k` for every added key and misses for
every other key; and `Len()` is the number of distinct keys added. -/
theorem C13_zero_capacity_unbounded {V W : Type} [lru.Value V]
    (cb : Option (lru.Callback V W)) (w : W) (ops : List (lru.Op V))
    (hops : ∀ op ∈ ops, op.isRemoveOldest = false) (fuel : Nat) :
    ∃ c, lru.Cache.run fuel (lru.New 0 cb w) ops = some c ∧
      (∀ (c0 : lru.Cache V W) (k : String) (v : V) (f : Nat), c0.maxBytes = 0 →
        c0.Add f k v = some (c0.AddStep k v)) ∧
      c.world = w ∧
      (∀ k, (c.Get k).1 = lru.lastAdded ops k) ∧
      c.Len = (((lru.addedKeys ops).dedup.length : Nat) : Int) := by
  obtain ⟨c, hrun, hwf, _, hwo, hmem⟩ :=
    lru.run_unbounded ops hops fuel (lru.New 0 cb w) (lru.WF_New 0 cb w) rfl
  have hmem1 : ∀ k v, ({ key := k, value := v } : lru.entry V) ∈ c.entries ↔
      lru.lastAdded ops k = some v := by
    intro k v
    rw [hmem k v]
    constructor
    · rintro (h | ⟨_, h⟩)
      · exact h
      · cases h
    · exact fun h => Or.inl h
  refine ⟨c, hrun, fun c0 k v f h0 => lru.Add_unbounded c0 k v f h0, hwo, fun k => ?_, ?_⟩
  · cases hl : lru.lastAdded ops k with
    | some v => exact (lru.Get_eq_some_iff hwf k v).2 ((hmem1 k v).2 hl)
    | none =>
      rw [lru.Get_eq_none_iff hwf]
      intro x hx hk
      have := (hmem1 k x.value).1 (by rw [← hk]; exact hx)
      rw [hl] at this; cases this
  · have hp : (c.entries.map lru.entry.key).Perm (lru.addedKeys ops).dedup := by
      refine (List.perm_ext_iff_of_nodup hwf.keys_nodup (List.nodup_dedup _)).2 (fun k => ?_)
      rw [List.mem_dedup, ← lru.lastAdded_isSome_iff]
      constructor
      · intro hk
        obtain ⟨x, hx, rfl⟩ := List.mem_map.1 hk
        exact ⟨x.value, (hmem1 x.key x.value).1 hx⟩
      · rintro ⟨v, hv⟩
        exact List.mem_map.2 ⟨_, (hmem1 k v).2 hv, rfl⟩
    have := hp.length_eq
    rw [List.length_map, hwf.length_entries] at this
    unfold lru.Cache.Len
    rw [this]

/-- Witness of C13: capacity 0 with the recording callback and the calls `Add(k1, v1)`,
`Add(k2, v2)`, `Get(k1)`, `Add(k1, v3)`: nothing is recorded, `Len()` is 2 and `Get(k1)`
returns `v3`. -/
theorem C13_witness :
    ((lru.Cache.run 0 (lru.New 0 (some lru.logEvicted) [])
        [lru.Op.Add "k1" swift.v1, lru.Op.Add "k2" swift.v2, lru.Op.Get "k1",
          lru.Op.Add "k1" swift.v3]).map
      (fun c => (c.world, c.Len, (c.Get "k1").1, (c.Get "k2").1)) =
        some ([], 2, some swift.v3, some swift.v2)) ∧
    ∃ c, lru.Cache.run 0 (lru.New 0 (some lru.logEvicted) [])
        [lru.Op.Add "k1" swift.v1, lru.Op.Add "k2" swift.v2, lru.Op.Get "k1",
          lru.Op.Add "k1" swift.v3] = some c ∧
      (∀ (c0 : lru.Cache swift.ByteView (List (String × swift.ByteView))) (k : String)
        (v : swift.ByteView) (f : Nat), c0.maxBytes = 0 →
        c0.Add f k v = some (c0.AddStep k v)) ∧
      c.world = [] ∧
      (∀ k, (c.Get k).1 = lru.lastAdded
        [lru.Op.Add "k1" swift.v1, lru.Op.Add "k2" swift.v2, lru.Op.Get "k1",
          lru.Op.Add "k1" swift.v3] k) ∧
      c.Len = (((lru.addedKeys
        [lru.Op.Add "k1" swift.v1, lru.Op.Add "k2" swift.v2, lru.Op.Get "k1",
          lru.Op.Add "k1" swift.v3]).dedup.length : Nat) : Int) :=
  ⟨by decide,
    C13_zero_capacity_unbounded (some lru.logEvicted) []
      [lru.Op.Add "k1" swift.v1, lru.Op.Add "k2" swift.v2, lru.Op.Get "k1",
        lru.Op.Add "k1" swift.v3] (by decide) 0⟩

/-- Counterexample to C15 as stated: the state reached from `New(10, nil)` by `Add("a", x)`
with `x.Len() = 5` and `Add("b", y)` with `y.Len() = math.MaxInt64` holds both entries; the
sum of `len(key) + value.Len()` over them is `9223372036854775814`, while the running total
has wrapped around to `-9223372036854775802`. -/
theorem C15_counterexample :
    ∃ c : lru.Cache lru.Num Unit,
      lru.Cache.run 0 (lru.New 10 none ())
        [lru.Op.Add "a" { n := 5 }, lru.Op.Add "b" { n := MaxInt64 }] = some c ∧
      c.entries.map lru.entry.key = ["b", "a"] ∧
      c.nbytes = -9223372036854775802 ∧
      (c.entries.map (fun x => len x.key + lru.Value.Len x.value)).sum =
        9223372036854775814 ∧
      c.nbytes ≠ (c.entries.map (fun x => len x.key + lru.Value.Len x.value)).sum :=
  ⟨_, by rfl, by decide, by decide, by decide, by decide⟩

/-- Claim C15, amended: in every state reached from `New` by `Add`, `Get` and `RemoveOldest`
calls the index and the recency list correspond one to one: the entries of the list have
pairwise distinct keys, every linked element carries an entry, the keys of the index are
exactly the keys of the list's entries, every index key maps to a linked element that
carries that key and every linked element is the one its key maps to, so `Len()` is the
number of index keys; and `nbytes` is the sum of `len(key) + value.Len()` over the list's
entries reduced to an `int64` (modulo `2^64`), hence the sum itself whenever the sum lies
between `-2^63` and `math.MaxInt64`. -/
theorem C15_index_list_correspondence {V W : Type} [lru.Value V] (C : Int)
    (cb : Option (lru.Callback V W)) (w : W) (ops : List (lru.Op V)) (fuel : Nat)
    (c : lru.Cache V W) (hc : lru.Cache.run fuel (lru.New C cb w) ops = some c) :
    (c.entries.map lru.entry.key).Nodup ∧
    c.ll.Nodup ∧
    c.entries.length = c.ll.length ∧
    (c.cache.map Prod.fst).Nodup ∧
    (∀ k, k ∈ c.cache.map Prod.fst ↔ k ∈ c.entries.map lru.entry.key) ∧
    (∀ k e, mapIndex c.cache k = some e →
      e ∈ c.ll ∧ ∃ kv, mapIndex c.nodes e = some kv ∧ kv.key = k) ∧
    (∀ e ∈ c.ll, ∃ kv, mapIndex c.nodes e = some kv ∧ mapIndex c.cache kv.key = some e) ∧
    c.Len = (c.cache.length : Int) ∧
    c.nbytes = int64 (c.entries.map (fun x => len x.key + lru.Value.Len x.value)).sum ∧
    (-9223372036854775808 ≤ (c.entries.map (fun x => len x.key + lru.Value.Len x.value)).sum →
      (c.entries.map (fun x => len x.key + lru.Value.Len x.value)).sum ≤ MaxInt64 →
      c.nbytes = (c.entries.map (fun x => len x.key + lru.Value.Len x.value)).sum) := by
  have hwf : c.WF := lru.run_WF _ (lru.WF_New C cb w) hc
  refine ⟨hwf.keys_nodup, hwf.nodup, hwf.length_entries, hwf.keys, hwf.mem_index_iff,
    hwf.index, hwf.node, ?_, hwf.total, fun h1 h2 => ?_⟩
  · unfold lru.Cache.Len
    rw [hwf.length_index]
  · exact hwf.total.trans (int64_of_range h1 h2)

/-- Witness of C15: the store of capacity 8 after `Add(k1, v1)`, `Add(k2, v2)`, `Get(k1)`,
`Add(k3, v3)`, `RemoveOldest()`. -/
theorem C15_witness :
    ∃ c : lru.Cache swift.ByteView Unit,
      lru.Cache.run 1 (lru.New 8 none ())
        [lru.Op.Add "k1" swift.v1, lru.Op.Add "k2" swift.v2, lru.Op.Get "k1",
          lru.Op.Add "k3" swift.v3, lru.Op.RemoveOldest] = some c ∧
      c.entries.map lru.entry.key = ["k3"] ∧
      ((c.entries.map lru.entry.key).Nodup ∧
      c.ll.Nodup ∧
      c.entries.length = c.ll.length ∧
      (c.cache.map Prod.fst).Nodup ∧
      (∀ k, k ∈ c.cache.map Prod.fst ↔ k ∈ c.entries.map lru.entry.key) ∧
      (∀ k e, mapIndex c.cache k = some e →
        e ∈ c.ll ∧ ∃ kv, mapIndex c.nodes e = some kv ∧ kv.key = k) ∧
      (∀ e ∈ c.ll, ∃ kv, mapIndex c.nodes e = some kv ∧ mapIndex c.cache kv.key = some e) ∧
      c.Len = (c.cache.length : Int) ∧
      c.nbytes = int64 (c.entries.map (fun x => len x.key + lru.Value.Len x.value)).sum ∧
      (-9223372036854775808 ≤
          (c.entries.map (fun x => len x.key + lru.Value.Len x.value)).sum →
        (c.entries.map (fun x => len x.key + lru.Value.Len x.value)).sum ≤ MaxInt64 →
        c.nbytes = (c.entries.map (fun x => len x.key + lru.Value.Len x.value)).sum)) :=
  ⟨_, by rfl, by decide,
    C15_index_list_correspondence 8 none ()
      [lru.Op.Add "k1" swift.v1, lru.Op.Add "k2" swift.v2, lru.Op.Get "k1",
        lru.Op.Add "k3" swift.v3, lru.Op.RemoveOldest] 1 _ (by rfl)⟩

/-- Counterexample to C16 as stated: the unbounded store (capacity 0) that holds `a` with a
value of `Len()` 5 is well formed and its total 6 is the sum of the sizes of its entries.
`Add("a", v)` with `v.Len() = math.MaxInt64` triggers no eviction, and
`v.Len() - old.Len()` is `9223372036854775802`; the total after the call is
`-9223372036854775808`, not `6 + 9223372036854775802`. -/
theorem C16_counterexample :
    ∃ c1 : lru.Cache lru.Num Unit,
      lru.storeFree.WF ∧ lru.storeFree.nbytes = lru.storeFree.liveBytes ∧
      lru.storeFree.maxBytes = 0 ∧
      (lru.storeFree.Get "a").1 = some { n := 5 } ∧
      lru.storeFree.Add 0 "a" { n := MaxInt64 } = some c1 ∧
      c1.Len = lru.storeFree.Len ∧
      lru.Value.Len ({ n := MaxInt64 } : lru.Num) - lru.Value.Len ({ n := 5 } : lru.Num) =
        9223372036854775802 ∧
      c1.nbytes = -9223372036854775808 ∧
      c1.nbytes ≠ lru.storeFree.nbytes +
        (lru.Value.Len ({ n := MaxInt64 } : lru.Num) - lru.Value.Len ({ n := 5 } : lru.Num)) :=
  ⟨_, @lru.WF_AddStep lru.Num Unit _ _ (lru.WF_New 0 none ()) "a" { n := 5 },
    by decide, by decide, by decide, by rfl, by decide, by decide, by decide, by decide⟩

/-- Claim C16, amended: updating an existing key. For a well-formed store that holds `k`
with value `old` and a value `v` that triggers no eviction (capacity 0, or the new total at
most the capacity), `Add(k, v)` returns for every fuel and: the entry `(k, v)` is the most
recently used one and the other entries keep their values and their order, the keys and
`Len()` are unchanged, the index is unchanged, `nbytes` changes by `v.Len() - old.Len()` in
`int64` arithmetic (modulo `2^64`), which is a change by exactly `v.Len() - old.Len()`
whenever the new total lies between `-2^63` and `math.MaxInt64`, `Get(k)` returns `v`,
`Get` of every other key returns what it returned before, and the callback is not run. -/
theorem C16_update_existing_key {V W : Type} [lru.Value V] (c : lru.Cache V W) (hwf : c.WF)
    (k : String) (old v : V) (hold : (c.Get k).1 = some old)
    (hno : c.maxBytes = 0 ∨
      int64 (c.nbytes + (lru.Value.Len v - lru.Value.Len old)) ≤ c.maxBytes)
    (fuel : Nat) :
    ∃ c1, c.Add fuel k v = some c1 ∧
      c1.entries = { key := k, value := v } :: c.others k ∧
      c.entries.Perm ({ key := k, value := old } :: c.others k) ∧
      (∀ k1, k1 ∈ c1.entries.map lru.entry.key ↔ k1 ∈ c.entries.map lru.entry.key) ∧
      c1.cache = c.cache ∧
      c1.Len = c.Len ∧
      c1.nbytes = int64 (c.nbytes + (lru.Value.Len v - lru.Value.Len old)) ∧
      (-9223372036854775808 ≤ c.nbytes + (lru.Value.Len v - lru.Value.Len old) →
        c.nbytes + (lru.Value.Len v - lru.Value.Len old) ≤ MaxInt64 →
        c1.nbytes = c.nbytes + (lru.Value.Len v - lru.Value.Len old)) ∧
      (c1.Get k).1 = some v ∧
      (∀ k1, k1 ≠ k → (c1.Get k1).1 = (c.Get k1).1) ∧
      c1.world = c.world := by
  obtain ⟨ele, kv, hi, hmem, hkv, hk, hval⟩ := lru.Get_hit_elem hwf hold
  have hstep := lru.AddStep_old c k v ele kv hi hkv
  have hwf1 := lru.WF_AddStep hwf k v
  have hent : (c.AddStep k v).entries = { key := k, value := v } :: c.others k :=
    lru.entries_AddStep hwf k v
  have hnb : (c.AddStep k v).nbytes =
      int64 (c.nbytes + (lru.Value.Len v - lru.Value.Len old)) := by
    rw [hstep, hval]
  have hmax : (c.AddStep k v).maxBytes = c.maxBytes := lru.AddStep_maxBytes c k v
  have hover : (c.AddStep k v).over = false := by
    rw [lru.not_over_iff, hnb, hmax]; exact hno
  have hadd : c.Add fuel k v = some (c.AddStep k v) := lru.AddLoop_of_not_over fuel _ hover
  have hkmem : ({ key := k, value := old } : lru.entry V) ∈ c.entries :=
    (lru.Get_eq_some_iff hwf k old).1 hold
  have hperm : c.entries.Perm ({ key := k, value := old } :: c.others k) := by
    refine (List.perm_ext_iff_of_nodup ?_ ?_).2 ?_
    · exact (List.Nodup.of_map _ hwf.keys_nodup)
    · rw [List.nodup_cons]
      refine ⟨fun hm => ((lru.mem_others c k _).1 hm).2 rfl, ?_⟩
      exact List.Nodup.sublist (List.filter_sublist _) (List.Nodup.of_map _ hwf.keys_nodup)
    · intro x
      rw [List.mem_cons, lru.mem_others]
      constructor
      · intro hx
        by_cases hxk : x.key = k
        · left
          have h1 := (lru.Get_eq_some_iff hwf k x.value).2 (by rw [← hxk]; exact hx)
          rw [hold] at h1
          have h2 : old = x.value := Option.some.inj h1
          rw [h2, ← hxk]
        · exact Or.inr ⟨hx, hxk⟩
      · rintro (rfl | ⟨hx, _⟩)
        · exact hkmem
        · exact hx
  refine ⟨_, hadd, hent, hperm, ?_, ?_, ?_, hnb,
    fun h1 h2 => hnb.trans (int64_of_range h1 h2), ?_, ?_, ?_⟩
  · intro k1
    rw [hent, List.map_cons, List.mem_cons]
    constructor
    · rintro (rfl | hm)
      · exact List.mem_map.2 ⟨_, hkmem, rfl⟩
      · obtain ⟨x, hx, rfl⟩ := List.mem_map.1 hm
        exact List.mem_map.2 ⟨x, ((lru.mem_others c k x).1 hx).1, rfl⟩
    · intro hm
      obtain ⟨x, hx, rfl⟩ := List.mem_map.1 hm
      by_cases hxk : x.key = k
      · exact Or.inl hxk
      · exact Or.inr (List.mem_map.2 ⟨x, (lru.mem_others c k x).2 ⟨hx, hxk⟩, rfl⟩)
  · rw [hstep]
  · unfold lru.Cache.Len
    rw [hstep]
    exact congrArg _ (lru.MoveToFront_perm c.ll ele).length_eq
  · rw [lru.Get_eq_some_iff hwf1, hent]
    exact List.mem_cons_self _ _
  · intro k1 hk1
    refine lru.Get_congr hwf hwf1 k1 (fun x => ?_)
    rw [hent, List.mem_cons, lru.mem_others]
    constructor
    · rintro (h0 | ⟨hx, _⟩)
      · exact absurd (congrArg lru.entry.key h0) hk1
      · exact hx
    · intro hx
      exact Or.inr ⟨hx, hk1⟩
  · rw [hstep]

/-- Witness of C16: in the store holding `k1`, `k2` (capacity 8) the call `Add(k1, v3)`
replaces `v1`. -/
theorem C16_witness :
    ∃ c1, swift.store12.Add 0 "k1" swift.v3 = some c1 ∧
      c1.entries = { key := "k1", value := swift.v3 } :: swift.store12.others "k1" ∧
      swift.store12.entries.Perm
        ({ key := "k1", value := swift.v1 } :: swift.store12.others "k1") ∧
      (∀ k1, k1 ∈ c1.entries.map lru.entry.key ↔
        k1 ∈ swift.store12.entries.map lru.entry.key) ∧
      c1.cache = swift.store12.cache ∧
      c1.Len = swift.store12.Len ∧
      c1.nbytes = int64 (swift.store12.nbytes +
        (lru.Value.Len swift.v3 - lru.Value.Len swift.v1)) ∧
      (-9223372036854775808 ≤ swift.store12.nbytes +
          (lru.Value.Len swift.v3 - lru.Value.Len swift.v1) →
        swift.store12.nbytes + (lru.Value.Len swift.v3 - lru.Value.Len swift.v1) ≤ MaxInt64 →
        c1.nbytes = swift.store12.nbytes +
          (lru.Value.Len swift.v3 - lru.Value.Len swift.v1)) ∧
      (c1.Get "k1").1 = some swift.v3 ∧
      (∀ k1, k1 ≠ "k1" → (c1.Get k1).1 = (swift.store12.Get k1).1) ∧
      c1.world = swift.store12.world :=
  C16_update_existing_key swift.store12
    (lru.run_WF (lru.adds swift.pairs12) (lru.WF_New 8 none ())
      (by rfl : lru.Cache.run 0 (lru.New 8 none ()) (lru.adds swift.pairs12) =
        some swift.store12))
    "k1" swift.v1 swift.v3 (by decide) (Or.inr (by decide)) 0

namespace lru

/-- Well-formedness does not depend on the state that the callback acts on. -/
theorem Cache.WF.with_world {V W : Type} [Value V] {c : Cache V W} (h : c.WF) (w : W) :
    Cache.WF { c with world := w } :=
  ⟨h.nodup, h.fresh, h.keys, h.node, h.index, h.total⟩

end lru

/-- Counterexample to C17 as stated: the unbounded store that holds `c`, `a`, `b` with
values of `Len()` `-2^62`, `2^62 - 1`, `2^62 - 1` is well formed and its total `2^62 + 1` is
the sum of the sizes of its entries. `RemoveOldest` removes `c`, whose size
`len(k) + v.Len()` is `1 - 2^62`; the total after the call is `-2^63`, not
`2^62 + 1 - (1 - 2^62) = 2^63`. -/
theorem C17_counterexample :
    lru.storeMixed.WF ∧
    lru.storeMixed.nbytes = lru.storeMixed.liveBytes ∧
    lru.storeMixed.nbytes = 4611686018427387905 ∧
    lru.storeMixed.entries.map (fun x => (x.key, x.value)) =
      [("b", { n := 4611686018427387903 }), ("a", { n := 4611686018427387903 }),
        ("c", { n := -4611686018427387904 })] ∧
    lru.storeMixed.RemoveOldest.entries.map lru.entry.key = ["b", "a"] ∧
    len "c" + lru.Value.Len ({ n := -4611686018427387904 } : lru.Num) =
      -4611686018427387903 ∧
    lru.storeMixed.RemoveOldest.nbytes = -9223372036854775808 ∧
    lru.storeMixed.RemoveOldest.nbytes ≠ lru.storeMixed.nbytes -
      (len "c" + lru.Value.Len ({ n := -4611686018427387904 } : lru.Num)) :=
  ⟨@lru.WF_AddStep lru.Num Unit _ _
      (@lru.WF_AddStep lru.Num Unit _ _
        (@lru.WF_AddStep lru.Num Unit _ _ (lru.WF_New 0 none ()) "c"
          { n := -4611686018427387904 }) "a" { n := 4611686018427387903 }) "b"
      { n := 4611686018427387903 },
    by decide, by decide, by decide, by decide, by decide, by decide, by decide⟩

/-- Claim C17, amended: `RemoveOldest` on a store with an empty list changes nothing, so no
callback is run. On a well-formed store with a non-empty list, whose least recently used
entry is `(k, v)` after the entries `rest`, let `c3` be the store with that entry removed:
it has the entries `rest`, no `k` in the index or the list, `Len()` one less, `nbytes` less
by `len(k) + v.Len()` in `int64` arithmetic (modulo `2^64`), which is less by exactly
`len(k) + v.Len()` whenever the new total lies between `-2^63` and `math.MaxInt64`, and it
is well formed. The call ends in `c3` with the callback, if one is configured, applied
exactly once, to `(k, v)`, and the store that the callback finds is `c3`: the entry is
already out of list and index and the total is already decremented. Afterwards `Get(k)`
misses while the index and `Get` are unchanged on every other key. -/
theorem C17_RemoveOldest_removes_lru {V W : Type} [lru.Value V] (c : lru.Cache V W) :
    (c.ll = [] → c.RemoveOldest = c) ∧
    (c.WF → c.ll ≠ [] →
      ∃ (k : String) (v : V) (rest : List (lru.entry V)) (c3 : lru.Cache V W),
        c.entries = rest ++ [{ key := k, value := v }] ∧
        c3.entries = rest ∧
        c3.ll = c.ll.dropLast ∧
        mapIndex c3.cache k = none ∧
        (∀ x ∈ c3.entries, x.key ≠ k) ∧
        c3.Len = c.Len - 1 ∧
        c3.nbytes = int64 (c.nbytes - (len k + lru.Value.Len v)) ∧
        (-9223372036854775808 ≤ c.nbytes - (len k + lru.Value.Len v) →
          c.nbytes - (len k + lru.Value.Len v) ≤ MaxInt64 →
          c3.nbytes = c.nbytes - (len k + lru.Value.Len v)) ∧
        c3.world = c.world ∧
        c3.WF ∧
        c.RemoveOldest =
          { c3 with world :=
              match c.OnEvicted with
              | some f => f k v c3.snapshot c.world
              | none => c.world } ∧
        c.RemoveOldest.entries = rest ∧
        (c.RemoveOldest.Get k).1 = none ∧
        (∀ k1, k1 ≠ k → mapIndex c.RemoveOldest.cache k1 = mapIndex c.cache k1) ∧
        (∀ k1, k1 ≠ k → (c.RemoveOldest.Get k1).1 = (c.Get k1).1)) := by
  constructor
  · intro hnil
    exact lru.RemoveOldest_nil c hnil
  · intro hwf hne
    obtain ⟨e, hlast⟩ : ∃ e, c.ll.getLast? = some e := by
      cases hl : c.ll.getLast? with
      | none => exact absurd (List.getLast?_eq_none_iff.1 hl) hne
      | some e => exact ⟨e, rfl⟩
    obtain ⟨l1, hl⟩ := List.getLast?_eq_some_iff.1 hlast
    obtain ⟨kv, hkv, hent⟩ := hwf.entries_concat hl
    have hR := lru.RemoveOldest_eq c l1 e kv hl hkv
    have hwfR := lru.WF_RemoveOldest hwf
    have hentR := lru.entries_RemoveOldest hwf
    rw [hent, List.dropLast_concat] at hentR
    have hwf3 : lru.Cache.WF
        { c with
          ll := l1, cache := mapDelete c.cache kv.key, nbytes := int64 (c.nbytes - kv.size) } := by
      have := hwfR.with_world c.world
      rw [hR] at this
      exact this
    have hdel : mapIndex (mapDelete c.cache kv.key) kv.key = none := by
      rw [mapIndex_mapDelete, if_pos rfl]
    have hlen : ((l1.length : Nat) : Int) = ((c.ll.length : Nat) : Int) - 1 := by
      rw [hl, List.length_append, List.length_singleton]; push_cast; ring
    have habs : ∀ x ∈ l1.filterMap (mapIndex c.nodes), x.key ≠ kv.key :=
      hwf3.key_absent kv.key hdel
    have hdl : l1 = c.ll.dropLast := by rw [hl, List.dropLast_concat]
    refine ⟨kv.key, kv.value, l1.filterMap (mapIndex c.nodes),
      { c with
        ll := l1, cache := mapDelete c.cache kv.key, nbytes := int64 (c.nbytes - kv.size) },
      hent, rfl, hdl, hdel, habs, hlen, rfl, fun h1 h2 => int64_of_range h1 h2, rfl, hwf3, hR,
      hentR, ?_, ?_, ?_⟩
    · rw [lru.Get_eq_none_iff hwfR, hentR]
      exact habs
    · intro k1 hk1
      rw [hR]
      show mapIndex (mapDelete c.cache kv.key) k1 = mapIndex c.cache k1
      rw [mapIndex_mapDelete, if_neg hk1]
    · intro k1 hk1
      refine lru.Get_congr hwf hwfR k1 (fun x => ?_)
      rw [hentR, hent, List.mem_append, List.mem_singleton]
      constructor
      · exact fun h => Or.inl h
      · rintro (h | h)
        · exact h
        · exact absurd (congrArg lru.entry.key h) hk1

/-- Witness of C17: the store that holds `k1`, `k2` with the callback that records what it
finds. `RemoveOldest` removes `(k1, v1)`; the callback is called once, for `k1`, and finds
a store whose index no longer holds `k1`, whose list has one element and whose total is 4. -/
theorem C17_witness :
    (swift.storeLog.RemoveOldest.world = [("k1", false, 1, 4)] ∧
      swift.storeLog.RemoveOldest.entries.map lru.entry.key = ["k2"] ∧
      swift.storeLog.nbytes = 8 ∧
      swift.storeLog.RemoveOldest.nbytes = 4) ∧
    ∃ (k : String) (v : swift.ByteView) (rest : List (lru.entry swift.ByteView))
      (c3 : lru.Cache swift.ByteView (List (String × Bool × Nat × Int))),
        swift.storeLog.entries = rest ++ [{ key := k, value := v }] ∧
        c3.entries = rest ∧
        c3.ll = swift.storeLog.ll.dropLast ∧
        mapIndex c3.cache k = none ∧
        (∀ x ∈ c3.entries, x.key ≠ k) ∧
        c3.Len = swift.storeLog.Len - 1 ∧
        c3.nbytes = int64 (swift.storeLog.nbytes - (len k + lru.Value.Len v)) ∧
        (-9223372036854775808 ≤ swift.storeLog.nbytes - (len k + lru.Value.Len v) →
          swift.storeLog.nbytes - (len k + lru.Value.Len v) ≤ MaxInt64 →
          c3.nbytes = swift.storeLog.nbytes - (len k + lru.Value.Len v)) ∧
        c3.world = swift.storeLog.world ∧
        c3.WF ∧
        swift.storeLog.RemoveOldest =
          { c3 with world :=
              match swift.storeLog.OnEvicted with
              | some f => f k v c3.snapshot swift.storeLog.world
              | none => swift.storeLog.world } ∧
        swift.storeLog.RemoveOldest.entries = rest ∧
        (swift.storeLog.RemoveOldest.Get k).1 = none ∧
        (∀ k1, k1 ≠ k →
          mapIndex swift.storeLog.RemoveOldest.cache k1 = mapIndex swift.storeLog.cache k1) ∧
        (∀ k1, k1 ≠ k → (swift.storeLog.RemoveOldest.Get k1).1 = (swift.storeLog.Get k1).1) :=
  ⟨by decide,
    (C17_RemoveOldest_removes_lru swift.storeLog).2
      (lru.run_WF (lru.adds swift.pairs12) (lru.WF_New 8 (some lru.logSeen) [])
        (by rfl : lru.Cache.run 0 (lru.New 8 (some lru.logSeen) []) (lru.adds swift.pairs12) =
          some swift.storeLog))
      (by decide)⟩

/-- Claim C18: a just-added entry that fits is retrievable. For a well-formed store whose
capacity `C` is not negative and a key `k` and value `v` with `C = 0` or
`len(k) + v.Len() ≤ C`, `Add(k, v)` returns (given fuel for one round more than the store
has entries) and `Get(k)` right after returns `v`: the loop of `Add` does not evict the
entry that was just inserted or updated. This holds for all values, in particular for
values with `Len() ≥ 0`. -/
theorem C18_added_entry_retrievable {V W : Type} [lru.Value V] (c : lru.Cache V W)
    (hwf : c.WF) (hcap : 0 ≤ c.maxBytes) (k : String) (v : V)
    (hfit : c.maxBytes = 0 ∨ len k + lru.Value.Len v ≤ c.maxBytes) (fuel : Nat)
    (hfuel : c.ll.length + 1 ≤ fuel) :
    ∃ c1, c.Add fuel k v = some c1 ∧ (c1.Get k).1 = some v := by
  obtain ⟨c1, hadd, hwf1, _, _, _⟩ := lru.Add_spec hwf hcap k v fuel hfuel
  obtain ⟨j, hj, hjt⟩ := lru.Add_keeps_new hwf hfit hadd
  refine ⟨c1, hadd, ?_⟩
  rw [lru.Get_eq_some_iff hwf1, hjt, List.take_cons (by omega)]
  exact List.mem_cons_self _ _

/-- Witness of C18: the store of capacity 8 holding `k1`, `k2`; `Add(k3, v3)` evicts `k1`
and `Get(k3)` returns `v3`. -/
theorem C18_witness :
    ∃ c1, swift.store12.Add 3 "k3" swift.v3 = some c1 ∧ (c1.Get "k3").1 = some swift.v3 :=
  C18_added_entry_retrievable swift.store12
    (lru.run_WF (lru.adds swift.pairs12) (lru.WF_New 8 none ())
      (by rfl : lru.Cache.run 0 (lru.New 8 none ()) (lru.adds swift.pairs12) =
        some swift.store12))
    (by decide) "k3" swift.v3 (Or.inr (by decide)) 3 (by decide)

namespace swift

/-- An entry larger than a positive capacity leaves the main cache empty, when the sum of the
sizes of the cached entries and of the new entry is at most `math.MaxInt64`. -/
theorem cache_add_oversized {fuel : Nat} {c mc : cache}
    (hwf : ∀ l, c.lru = some l → l.WF ∧ l.maxBytes = c.cacheBytes) (hcap : 0 < c.cacheBytes)
    {key : String} {v : ByteView}
    (hsum : (c.entries.map lru.entry.size).sum + (len key + v.Len) ≤ 9223372036854775807)
    (hbig : c.cacheBytes < len key + v.Len)
    (h : c.add fuel key v = some mc) : mc.entries = [] := by
  obtain ⟨hs1, hs2, hs3⟩ := cache_store_WF hwf
  rw [cache_add_eq] at h
  cases ha : (c.lru.getD (lru.New c.cacheBytes none ())).Add fuel key v with
  | none => rw [ha] at h; cases h
  | some l1 =>
    rw [ha] at h
    simp only [Option.map_some', Option.some.injEq] at h
    subst h
    have := lru.Add_oversized hs1 (by rw [hs2]; exact hcap)
      (fun x _ => ByteView_Len_nonneg x.value)
      (by unfold lru.Cache.liveBytes; rw [hs3]; exact hsum) (by rw [hs2]; exact hbig) ha
    simp [cache.entries, this.2]

end swift

/-- Counterexample to C19 as stated, at two inputs. A well-formed store of capacity 10 holds
the key `a` with a value whose `Len()` is -100; the entry `(k, 50)` has
`len(k) + v.Len() = 51 > 10`, yet after `Add` returns the store holds both entries, the
total is -48, and `Get(k)` is a hit. And on the empty store of capacity 10 the entry
`(k, v)` with `v.Len() = math.MaxInt64` has `len(k) + v.Len() = 2^63 > 10`, yet after `Add`
returns the store holds it, the total has wrapped around to `-2^63`, and `Get(k)` is a
hit. -/
theorem C19_counterexample :
    (∃ c1 : lru.Cache lru.Num Unit,
      lru.storeNeg.WF ∧ 0 < lru.storeNeg.maxBytes ∧
      lru.storeNeg.maxBytes < len "k" + lru.Value.Len ({ n := 50 } : lru.Num) ∧
      lru.storeNeg.Add 5 "k" { n := 50 } = some c1 ∧
      c1.Len = 2 ∧ c1.nbytes = -48 ∧ (c1.Get "k").1 = some { n := 50 }) ∧
    (∃ c1 : lru.Cache lru.Num Unit,
      (lru.New 10 none () : lru.Cache lru.Num Unit).WF ∧
      0 < (lru.New 10 none () : lru.Cache lru.Num Unit).maxBytes ∧
      (lru.New 10 none () : lru.Cache lru.Num Unit).maxBytes <
        len "k" + lru.Value.Len ({ n := MaxInt64 } : lru.Num) ∧
      (lru.New 10 none () : lru.Cache lru.Num Unit).Add 5 "k" { n := MaxInt64 } = some c1 ∧
      c1.Len = 1 ∧ c1.nbytes = -9223372036854775808 ∧
      (c1.Get "k").1 = some { n := MaxInt64 }) :=
  ⟨⟨_, @lru.WF_AddStep lru.Num Unit _ _ (lru.WF_New 10 none ()) "a" { n := -100 },
      by decide, by decide, by rfl, by decide, by decide, by decide⟩,
    ⟨_, lru.WF_New 10 none (), by decide, by decide, by rfl, by decide, by decide,
      by decide⟩⟩

/-- Claim C19, amended: an oversized entry flushes a store whose values have `Len() ≥ 0`,
as long as the `int64` total does not wrap around. For a well-formed store of capacity
`C > 0` whose values have lengths that are not negative and a key `k` and value `v` with
`len(k) + v.Len() > C`, such that the sum of the sizes of the stored entries and of the new
entry is at most `math.MaxInt64`, `Add(k, v)` returns and leaves the store empty
(`Len() = 0`, total 0, empty index), so `Get` misses for `k` and for every other key. For a
valid group of capacity `C > 0`, a non-empty key that misses the cache and gets no value
from a peer, and a source loader that returns `bytes` with `len(key) + len(bytes) > C`,
under the same bound on the sum of the sizes: `Get(key)` returns `bytes` without error, the
cache of the group is empty afterwards and `key` still misses. -/
theorem C19_oversized_entry_flushes_store {V W : Type} [lru.Value V] :
    (∀ (c : lru.Cache V W) (k : String) (v : V), c.WF → 0 < c.maxBytes →
      (∀ x ∈ c.entries, 0 ≤ lru.Value.Len x.value) →
      c.maxBytes < len k + lru.Value.Len v →
      c.liveBytes + (len k + lru.Value.Len v) ≤ MaxInt64 →
      ∀ fuel, c.ll.length + 1 ≤ fuel →
        ∃ c1, c.Add fuel k v = some c1 ∧ c1.Len = 0 ∧ c1.nbytes = 0 ∧ c1.entries = [] ∧
          c1.cache = [] ∧ (c1.Get k).1 = none ∧ ∀ k1, (c1.Get k1).1 = none) ∧
    (∀ (g : swift.Group) (key : String) (bytes : List UInt8), g.Valid → g.peerFails key →
      key ≠ "" → (g.mainCache.get key).1 = none → g.getter key = Except.ok bytes →
      0 < g.mainCache.cacheBytes →
      g.mainCache.cacheBytes < len key + (swift.ByteView.mk bytes).Len →
      (g.mainCache.entries.map lru.entry.size).sum + (len key + (swift.ByteView.mk bytes).Len) ≤
        MaxInt64 →
      ∃ fuel0, ∀ fuel, fuel0 ≤ fuel →
        ∃ g1, g.Get fuel key = some ((swift.ByteView.mk bytes, none), g1) ∧
          g1.mainCache.entries = [] ∧ (g1.mainCache.get key).1 = none) := by
  constructor
  · intro c k v hwf hcap hpos hbig hsum fuel hfuel
    obtain ⟨c1, hadd, _, _, _, _⟩ := lru.Add_spec hwf (le_of_lt hcap) k v fuel hfuel
    obtain ⟨hwf1, hent⟩ := lru.Add_oversized hwf hcap hpos hsum hbig hadd
    obtain ⟨hll, hidx, hnb⟩ := hwf1.empty_of_entries hent
    have hmiss : ∀ k1, (c1.Get k1).1 = none := fun k1 => by
      rw [lru.Get_eq_none_iff hwf1, hent]
      intro x hx; cases hx
    refine ⟨c1, hadd, ?_, hnb, hent, hidx, hmiss k, hmiss⟩
    unfold lru.Cache.Len
    rw [hll]; rfl
  · intro g key bytes hv hpf hkey hmiss hget hcap hbig hsum
    refine ⟨g.mainCache.entries.length + 1, fun fuel hfuel => ?_⟩
    have hwf : ∀ l, g.mainCache.lru = some l → l.WF := fun l hl => (hv.wf l hl).1
    have hm := swift.cache_get_miss hwf hmiss
    have hidle : key ∉ g.loader.m := by rw [hv.idle]; simp
    obtain ⟨mc, hmc⟩ := swift.cache_add_terminates hv.wf (le_of_lt hcap) key
      (swift.ByteView.mk bytes) fuel hfuel
    have hent := swift.cache_add_oversized hv.wf hcap hsum hbig hmc
    have hwfmc := (swift.cache_add_spec hv.wf hmc).1
    rw [swift.Group_Get_miss fuel g key hkey hm, swift.load_of_peerFails fuel g key hidle hpf,
      swift.getLocal_ok fuel
        { g with calls := g.calls ++ swift.Call.Do key :: g.peerCalls key } key bytes hget]
    simp only [hmc, Option.map_some']
    refine ⟨_, rfl, hent, ?_⟩
    cases hg : (mc.get key).1 with
    | none => rfl
    | some x =>
      have := (swift.cache_get_eq_some_iff (fun l hl => (hwfmc l hl).1) key x).1 hg
      rw [hent] at this; cases this

/-- Witness of C19: the store of capacity 8 holding `k1`, `k2` and the entry
`(k3, 6306300)` of size 9; and the group of capacity 1 with the key `Tom`, whose loaded
entry has size 6. -/
theorem C19_witness :
    (∃ c1, swift.store12.Add 3 "k3" (swift.ByteView.mk [54, 51, 48, 54, 51, 48, 48]) = some c1 ∧
      c1.Len = 0 ∧ c1.nbytes = 0 ∧ c1.entries = [] ∧ c1.cache = [] ∧
      (c1.Get "k3").1 = none ∧ ∀ k1, (c1.Get k1).1 = none) ∧
    (∃ fuel0, ∀ fuel, fuel0 ≤ fuel →
      ∃ g1, swift.scoresTiny.Get fuel "Tom" =
          some ((swift.ByteView.mk [54, 51, 48], none), g1) ∧
        g1.mainCache.entries = [] ∧ (g1.mainCache.get "Tom").1 = none) :=
  ⟨(@C19_oversized_entry_flushes_store swift.ByteView Unit _).1 swift.store12 "k3"
      (swift.ByteView.mk [54, 51, 48, 54, 51, 48, 48])
      (lru.run_WF (lru.adds swift.pairs12) (lru.WF_New 8 none ())
        (by rfl : lru.Cache.run 0 (lru.New 8 none ()) (lru.adds swift.pairs12) =
          some swift.store12))
      (by decide) (fun x _ => swift.ByteView_Len_nonneg x.value) (by decide) (by decide) 3
      (by decide),
    (@C19_oversized_entry_flushes_store swift.ByteView Unit _).2 swift.scoresTiny "Tom"
      [54, 51, 48] swift.scoresTiny_valid trivial (by decide) (by rfl) (by rfl) (by decide)
      (by decide) (by decide)⟩

/-- Claim C20: termination of the loop of `Add`. For a well-formed store whose capacity is
not negative, `Add(k, v)` returns, given fuel for one round more than the store has
entries, and its loop calls `RemoveOldest` `n` times with `n` at most the number of entries
before the call plus one: the guard holds before each of the `n` calls and fails after the
last. This holds for all values, in particular for values with `Len() ≥ 0`. The bound on
the capacity is needed: for every negative capacity the empty store satisfies the guard
and `RemoveOldest` leaves it unchanged, so the loop returns for no fuel; `Add` to the new
store of an entry with `Len() ≥ 0` and a size of at most `math.MaxInt64` returns for no
fuel, and neither does `Get` of a key that the source loader knows, with an entry size of at
most `math.MaxInt64`, on the group that `NewGroup` makes with that capacity. -/
theorem C20_Add_loop_terminates {V W : Type} [lru.Value V] :
    (∀ (c : lru.Cache V W) (k : String) (v : V), c.WF → 0 ≤ c.maxBytes →
      ∀ fuel, c.ll.length + 1 ≤ fuel →
        ∃ (n : Nat) (c1 : lru.Cache V W), n ≤ c.ll.length + 1 ∧
          c.Add fuel k v = some c1 ∧
          c1 = Nat.iterate lru.Cache.RemoveOldest n (c.AddStep k v) ∧
          (∀ m, m < n →
            (Nat.iterate lru.Cache.RemoveOldest m (c.AddStep k v)).over = true) ∧
          c1.over = false) ∧
    (∀ (maxBytes : Int) (cb : Option (lru.Callback V W)) (w : W), maxBytes < 0 →
      (lru.New maxBytes cb w).nbytes = 0 ∧
      (lru.New maxBytes cb w).over = true ∧
      (lru.New maxBytes cb w).RemoveOldest = lru.New maxBytes cb w ∧
      (∀ fuel, lru.Cache.AddLoop fuel (lru.New maxBytes cb w) = none) ∧
      ∀ (k : String) (v : V), 0 ≤ lru.Value.Len v → len k + lru.Value.Len v ≤ MaxInt64 →
        ∀ fuel, (lru.New maxBytes cb w).Add fuel k v = none) ∧
    (∀ (name : String) (cacheBytes : Int) (getter : swift.Getter) (key : String)
      (bytes : List UInt8), cacheBytes < 0 → key ≠ "" → getter key = Except.ok bytes →
      len key + (swift.ByteView.mk bytes).Len ≤ MaxInt64 →
      ∀ fuel, (swift.Group.fresh name cacheBytes getter).Get fuel key = none) := by
  refine ⟨?_, ?_, ?_⟩
  · intro c k v hwf hcap fuel hfuel
    have hwf1 := lru.WF_AddStep hwf k v
    have hlen := lru.AddStep_length_le hwf k v
    obtain ⟨c1, hc1⟩ := lru.AddLoop_terminates hwf1
      (by rw [lru.AddStep_maxBytes]; exact hcap) (c.AddStep k v).ll.length (le_refl _)
    obtain ⟨n, hn, hit, hov, hend⟩ := lru.AddLoop_iterate hc1
    exact ⟨n, c1, le_trans hn hlen, lru.AddLoop_mono hc1 fuel (le_trans hlen hfuel), hit, hov,
      hend⟩
  · intro maxBytes cb w hneg
    have hwf0 : (lru.New maxBytes cb w : lru.Cache V W).WF := lru.WF_New maxBytes cb w
    refine ⟨rfl, ?_, lru.RemoveOldest_nil _ rfl, ?_, ?_⟩
    · rw [lru.over_iff]
      exact ⟨ne_of_lt hneg, hneg⟩
    · intro fuel
      exact lru.AddLoop_diverges hwf0 hneg (fun x hx => by cases hx)
        (by simp [lru.Cache.liveBytes, lru.Cache.entries, lru.New]) fuel
    · intro k v hv hsum fuel
      refine lru.AddLoop_diverges (lru.WF_AddStep hwf0 k v)
        (by rw [lru.AddStep_maxBytes]; exact hneg) ?_ ?_ fuel
      · intro x hx
        rw [lru.entries_AddStep hwf0 k v] at hx
        rcases List.mem_cons.1 hx with h | h
        · rw [h]; exact hv
        · have := (List.mem_filter.1 h).1
          cases this
      · unfold lru.Cache.liveBytes
        rw [lru.entries_AddStep hwf0 k v]
        exact le_of_eq_of_le (by simp [lru.Cache.entries, lru.New, lru.entry.size]) hsum
  · intro name cacheBytes getter key bytes hneg hkey hget hsum fuel
    have hm : (swift.Group.fresh name cacheBytes getter).mainCache.get key =
        (none, (swift.Group.fresh name cacheBytes getter).mainCache) := rfl
    have hidle : key ∉ (swift.Group.fresh name cacheBytes getter).loader.m := by
      simp [swift.Group.fresh]
    obtain ⟨hpf, hpc⟩ := swift.peerFails_of_none (swift.Group.fresh name cacheBytes getter) key
      rfl
    rw [swift.Group_Get_miss fuel _ key hkey hm, swift.load_of_peerFails fuel _ key hidle hpf,
      hpc, swift.getLocal_ok fuel
        { swift.Group.fresh name cacheBytes getter with
          calls := (swift.Group.fresh name cacheBytes getter).calls ++ [swift.Call.Do key] }
        key bytes hget, swift.cache_add_eq]
    have hwf0 : (lru.New cacheBytes none () : lru.Cache swift.ByteView Unit).WF :=
      lru.WF_New cacheBytes none ()
    have hdiv : (lru.New cacheBytes none () : lru.Cache swift.ByteView Unit).Add fuel key
        (swift.ByteView.mk bytes) = none := by
      refine lru.AddLoop_diverges (lru.WF_AddStep hwf0 _ _)
        (by rw [lru.AddStep_maxBytes]; exact hneg) ?_ ?_ fuel
      · intro x _
        exact swift.ByteView_Len_nonneg x.value
      · unfold lru.Cache.liveBytes
        rw [lru.entries_AddStep hwf0 key (swift.ByteView.mk bytes)]
        exact le_of_eq_of_le (by simp [lru.Cache.entries, lru.New, lru.entry.size]; rfl) hsum
    show Option.map _ (Option.map _ (lru.Cache.Add fuel (lru.New cacheBytes none ()) key
      (swift.ByteView.mk bytes))) = none
    rw [hdiv]; rfl

/-- Witness of C20: `Add(k3, v3)` on the store of capacity 8 holding `k1`, `k2`; the empty
store of capacity -1; and `Get("Tom")` on the group of the test made with capacity -1. -/
theorem C20_witness :
    (∃ (n : Nat) (c1 : lru.Cache swift.ByteView Unit), n ≤ swift.store12.ll.length + 1 ∧
      swift.store12.Add 3 "k3" swift.v3 = some c1 ∧
      c1 = Nat.iterate lru.Cache.RemoveOldest n (swift.store12.AddStep "k3" swift.v3) ∧
      (∀ m, m < n →
        (Nat.iterate lru.Cache.RemoveOldest m (swift.store12.AddStep "k3" swift.v3)).over =
          true) ∧
      c1.over = false) ∧
    ((lru.New (-1) none () : lru.Cache swift.ByteView Unit).nbytes = 0 ∧
      (lru.New (-1) none () : lru.Cache swift.ByteView Unit).over = true ∧
      (lru.New (-1) none () : lru.Cache swift.ByteView Unit).RemoveOldest =
        lru.New (-1) none () ∧
      (∀ fuel, lru.Cache.AddLoop fuel
        (lru.New (-1) none () : lru.Cache swift.ByteView Unit) = none) ∧
      ∀ (k : String) (v : swift.ByteView), 0 ≤ lru.Value.Len v →
        len k + lru.Value.Len v ≤ MaxInt64 →
        ∀ fuel, (lru.New (-1) none () : lru.Cache swift.ByteView Unit).Add fuel k v = none) ∧
    (∀ fuel, (swift.Group.fresh "scores" (-1) swift.db).Get fuel "Tom" = none) :=
  ⟨(@C20_Add_loop_terminates swift.ByteView Unit _).1 swift.store12 "k3" swift.v3
      (lru.run_WF (lru.adds swift.pairs12) (lru.WF_New 8 none ())
        (by rfl : lru.Cache.run 0 (lru.New 8 none ()) (lru.adds swift.pairs12) =
          some swift.store12))
      (by decide) 3 (by decide),
    (@C20_Add_loop_terminates swift.ByteView Unit _).2.1 (-1) none () (by decide),
    (@C20_Add_loop_terminates swift.ByteView Unit _).2.2 "scores" (-1) swift.db "Tom"
      [54, 51, 48] (by decide) (by decide) (by rfl) (by decide)⟩
